import Mathlib

/-!
# tohls: format descriptors, rendition planning and the bitrate ladder

A shallow embedding of `main.go`:

* Go `int` is the 64-bit two's complement integer; values are `Int`, and the
  arithmetic that can overflow is wrapped with `wrap64`.
* Go `float64` is IEEE-754 binary64, embedded as `F64` with round-to-nearest-even
  arithmetic carried out exactly on naturals.
* Go strings are lists of characters; every separator the program looks for
  (`:`, `p`, `x`, the sign and the digits) is ASCII.
* A Go result pair `(value, error)` is a pair whose second component is
  `none` for `nil`.
* The library functions `strconv.Atoi` and `strconv.ParseFloat` are embedded after the
  library's source; `parseFormat` takes the float parser as an argument, and
  `strconvParseFloat` is the one the program passes.
-/

namespace Tohls

/-! ## Machine integers -/

/-- Two's complement wrap-around of a mathematical integer into the range of Go's 64-bit `int`. -/
def wrap64 (n : Int) : Int := (n + 2 ^ 63) % 2 ^ 64 - 2 ^ 63

/-! ## IEEE-754 binary64 -/

/-- A float64 value: `fin neg m e` is `(-1)^neg * m * 2^e`; zero is `fin neg 0 (-1074)`.
Values produced by the arithmetic below have `m < 2^53` and `-1074 ≤ e ≤ 971`. -/
inductive F64 where
  | fin (neg : Bool) (m : Nat) (e : Int)
  | inf (neg : Bool)
  | nan
deriving DecidableEq, Repr

/-- Number of binary digits of `n`, by halving (`fuel` bounds the number of halvings). -/
def bitLen : Nat → Nat → Nat
  | 0, _ => 0
  | fuel + 1, n => if n = 0 then 0 else bitLen fuel (n / 2) + 1

/-- The fraction `a / b * 2^s` as a pair (numerator, denominator). -/
def scaleFrac (a b : Nat) (s : Int) : Nat × Nat :=
  if 0 ≤ s then (a <<< s.toNat, b) else (a, b <<< (-s).toNat)

/-- The integer nearest to `num / den`, ties going to the even neighbour. -/
def roundHalfEven (num den : Nat) : Nat :=
  if den < 2 * (num % den) ∨ (2 * (num % den) = den ∧ (num / den) % 2 = 1) then num / den + 1
  else num / den

/-- The integer `floor (log2 (a / b))` for positive `a` and `b`. -/
def floorLog2Frac (a b : Nat) : Int :=
  if (scaleFrac a b (-((bitLen a a : Int) - (bitLen b b : Int)))).2
      ≤ (scaleFrac a b (-((bitLen a a : Int) - (bitLen b b : Int)))).1
  then (bitLen a a : Int) - (bitLen b b : Int)
  else (bitLen a a : Int) - (bitLen b b : Int) - 1

/-- The exponent of the unit in the last place used to represent `a / b * 2^e`:
53 significant bits, never below the subnormal exponent. -/
def ulpExp (a b : Nat) (e : Int) : Int := max (floorLog2Frac a b + e - 52) (-1074)

/-- The integer significand of `a / b * 2^e`: the quotient by the unit in the last place,
rounded to nearest, ties to even. -/
def roundedMant (a b : Nat) (e : Int) : Nat :=
  roundHalfEven (scaleFrac a b (e - ulpExp a b e)).1 (scaleFrac a b (e - ulpExp a b e)).2

/-- The float64 nearest to `(-1)^neg * (a / b) * 2^e` (round to nearest, ties to even).
The rounded magnitude `m * 2^E` overflows to an infinity when it reaches `2^1024`, that
is when `m` has more than `1024 - E` binary digits. Every float64 operation is its exact
result rounded this way. -/
def F64.ofFrac (neg : Bool) (a b : Nat) (e : Int) : F64 :=
  if a = 0 then .fin neg 0 (-1074)
  else if 1024 < (bitLen (roundedMant a b e) (roundedMant a b e) : Int) + ulpExp a b e
    then .inf neg
  else if roundedMant a b e = 2 ^ 53 then .fin neg (2 ^ 52) (ulpExp a b e + 1)
  else .fin neg (roundedMant a b e) (ulpExp a b e)

/-- The zero value of a float64 field (`+0`). -/
def F64.zero : F64 := .fin false 0 (-1074)

instance : Inhabited F64 := ⟨F64.zero⟩

/-- Go's `x == 0` on float64: true for both zeros, false for NaN. -/
def F64.isZero : F64 → Bool
  | .fin _ m _ => m = 0
  | _ => false

/-- Go's conversion `float64(n)` of an `int`. -/
def F64.ofInt (n : Int) : F64 := F64.ofFrac (decide (n < 0)) n.natAbs 1 0

/-- Float64 multiplication `x * y`. -/
def F64.mul : F64 → F64 → F64
  | .nan, _ => .nan
  | _, .nan => .nan
  | .inf s, .inf t => .inf (xor s t)
  | .inf s, .fin t m _ => if m = 0 then .nan else .inf (xor s t)
  | .fin s m _, .inf t => if m = 0 then .nan else .inf (xor s t)
  | .fin s m e, .fin t n f => F64.ofFrac (xor s t) (m * n) 1 (e + f)

/-- Float64 division `x / y`. -/
def F64.div : F64 → F64 → F64
  | .nan, _ => .nan
  | _, .nan => .nan
  | .inf _, .inf _ => .nan
  | .inf s, .fin t _ _ => .inf (xor s t)
  | .fin s _ _, .inf t => .fin (xor s t) 0 (-1074)
  | .fin s m e, .fin t n f =>
    if n = 0 then (if m = 0 then .nan else .inf (xor s t))
    else F64.ofFrac (xor s t) m n (e - f)

/-- Go's `math.Round`: the nearest integer, halves away from zero; zeros, infinities
and NaN are returned unchanged. With `k = -e` fraction bits the integer part is `m >>> k`
and it is incremented exactly when the first fraction bit is set. -/
def F64.round : F64 → F64
  | .fin s m e =>
    if 0 ≤ e then .fin s m e
    else F64.ofFrac s (m >>> (-e).toNat + (m >>> ((-e).toNat - 1)) % 2) 1 0
  | x => x

/-- The magnitude of a finite float64 with its fraction discarded. -/
def F64.truncNat (m : Nat) (e : Int) : Nat :=
  if 0 ≤ e then m <<< e.toNat else m >>> (-e).toNat

/-- Go's conversion `int(x)` of a float64: the fraction is discarded (truncation
toward zero). When the value does not fit in an `int` (or is an infinity or NaN) Go
leaves the result to the implementation; the amd64 compiler's result, the least
`int`, is used. -/
def F64.toInt : F64 → Int
  | .fin s m e =>
    if -(2 : Int) ^ 63 ≤ (if s then -(F64.truncNat m e : Int) else (F64.truncNat m e : Int)) ∧
        (if s then -(F64.truncNat m e : Int) else (F64.truncNat m e : Int)) < 2 ^ 63
    then (if s then -(F64.truncNat m e : Int) else (F64.truncNat m e : Int))
    else -(2 : Int) ^ 63
  | _ => -(2 : Int) ^ 63

/-- A float64 in the form the arithmetic produces: a finite value has a significand
below `2^53`. -/
def F64.Canonical (x : F64) : Prop := ∀ s m e, x = .fin s m e → m < 2 ^ 53

/-- The rational number a finite float64 stands for (0 for infinities and NaN). -/
def F64.toRat : F64 → ℚ
  | .fin s m e => (if s then -1 else 1) * (m : ℚ) * (2 : ℚ) ^ e
  | _ => 0

/-- A rational number with its fraction discarded (truncation toward zero). -/
def truncRat (q : ℚ) : Int := if 0 ≤ q then ⌊q⌋ else ⌈q⌉

/-! ## Strings -/

/-- Go's `strings.Split(s, sep)` for a one-character separator: the pieces between
the occurrences of `sep`, one more piece than there are occurrences. -/
def split (sep : Char) : List Char → List (List Char)
  | [] => [[]]
  | c :: cs =>
    if c = sep then [] :: split sep cs
    else match split sep cs with
      | [] => [[c]]
      | p :: ps => (c :: p) :: ps

/-- Go's `strings.HasSuffix(s, suffix)` for a one-character suffix. -/
def hasSuffix (s : List Char) (c : Char) : Bool := s.getLast? = some c

/-- Go's `strings.TrimSuffix(s, suffix)` for a one-character suffix. -/
def trimSuffix (s : List Char) (c : Char) : List Char :=
  if hasSuffix s c then s.dropLast else s

/-- Go's `strings.Cut(s, sep)` for a one-character separator: the text before and
after the first `sep`, or `none` when `sep` does not occur (`found = false`). -/
def cut (sep : Char) : List Char → Option (List Char × List Char)
  | [] => none
  | c :: cs =>
    if c = sep then some ([], cs)
    else match cut sep cs with
      | none => none
      | some (b, a) => some (c :: b, a)

/-- The value of a string of decimal digits, `none` when a character is not a digit. -/
def parseDigits : List Char → Nat → Option Nat
  | [], acc => some acc
  | c :: cs, acc => if c.isDigit then parseDigits cs (acc * 10 + (c.toNat - 48)) else none

/-- Go's `strconv.Atoi` on a 64-bit platform: an optional sign, then one or more
decimal digits, the value within the range of `int`; `none` is a non-nil error. -/
def Atoi (s : List Char) : Option Int :=
  if (if s.head? = some '-' ∨ s.head? = some '+' then s.tail else s) = [] then none
  else match parseDigits (if s.head? = some '-' ∨ s.head? = some '+' then s.tail else s) 0 with
    | none => none
    | some n =>
      if s.head? = some '-' then (if n ≤ 2 ^ 63 then some (-(n : Int)) else none)
      else (if n < 2 ^ 63 then some (n : Int) else none)

/-! ## Format descriptors -/

/-- The struct `ParsedFormat`; the defaults are Go's zero values. -/
structure ParsedFormat where
  Width : Int := 0
  Height : Int := 0
  FrameRate : F64 := F64.zero
  QualityFactor : F64 := F64.zero
deriving DecidableEq, Repr

/-- The size block of `parseFormat`: `Hp` gives (0, H), `WxH` gives (W, H); `none`
is the early return with the error. -/
def parseSize (size : List Char) : Option (Int × Int) :=
  if hasSuffix size 'p' then
    match Atoi (trimSuffix size 'p') with
    | none => none
    | some h => some (0, h)
  else
    match cut 'x' size with
    | none => none
    | some (w, h) =>
      match Atoi w with
      | none => none
      | some pw =>
        match Atoi h with
        | none => none
        | some ph => some (pw, ph)

/-- The frame-rate and quality blocks of `parseFormat`: an empty field leaves the zero
value, any other field goes through `strconv.ParseFloat`. -/
def parseField (ParseFloat : List Char → Option F64) (field : List Char) : Option F64 :=
  if field = [] then some F64.zero else ParseFloat field

/-- The function `parseFormat`. `ParseFloat` is `strconv.ParseFloat(·, 64)` of the Go
library, `none` standing for a non-nil error. -/
def parseFormat (ParseFloat : List Char → Option F64) (v : List Char) :
    ParsedFormat × Option String :=
  match split ':' v with
  | [size, frameRate, qualityFactor] =>
    match parseSize size with
    | none => ({}, some "malformed format")
    | some (w, h) =>
      match parseField ParseFloat frameRate with
      | none => ({}, some "malformed format")
      | some fr =>
        match parseField ParseFloat qualityFactor with
        | none => ({}, some "malformed format")
        | some q => ({ Width := w, Height := h, FrameRate := fr, QualityFactor := q }, none)
  | _ => ({}, some "malformed format")

/-! ## Rendition planning -/

/-- The struct `ProbeResult`. -/
structure ProbeResult where
  Width : Int := 0
  Height : Int := 0
  FrameRate : F64 := F64.zero
deriving DecidableEq, Repr

/-- The constant `QualityMed`, the float64 nearest to 0.11. -/
def QualityMed : F64 := F64.ofFrac false 11 100 0

/-- The width `processFile` derives from the source aspect ratio:
`int(math.Round(float64(probe.Width) / float64(probe.Height) * float64(height)))`. -/
def derivedWidth (probe : ProbeResult) (height : Int) : Int :=
  F64.toInt (F64.round (F64.mul (F64.div (F64.ofInt probe.Width) (F64.ofInt probe.Height))
    (F64.ofInt height)))

/-- One iteration of the first loop of `processFile`, for the descriptor `formats[i] = f`,
statement by statement. The result is the pair (`adjustedFormats[i]`, `formats[i]`) as the
iteration leaves them; `adjustedFormats[i]` starts as the zero value that `make` puts
there. -/
def planOne (probe : ProbeResult) (f : ParsedFormat) : ParsedFormat × ParsedFormat :=
  let adjusted : ParsedFormat := {}
  let adjusted := { adjusted with Height := f.Height }
  let adjusted :=
    if f.Width = 0 then
      (if Int.tmod (derivedWidth probe f.Height) 2 ≠ 0
        then { adjusted with Width := wrap64 (derivedWidth probe f.Height + 1) }
        else { adjusted with Width := derivedWidth probe f.Height })
    else adjusted
  let adjusted :=
    if f.FrameRate.isZero then { adjusted with FrameRate := probe.FrameRate } else adjusted
  let f := if f.QualityFactor.isZero then { f with QualityFactor := QualityMed } else f
  (adjusted, f)

/-- The first loop of `processFile` over the whole slice: iteration `i` reads and writes
index `i` only, so the loop is `planOne` element by element. The result is the pair
(`adjustedFormats`, `formats`) after the loop. -/
def planFormats (probe : ProbeResult) : List ParsedFormat → List ParsedFormat × List ParsedFormat
  | [] => ([], [])
  | f :: fs =>
    ((planOne probe f).1 :: (planFormats probe fs).1,
     (planOne probe f).2 :: (planFormats probe fs).2)

/-- The struct `BitRates`. -/
structure BitRates where
  VideoBitRate : Int := 0
  MaximumVideoBitRate : Int := 0
  BufferSize : Int := 0
  AudioBitRate : Int := 0
deriving DecidableEq, Repr

/-- The float64 product `float64(f.Width*f.Height) * f.FrameRate * float64(f.QualityFactor)`
that `NewBitRates` converts to the video bitrate. -/
def videoProduct (f : ParsedFormat) : F64 :=
  F64.mul (F64.mul (F64.ofInt (wrap64 (f.Width * f.Height))) f.FrameRate) f.QualityFactor

/-- The float64 product `.07 * float64(v)` that `NewBitRates` converts to the maximum
video bitrate. -/
def maxProduct (v : Int) : F64 := F64.mul (F64.ofFrac false 7 100 0) (F64.ofInt v)

/-- The local `area := f.Width * f.Height` of `NewBitRates`, a 64-bit product. -/
def area (f : ParsedFormat) : Int := wrap64 (f.Width * f.Height)

/-- The function `NewBitRates`. -/
def NewBitRates (f : ParsedFormat) : BitRates :=
  { VideoBitRate := F64.toInt (videoProduct f)
    MaximumVideoBitRate := F64.toInt (maxProduct (F64.toInt (videoProduct f)))
    BufferSize := wrap64 (F64.toInt (maxProduct (F64.toInt (videoProduct f))) * 2)
    AudioBitRate :=
      if area f ≤ 640 * 360 then 96000
      else if area f ≤ 1280 * 720 then 128000
      else 192000 }

/-- The struct `Stream`. -/
structure Stream where
  Width : Int := 0
  Height : Int := 0
  Bandwidth : Int := 0
  FileName : List Char := []
deriving DecidableEq, Repr

/-- The `Stream` the second loop of `processFile` appends for the adjusted format
`format`, once `convert` has returned `fileName`. -/
def streamOf (format : ParsedFormat) (fileName : List Char) : Stream :=
  { Width := format.Width
    Height := format.Height
    Bandwidth := (NewBitRates format).VideoBitRate
    FileName := fileName }

/-! ## Reading of the specification's words -/

/-- Text of a decimal integer: an optional sign followed by one or more decimal digits. -/
def isDecimalInteger (s : List Char) : Bool :=
  match s with
  | [] => false
  | c :: cs =>
    if c = '-' ∨ c = '+' then (!cs.isEmpty && cs.all Char.isDigit)
    else (c :: cs).all Char.isDigit

/-- A malformed format string, in the words of the specification: the number of
colon-separated fields is not three, or the size field neither ends in `p` nor contains
an `x`, or an integer part of the size field (the text before the final `p`; otherwise
the texts before and after the first `x`) is not a decimal integer, or a non-empty
frame-rate or quality field is not accepted as a number by `ParseFloat`. -/
def Malformed (ParseFloat : List Char → Option F64) (v : List Char) : Prop :=
  (split ':' v).length ≠ 3 ∨
  ∃ size frameRate quality, split ':' v = [size, frameRate, quality] ∧
    ((hasSuffix size 'p' = false ∧ 'x' ∉ size) ∨
     (hasSuffix size 'p' = true ∧ isDecimalInteger size.dropLast = false) ∨
     (hasSuffix size 'p' = false ∧ ∃ w h, size = w ++ 'x' :: h ∧ 'x' ∉ w ∧
        (isDecimalInteger w = false ∨ isDecimalInteger h = false)) ∨
     (frameRate ≠ [] ∧ ParseFloat frameRate = none) ∨
     (quality ≠ [] ∧ ParseFloat quality = none))

/-- The video bitrate in the words of the specification: width × height × frame rate ×
quality factor (the numbers the float64 fields stand for), rounded to the nearest
integer. -/
def specVideoBitRate (f : ParsedFormat) : Int :=
  round ((f.Width : ℚ) * (f.Height : ℚ) * F64.toRat f.FrameRate * F64.toRat f.QualityFactor)

/-- The maximum video bitrate in the words of the specification: 0.07 × video bitrate,
rounded to the nearest integer. -/
def specMaxVideoBitRate (videoBitRate : Int) : Int :=
  round ((7 : ℚ) / 100 * (videoBitRate : ℚ))

/-! ## The master playlist -/

/-- Go's `%d` verb on an `int`: the decimal digits, with a leading `-` when negative. -/
def fmtInt (n : Int) : List Char :=
  if n < 0 then '-' :: Nat.toDigits 10 n.natAbs else Nat.toDigits 10 n.natAbs

/-- The text one iteration of the loop of `makeMasterTrack` appends to the builder for
the stream `s`: the `Sprintf` line, the file name and a newline. -/
def writeStream (b : List Char) (s : Stream) : List Char :=
  b ++ ("#EXT-X-STREAM-INF:BANDWIDTH=".toList ++ fmtInt s.Bandwidth ++ ",RESOLUTION=".toList
        ++ fmtInt s.Width ++ "x".toList ++ fmtInt s.Height ++ "\n".toList)
    ++ s.FileName ++ "\n".toList

/-- The contents `b.String()` of the builder of `makeMasterTrack` after its loop, the
text handed to `f.WriteString`. -/
def masterTrackText (streams : List Stream) : List Char :=
  streams.foldl writeStream "#EXTM3U\n".toList

/-- The function `makeMasterTrack`. Whether `os.Create` and `f.WriteString` fail is
decided outside the program; the result is the text handed to `f.WriteString` (`none`
when the file could not be created) and the returned error. -/
def makeMasterTrack (createFails writeFails : Bool) (streams : List Stream) :
    Option (List Char) × Option String :=
  if createFails then (none, some "couldn\x27t open file")
  else if writeFails then (some (masterTrackText streams), some "unable to write file")
  else (some (masterTrackText streams), none)

/-! ## Command line arguments -/

/-- The values of the variable `expects` of `parseArgs` ("any", "format", "file"). -/
inductive Expects where
  | any
  | format
  | file
deriving DecidableEq, Repr

/-- Go's `strings.HasPrefix(s, pre)`. -/
def hasPrefix (s pre : List Char) : Bool := pre.isPrefixOf s

/-- Go's `strings.TrimPrefix(s, pre)`. -/
def trimPrefix (s pre : List Char) : List Char :=
  if hasPrefix s pre then s.drop pre.length else s

/-- The variables the loop of `parseArgs` updates. -/
structure ArgState where
  expects : Expects := Expects.any
  rawFormats : List (List Char) := []
  inputFiles : List (List Char) := []
deriving DecidableEq, Repr

/-- One iteration of the loop of `parseArgs`, on the argument `arg = args[i]`. The
`default` branch of the switch cannot be reached: `expects` only ever holds one of its
three values. -/
def parseArgsStep (st : ArgState) (arg : List Char) : ArgState :=
  match st.expects with
  | Expects.any =>
    if arg = "-f".toList then { st with expects := Expects.format }
    else if hasPrefix arg "-f=".toList then
      { st with rawFormats := st.rawFormats ++ [trimPrefix arg "-f=".toList] }
    else { st with expects := Expects.file, inputFiles := st.inputFiles ++ [arg] }
  | Expects.format => { st with rawFormats := st.rawFormats ++ [arg], expects := Expects.any }
  | Expects.file => { st with inputFiles := st.inputFiles ++ [arg] }

/-- The loop of `parseArgs` over all arguments, from the initial state. -/
def parseArgsLoop (args : List (List Char)) : ArgState :=
  args.foldl parseArgsStep {}

/-- The function `parseArgs`. A returned slice is `none` when it is `nil`. -/
def parseArgs (args : List (List Char)) :
    Option (List (List Char)) × Option (List (List Char)) × Option String :=
  if (parseArgsLoop args).rawFormats.length = 0 then (none, none, some "no formats given")
  else if (parseArgsLoop args).inputFiles.length = 0 then
    (none, none, some "no input files given")
  else (some (parseArgsLoop args).rawFormats, some (parseArgsLoop args).inputFiles, none)

/-! ## Probing -/

/-- Go's `unicode.IsSpace`, the white space `strings.TrimSpace` removes: tab, line feed,
vertical tab, form feed, carriage return, space, U+0085, U+00A0 and the Unicode
separators U+1680, U+2000..U+200A, U+2028, U+2029, U+202F, U+205F, U+3000. -/
def isSpace (c : Char) : Bool :=
  decide (c.toNat = 0x09 ∨ c.toNat = 0x0A ∨ c.toNat = 0x0B ∨ c.toNat = 0x0C ∨ c.toNat = 0x0D ∨
    c.toNat = 0x20 ∨ c.toNat = 0x85 ∨ c.toNat = 0xA0 ∨ c.toNat = 0x1680 ∨
    (0x2000 ≤ c.toNat ∧ c.toNat ≤ 0x200A) ∨ c.toNat = 0x2028 ∨ c.toNat = 0x2029 ∨
    c.toNat = 0x202F ∨ c.toNat = 0x205F ∨ c.toNat = 0x3000)

/-- Go's `strings.TrimSpace`. -/
def trimSpace (s : List Char) : List Char := (s.dropWhile isSpace).rdropWhile isSpace

/-- The function `Probe` from the point where the output `pData` of the probe tool has
been read: the text is trimmed, split on commas and converted. -/
def Probe (pData : List Char) : ProbeResult × Option String :=
  match split ',' (trimSpace pData) with
  | [w, h, ratio] =>
    match cut '/' ratio with
    | none => ({}, some "unexpected program output: couldn\x27t find \x27/\x27")
    | some (dividend, divisor) =>
      match Atoi dividend, Atoi divisor, Atoi w, Atoi h with
      | some pDividend, some pDivisor, some width, some height =>
        if pDivisor = 0 then
          ({}, some "unable to calculate frame-rate, divisor causes division by zero error")
        else
          ({ Width := width, Height := height,
             FrameRate := F64.div (F64.ofInt pDividend) (F64.ofInt pDivisor) }, none)
      | _, _, _, _ => ({}, some "unable to parse probe result")
  | parts =>
    ({}, some ("couldn\x27t parse output: expected 3 parts but found " ++ Nat.repr parts.length))

/-! ## Rendering a descriptor -/

/-- The method `ParsedFormat.String`. `formatFloat` is the `%f` verb of Go's `fmt` on a
float64. -/
def ParsedFormat.String (formatFloat : F64 → List Char) (f : ParsedFormat) : List Char :=
  (if f.Width = 0 then fmtInt f.Height ++ "p:".toList
    else fmtInt f.Width ++ "x".toList ++ fmtInt f.Height ++ ":".toList)
  ++ (if f.FrameRate.isZero = false then formatFloat f.FrameRate ++ ":".toList
    else ":".toList)
  ++ (if f.QualityFactor.isZero = false then formatFloat f.QualityFactor ++ ":".toList
    else ":".toList)

/-! ## Several input files -/

/-- The loop of `main` over the input files, as far as planning goes: every file is
planned with the `formats` slice as the previous file left it. The result is the
`adjustedFormats` of each file and the `formats` slice after the last one. -/
def planFiles (formats : List ParsedFormat) :
    List ProbeResult → List (List ParsedFormat) × List ParsedFormat
  | [] => ([], formats)
  | probe :: probes =>
    ((planFormats probe formats).1 :: (planFiles (planFormats probe formats).2 probes).1,
     (planFiles (planFormats probe formats).2 probes).2)

/-! ## Reading of the specification's words, continued -/

/-- A run of format options on the command line together with their values in order:
`-f X` pairs and `-f=X` arguments. -/
inductive OptionRun : List (List Char) → List (List Char) → Prop where
  | nil : OptionRun [] []
  | pair (x : List Char) {rest vals : List (List Char)} :
      OptionRun rest vals → OptionRun ("-f".toList :: x :: rest) (x :: vals)
  | eq (x : List Char) {rest vals : List (List Char)} :
      OptionRun rest vals → OptionRun (("-f=".toList ++ x) :: rest) (x :: vals)

/-- An argument taken as an input file where an option could stand: it is neither `-f`
nor prefixed by `-f=`. -/
def IsFileArg (a : List Char) : Prop := a ≠ "-f".toList ∧ hasPrefix a "-f=".toList = false

/-- The characters `%d` prints: a minus sign or a decimal digit. -/
def IntChar (c : Char) : Prop := c = '-' ∨ c.isDigit = true

/-- A float64 that is strictly positive (a positive finite value or `+Inf`). -/
def F64.isPos : F64 → Bool
  | .fin s m _ => !s && decide (m ≠ 0)
  | .inf s => !s
  | .nan => false

/-- The maximum video bitrate in the words of the code comment and of the data model:
1.07 × video bitrate, rounded to the nearest integer. -/
def specHeadroomBitRate (videoBitRate : Int) : Int :=
  round ((107 : ℚ) / 100 * (videoBitRate : ℚ))

/-! ## Reading of the float64 arithmetic on the rationals -/

/-- The integer nearest to a rational number, halves going away from zero: the number
`math.Round` returns. -/
def roundAway (q : ℚ) : Int := if 0 ≤ q then ⌊q + 1 / 2⌋ else -⌊-q + 1 / 2⌋

/-- The float64 `x` is a float64 nearest to the rational number `q`: it is finite, and no
number `± n * 2^f` with a significand `n < 2^53` and an exponent `f ≥ -1074` lies closer
to `q`. -/
def F64.IsNearest (x : F64) (q : ℚ) : Prop :=
  ∃ s m e, x = .fin s m e ∧ m < 2 ^ 53 ∧ -1074 ≤ e ∧
    ∀ (t : Bool) (n : Nat) (f : Int), n < 2 ^ 53 → -1074 ≤ f →
      |F64.toRat (.fin s m e) - q| ≤ |F64.toRat (.fin t n f) - q|

/-! ## The derived width -/

/-- The float64 product the planning loop rounds,
`float64(probe.Width) / float64(probe.Height) * float64(height)`: the argument of
`math.Round` in `derivedWidth`. -/
def aspectProduct (probe : ProbeResult) (height : Int) : F64 :=
  F64.mul (F64.div (F64.ofInt probe.Width) (F64.ofInt probe.Height)) (F64.ofInt height)

/-- The derived width in the words of the specification: `r` is `W / H * h`, taken
exactly, rounded to the nearest integer; the width is `r` when `r` is even and `r + 1`
when `r` is odd. -/
def specDerivedWidth (probe : ProbeResult) (height : Int) : Int :=
  if roundAway ((probe.Width : ℚ) / (probe.Height : ℚ) * (height : ℚ)) % 2 = 0
  then roundAway ((probe.Width : ℚ) / (probe.Height : ℚ) * (height : ℚ))
  else roundAway ((probe.Width : ℚ) / (probe.Height : ℚ) * (height : ℚ)) + 1

/-! ## The integers of the probe output -/

/-- The number a run of decimal digits stands for. -/
def digitsValue (s : List Char) : Nat := s.foldl (fun acc c => acc * 10 + (c.toNat - 48)) 0

/-- The integer a decimal integer text stands for: the value of its digits, negated
after a minus sign. -/
def decimalValue (s : List Char) : Int :=
  if s.head? = some '-' then -(digitsValue s.tail : Int)
  else if s.head? = some '+' then (digitsValue s.tail : Int)
  else (digitsValue s : Int)

/-- An unusable probe output, in the words of the specification: the trimmed text does not
split into exactly three comma-separated fields, or the third field has no `/`, or it is
`N/D` with `N` or `D` not an integer or with `D` equal to 0, or the width or the height is
not an integer. -/
def MalformedProbeOutput (pData : List Char) : Prop :=
  (split ',' (trimSpace pData)).length ≠ 3 ∨
  ∃ w h ratio, split ',' (trimSpace pData) = [w, h, ratio] ∧
    ('/' ∉ ratio ∨
     (∃ n d, ratio = n ++ '/' :: d ∧ '/' ∉ n ∧
        (isDecimalInteger n = false ∨ isDecimalInteger d = false ∨ decimalValue d = 0)) ∨
     isDecimalInteger w = false ∨ isDecimalInteger h = false)

/-! ## The library function `strconv.ParseFloat`

`parseFormat` passes its frame-rate and quality fields to `strconv.ParseFloat(·, 64)`.
The definitions below follow the library's `special`, `readFloat`, `underscoreOK` and
`atof64`. The library accumulates at most 19 decimal (16 hexadecimal) digits in a machine
word and falls back to an exact conversion when digits were dropped, so that the result
is always the exact value of the text rounded to nearest even; here the significand is
accumulated in full and rounded once by `F64.ofFrac`. -/

/-- Lower-casing of the letters `A`..`Z`, as in `commonPrefixLenIgnoreCase`. -/
def asciiLower (c : Char) : Char :=
  if 65 ≤ c.toNat ∧ c.toNat ≤ 90 then Char.ofNat (c.toNat + 32) else c

/-- The library's `commonPrefixLenIgnoreCase(s, prefix)` for a lower-case `prefix`. -/
def commonPrefixLenIgnoreCase : List Char → List Char → Nat
  | c :: cs, p :: ps => if asciiLower c = p then commonPrefixLenIgnoreCase cs ps + 1 else 0
  | _, _ => 0

/-- The number of characters of `infinity` that `special` consumes when `n` of them
match: anything longer than `inf` but shorter than `infinity` counts as `inf`. -/
def infinityLen (n : Nat) : Nat := if 3 < n ∧ n < 8 then 3 else n

/-- The library's `special`: the text starts with an optionally signed `inf` or
`infinity`, or with `nan`, in any letter case. The result is the value and the text that
follows it. -/
def special (s : List Char) : Option (F64 × List Char) :=
  match s with
  | [] => none
  | c :: cs =>
    if c = '+' ∨ c = '-' then
      (if infinityLen (commonPrefixLenIgnoreCase cs "infinity".toList) = 3 ∨
          infinityLen (commonPrefixLenIgnoreCase cs "infinity".toList) = 8
        then some (.inf (decide (c = '-')),
          cs.drop (infinityLen (commonPrefixLenIgnoreCase cs "infinity".toList)))
        else none)
    else if c = 'i' ∨ c = 'I' then
      (if infinityLen (commonPrefixLenIgnoreCase (c :: cs) "infinity".toList) = 3 ∨
          infinityLen (commonPrefixLenIgnoreCase (c :: cs) "infinity".toList) = 8
        then some (.inf false,
          (c :: cs).drop (infinityLen (commonPrefixLenIgnoreCase (c :: cs) "infinity".toList)))
        else none)
    else if c = 'n' ∨ c = 'N' then
      (if commonPrefixLenIgnoreCase (c :: cs) "nan".toList = 3
        then some (.nan, (c :: cs).drop 3) else none)
    else none

/-- A hexadecimal digit that is a letter: `'a' <= lower(c) && lower(c) <= 'f'`. -/
def isHexLetter (c : Char) : Bool :=
  decide ((97 ≤ c.toNat ∧ c.toNat ≤ 102) ∨ (65 ≤ c.toNat ∧ c.toNat ≤ 70))

/-- The value `lower(c) - 'a' + 10` of a hexadecimal letter. -/
def hexLetterValue (c : Char) : Nat :=
  if 97 ≤ c.toNat then c.toNat - 97 + 10 else c.toNat - 65 + 10

/-- The last character seen by `underscoreOK`: the beginning of the number (`^`), a
digit or base prefix (`0`), an underscore (`_`), or none of these (`!`). -/
inductive Saw where
  | start
  | digit
  | underscore
  | other
deriving DecidableEq, Repr

/-- The loop of `underscoreOK`: an underscore must follow a digit and be followed by
one. -/
def underscoreOKLoop (hex : Bool) : Saw → List Char → Bool
  | saw, [] => decide (saw ≠ Saw.underscore)
  | saw, c :: cs =>
    if c.isDigit = true ∨ (hex = true ∧ isHexLetter c = true) then underscoreOKLoop hex Saw.digit cs
    else if c = '_' then
      (if saw ≠ Saw.digit then false else underscoreOKLoop hex Saw.underscore cs)
    else if saw = Saw.underscore then false
    else underscoreOKLoop hex Saw.other cs

/-- The part of `underscoreOK` after the optional sign: an optional base prefix `0b`,
`0o` or `0x` (counting as a digit), then the loop. -/
def underscoreOKUnsigned (s : List Char) : Bool :=
  match s with
  | c0 :: c1 :: cs =>
    if c0 = '0' ∧ (c1 = 'b' ∨ c1 = 'B' ∨ c1 = 'o' ∨ c1 = 'O' ∨ c1 = 'x' ∨ c1 = 'X') then
      underscoreOKLoop (decide (c1 = 'x' ∨ c1 = 'X')) Saw.digit cs
    else underscoreOKLoop false Saw.start (c0 :: c1 :: cs)
  | s => underscoreOKLoop false Saw.start s

/-- The library's `underscoreOK`: whether the underscores in `s` are allowed. -/
def underscoreOK (s : List Char) : Bool :=
  if s.head? = some '-' ∨ s.head? = some '+' then underscoreOKUnsigned s.tail
  else underscoreOKUnsigned s

/-- The local variables of the digit loop of `readFloat`. The significand is the value
of all `nd` digits read. -/
structure MantState where
  sawdot : Bool := false
  sawdigits : Bool := false
  underscores : Bool := false
  nd : Nat := 0
  dp : Int := 0
  mantissa : Nat := 0
deriving DecidableEq, Repr

/-- The digit loop of `readFloat` for the base 10 (`hex = false`) or 16: underscores are
skipped, one point is accepted, leading zeros are not counted as digits; the loop stops
at the first other character. The result is the state and the text left over. -/
def readMantissa (hex : Bool) : MantState → List Char → MantState × List Char
  | st, [] => (st, [])
  | st, c :: cs =>
    if c = '_' then readMantissa hex { st with underscores := true } cs
    else if c = '.' then
      (if st.sawdot = true then (st, c :: cs)
       else readMantissa hex { st with sawdot := true, dp := st.nd } cs)
    else if c.isDigit = true then
      (if c = '0' ∧ st.nd = 0 then
        readMantissa hex { st with sawdigits := true, dp := st.dp - 1 } cs
       else
        readMantissa hex
          { st with sawdigits := true, nd := st.nd + 1,
                    mantissa := st.mantissa * (if hex then 16 else 10) + (c.toNat - 48) } cs)
    else if hex = true ∧ isHexLetter c = true then
      readMantissa hex
        { st with sawdigits := true, nd := st.nd + 1,
                  mantissa := st.mantissa * 16 + hexLetterValue c } cs
    else (st, c :: cs)

/-- The exponent loop of `readFloat`: digits and underscores; the value stops growing
once it has reached 10000. The result is the value, whether an underscore was seen, and
the text left over. -/
def readExponent : Nat → Bool → List Char → Nat × Bool × List Char
  | e, u, [] => (e, u, [])
  | e, u, c :: cs =>
    if c = '_' then readExponent e true cs
    else if c.isDigit = true then
      readExponent (if e < 10000 then e * 10 + (c.toNat - 48) else e) u cs
    else (e, u, c :: cs)

/-- What `readFloat` returns for a well-formed text: the sign, the base, the
significand and the exponent of the base (10, or 2 for a hexadecimal text). -/
structure FloatText where
  neg : Bool
  hex : Bool
  mantissa : Nat
  exp : Int
deriving DecidableEq, Repr

/-- The end of `readFloat`: the exponent is `dp - ndMant` for a non-zero significand, and
the underscores of the consumed text `s[:i]` are checked. -/
def readFloatEnd (s : List Char) (neg hex : Bool) (st : MantState) (dp : Int)
    (underscores : Bool) (rest : List Char) : Option (FloatText × List Char) :=
  if underscores = true ∧ underscoreOK (s.take (s.length - rest.length)) = false then none
  else some ({ neg := neg, hex := hex, mantissa := st.mantissa,
               exp := if st.mantissa ≠ 0
                 then dp - (if hex then (st.nd : Int) * 4 else (st.nd : Int)) else 0 }, rest)

/-- The exponent part of `readFloat`, entered with the text `rest` that follows the
digits: an exponent character (`e`, or `p` for a hexadecimal text), an optional sign and
at least one digit; a hexadecimal text must have an exponent. -/
def readFloatExp (s : List Char) (neg hex : Bool) (st : MantState) (dp : Int)
    (rest : List Char) : Option (FloatText × List Char) :=
  match rest with
  | c :: cs =>
    if (hex = false ∧ (c = 'e' ∨ c = 'E')) ∨ (hex = true ∧ (c = 'p' ∨ c = 'P')) then
      (if (if cs.head? = some '+' ∨ cs.head? = some '-' then cs.tail else cs).head?.all
            Char.isDigit = false ∨
          (if cs.head? = some '+' ∨ cs.head? = some '-' then cs.tail else cs) = [] then none
       else
        readFloatEnd s neg hex st
          (dp + ((readExponent 0 st.underscores
              (if cs.head? = some '+' ∨ cs.head? = some '-' then cs.tail else cs)).1 : Int)
            * (if cs.head? = some '-' then -1 else 1))
          (readExponent 0 st.underscores
              (if cs.head? = some '+' ∨ cs.head? = some '-' then cs.tail else cs)).2.1
          (readExponent 0 st.underscores
              (if cs.head? = some '+' ∨ cs.head? = some '-' then cs.tail else cs)).2.2)
    else if hex = true then none
    else readFloatEnd s neg hex st dp st.underscores (c :: cs)
  | [] => if hex = true then none else readFloatEnd s neg hex st dp st.underscores []

/-- Whether the text after the sign starts a hexadecimal number: `0x` or `0X` followed
by at least one more character (`i+2 < len(s)`). -/
def hasHexPrefix (s : List Char) : Bool :=
  match s with
  | c0 :: c1 :: _ :: _ => decide (c0 = '0' ∧ (c1 = 'x' ∨ c1 = 'X'))
  | _ => false

/-- The digits part of `readFloat`, entered after the sign with the base known: no digit
is an error; without a point the point follows the digits; for a hexadecimal text the
point position counts bits. -/
def readFloatDigits (s : List Char) (neg hex : Bool) (body : List Char) :
    Option (FloatText × List Char) :=
  if (readMantissa hex {} body).1.sawdigits = false then none
  else
    readFloatExp s neg hex (readMantissa hex {} body).1
      ((if (readMantissa hex {} body).1.sawdot = true then (readMantissa hex {} body).1.dp
        else ((readMantissa hex {} body).1.nd : Int)) * (if hex then 4 else 1))
      (readMantissa hex {} body).2

/-- The library's `readFloat`: an optional sign, then a decimal or a hexadecimal
significand and exponent. The result is `none` when `ok` is false, otherwise the number
read and the text left over. -/
def readFloat (s : List Char) : Option (FloatText × List Char) :=
  readFloatDigits s (decide (s.head? = some '-'))
    (hasHexPrefix (if s.head? = some '+' ∨ s.head? = some '-' then s.tail else s))
    (if hasHexPrefix (if s.head? = some '+' ∨ s.head? = some '-' then s.tail else s) = true
      then (if s.head? = some '+' ∨ s.head? = some '-' then s.tail else s).drop 2
      else (if s.head? = some '+' ∨ s.head? = some '-' then s.tail else s))

/-- The float64 for a text read by `readFloat`: the exact value `mantissa * 10^exp`
(`mantissa * 2^exp` for a hexadecimal text) rounded to nearest even. -/
def FloatText.value (r : FloatText) : F64 :=
  if r.hex = true then F64.ofFrac r.neg r.mantissa 1 r.exp
  else if 0 ≤ r.exp then F64.ofFrac r.neg (r.mantissa * 10 ^ r.exp.toNat) 1 0
  else F64.ofFrac r.neg r.mantissa (10 ^ (-r.exp).toNat) 0

/-- Go's `strconv.ParseFloat(s, 64)`; `none` stands for a non-nil error. The special
values come first; any other text must be read by `readFloat` to its end (a syntax error
otherwise), and a value that rounds to an infinity is a range error. -/
def strconvParseFloat (s : List Char) : Option F64 :=
  match special s with
  | some (x, rest) => if rest = [] then some x else none
  | none =>
    match readFloat s with
    | none => none
    | some (r, rest) =>
      if rest ≠ [] then none
      else match r.value with
        | .fin neg m e => some (.fin neg m e)
        | _ => none

/-! ## Reading of the specification's words: numbers -/

/-- A text is a real number for `parseFormat` when `strconv.ParseFloat` converts it to a
finite float64. -/
def IsRealNumber (field : List Char) : Prop :=
  ∃ s m e, strconvParseFloat field = some (.fin s m e)

/-- One of the spellings `NaN`, `Inf` and `Infinity` in any letter case, the last two
with an optional sign. -/
def isSpecialSpelling (field : List Char) : Bool :=
  decide (field.map asciiLower = "nan".toList ∨
    field.map asciiLower = "inf".toList ∨ field.map asciiLower = "+inf".toList ∨
    field.map asciiLower = "-inf".toList ∨ field.map asciiLower = "infinity".toList ∨
    field.map asciiLower = "+infinity".toList ∨ field.map asciiLower = "-infinity".toList)

/-- A character that can occur in a number text: a decimal digit, a sign, the point, the
underscore, and the letters of the hexadecimal notation (`a`..`f`, `x`, `p`, in either
case; `e` is also the decimal exponent character). -/
def isFloatChar (c : Char) : Bool :=
  c.isDigit || isHexLetter c ||
    decide (c = '+' ∨ c = '-' ∨ c = '.' ∨ c = '_' ∨ c = 'x' ∨ c = 'X' ∨ c = 'p' ∨ c = 'P')

/-- A text that does not look like a number at all: it has no decimal digit, or it has a
character that cannot occur in a number text. -/
def NonNumeric (field : List Char) : Prop :=
  (∀ c ∈ field, c.isDigit = false) ∨ (∃ c ∈ field, isFloatChar c = false)

/-- A malformed format string, in the words of the specification, with the special
spellings set apart: the number of colon-separated fields is not three, or the size field
neither ends in `p` nor contains an `x`, or an integer part of the size field is not a
decimal integer, or a non-empty frame-rate or quality field is not a real number and is
not one of the spellings `NaN`, `Inf`, `Infinity`. -/
def MalformedFormat (v : List Char) : Prop :=
  (split ':' v).length ≠ 3 ∨
  ∃ size frameRate quality, split ':' v = [size, frameRate, quality] ∧
    ((hasSuffix size 'p' = false ∧ 'x' ∉ size) ∨
     (hasSuffix size 'p' = true ∧ isDecimalInteger size.dropLast = false) ∨
     (hasSuffix size 'p' = false ∧ ∃ w h, size = w ++ 'x' :: h ∧ 'x' ∉ w ∧
        (isDecimalInteger w = false ∨ isDecimalInteger h = false)) ∨
     (frameRate ≠ [] ∧ ¬ IsRealNumber frameRate ∧ isSpecialSpelling frameRate = false) ∨
     (quality ≠ [] ∧ ¬ IsRealNumber quality ∧ isSpecialSpelling quality = false))

/-! # Theorems -/

/-! ## Strings: lemmas -/

theorem parseDigits_all {s : List Char} : ∀ {acc n : Nat},
    parseDigits s acc = some n → s.all Char.isDigit = true := by
  induction s with
  | nil => intro acc n _; rfl
  | cons c cs ih =>
    intro acc n h
    unfold parseDigits at h
    by_cases hc : c.isDigit = true
    · rw [if_pos hc] at h
      simp only [List.all_cons, hc, Bool.true_and]
      exact ih h
    · rw [if_neg hc] at h
      cases h

theorem Atoi_isDecimalInteger {s : List Char} {n : Int} (h : Atoi s = some n) :
    isDecimalInteger s = true := by
  unfold Atoi at h
  cases s with
  | nil => simp at h
  | cons c cs =>
    simp only [List.head?_cons, Option.some.injEq, List.tail_cons] at h
    unfold isDecimalInteger
    dsimp only
    by_cases hc : c = '-' ∨ c = '+'
    · rw [if_pos hc] at h
      rw [if_pos hc]
      by_cases he : cs = []
      · rw [if_pos he] at h; cases h
      · rw [if_neg he] at h
        cases hp : parseDigits cs 0 with
        | none => rw [hp] at h; cases h
        | some k =>
          have := parseDigits_all hp
          cases cs with
          | nil => exact absurd rfl he
          | cons d ds => simpa using this
    · rw [if_neg hc] at h
      rw [if_neg hc]
      rw [if_neg (List.cons_ne_nil c cs)] at h
      cases hp : parseDigits (c :: cs) 0 with
      | none => rw [hp] at h; cases h
      | some k => exact parseDigits_all hp

theorem Atoi_eq_none_of_not_decimal {s : List Char} (h : isDecimalInteger s = false) :
    Atoi s = none := by
  cases ha : Atoi s with
  | none => rfl
  | some n => rw [Atoi_isDecimalInteger ha] at h; cases h

theorem cut_eq_none {sep : Char} {s : List Char} (h : sep ∉ s) : cut sep s = none := by
  induction s with
  | nil => rfl
  | cons c cs ih =>
    have hc : ¬ c = sep := fun e => h (e ▸ List.mem_cons_self _ _)
    have hcs : sep ∉ cs := fun m => h (List.mem_cons_of_mem _ m)
    simp only [cut, if_neg hc, ih hcs]

theorem cut_append {sep : Char} {w : List Char} (h : List Char) (hw : sep ∉ w) :
    cut sep (w ++ sep :: h) = some (w, h) := by
  induction w with
  | nil => simp [cut]
  | cons c cs ih =>
    have hc : ¬ c = sep := fun e => hw (e ▸ List.mem_cons_self _ _)
    have hcs : sep ∉ cs := fun m => hw (List.mem_cons_of_mem _ m)
    show cut sep (c :: (cs ++ sep :: h)) = some (c :: cs, h)
    simp only [cut, if_neg hc, ih hcs]

theorem parseSize_eq_none {size : List Char}
    (h : (hasSuffix size 'p' = false ∧ 'x' ∉ size) ∨
     (hasSuffix size 'p' = true ∧ isDecimalInteger size.dropLast = false) ∨
     (hasSuffix size 'p' = false ∧ ∃ w h, size = w ++ 'x' :: h ∧ 'x' ∉ w ∧
        (isDecimalInteger w = false ∨ isDecimalInteger h = false))) :
    parseSize size = none := by
  unfold parseSize
  rcases h with ⟨hp, hx⟩ | ⟨hp, hd⟩ | ⟨hp, w, h, rfl, hw, hd⟩
  · simp [hp, cut_eq_none hx]
  · simp [hp, trimSuffix, Atoi_eq_none_of_not_decimal hd]
  · simp only [hp, cut_append h hw]
    rcases hd with hd | hd
    · simp [Atoi_eq_none_of_not_decimal hd]
    · cases Atoi w <;> simp [Atoi_eq_none_of_not_decimal hd]

/-- Whatever `ParseFloat` does, `parseFormat` returns the zero `ParsedFormat` and the
error "malformed format" when the string does not split on `:` into exactly three fields,
or the size field neither ends in `p` nor contains an `x`, or an integer part of the size
field is not a decimal integer, or `ParseFloat` rejects a non-empty frame-rate or quality
field. -/
theorem parseFormat_rejects_malformed (ParseFloat : List Char → Option F64) (v : List Char)
    (h : Malformed ParseFloat v) :
    parseFormat ParseFloat v = ({}, some "malformed format") := by
  unfold parseFormat
  rcases h with hlen | ⟨size, frameRate, quality, hs, hbad⟩
  · split
    · next size frameRate qualityFactor heq => rw [heq] at hlen; exact absurd rfl hlen
    · rfl
  · rw [hs]
    simp only
    rcases hbad with h1 | h2 | h3 | ⟨hne, hf⟩ | ⟨hne, hq⟩
    · rw [parseSize_eq_none (Or.inl h1)]
    · rw [parseSize_eq_none (Or.inr (Or.inl h2))]
    · rw [parseSize_eq_none (Or.inr (Or.inr h3))]
    · cases parseSize size with
      | none => rfl
      | some wh =>
        simp only [parseField, if_neg hne, hf]
    · cases parseSize size with
      | none => rfl
      | some wh =>
        cases hfr : parseField ParseFloat frameRate with
        | none => rfl
        | some fr => simp only [parseField, if_neg hne, hq]

theorem digitChar_isDigit {d : Nat} (h : d < 10) :
    (Nat.digitChar d).isDigit = true ∧ (Nat.digitChar d).toNat - 48 = d := by
  interval_cases d <;> decide

theorem digitChar_ne {d : Nat} (h : d < 10) :
    Nat.digitChar d ≠ ':' ∧ Nat.digitChar d ≠ 'x' ∧ Nat.digitChar d ≠ 'p' ∧
    Nat.digitChar d ≠ '-' ∧ Nat.digitChar d ≠ '+' := by
  interval_cases d <;> decide

/-- What the digit loop of `Nat.toDigits 10` puts in front of `ds`: a non-empty run of
digit characters whose value, read after an accumulator `acc`, continues `acc` by `n`. -/
theorem toDigitsCore_spec : ∀ (fuel n : Nat) (ds : List Char), n < fuel →
    ∃ pre : List Char, Nat.toDigitsCore 10 fuel n ds = pre ++ ds ∧ pre ≠ [] ∧
      (∀ c ∈ pre, c.isDigit = true ∧ c ≠ ':' ∧ c ≠ 'x' ∧ c ≠ 'p' ∧ c ≠ '-' ∧ c ≠ '+') ∧
      ∃ k : Nat, ∀ acc : Nat, parseDigits pre acc = some (acc * 10 ^ k + n) := by
  intro fuel
  induction fuel with
  | zero => intro n ds h; omega
  | succ fuel ih =>
    intro n ds h
    have hd : n % 10 < 10 := Nat.mod_lt _ (by norm_num)
    unfold Nat.toDigitsCore
    by_cases h0 : n / 10 = 0
    · refine ⟨[Nat.digitChar (n % 10)], by simp [h0], by simp, ?_, 1, ?_⟩
      · intro c hc
        rw [List.mem_singleton] at hc
        subst hc
        exact ⟨(digitChar_isDigit hd).1, digitChar_ne hd⟩
      · intro acc
        have hn : n % 10 = n := Nat.mod_eq_of_lt (by omega)
        simp only [parseDigits, (digitChar_isDigit hd).1, (digitChar_isDigit hd).2, if_true]
        rw [hn, pow_one]
    · have hlt : n / 10 < fuel := by omega
      obtain ⟨pre, hpre, _, hall, k, hk⟩ := ih (n / 10) (Nat.digitChar (n % 10) :: ds) hlt
      refine ⟨pre ++ [Nat.digitChar (n % 10)], ?_, by simp, ?_, k + 1, ?_⟩
      · simp only [h0, if_false]
        rw [hpre]
        simp
      · intro c hc
        rw [List.mem_append, List.mem_singleton] at hc
        rcases hc with hc | hc
        · exact hall c hc
        · subst hc
          exact ⟨(digitChar_isDigit hd).1, digitChar_ne hd⟩
      · intro acc
        have happ : ∀ (p : List Char) (a m : Nat), parseDigits p a = some m →
            parseDigits (p ++ [Nat.digitChar (n % 10)]) a = some (m * 10 + n % 10) := by
          intro p
          induction p with
          | nil =>
            intro a m hm
            simp only [parseDigits, Option.some.injEq] at hm
            simp [parseDigits, (digitChar_isDigit hd).1, (digitChar_isDigit hd).2, hm]
          | cons c cs ihp =>
            intro a m hm
            simp only [List.cons_append, parseDigits] at hm ⊢
            by_cases hc : c.isDigit = true
            · rw [if_pos hc] at hm ⊢
              exact ihp _ _ hm
            · rw [if_neg hc] at hm
              cases hm
        rw [happ pre acc _ (hk acc)]
        congr 1
        have := Nat.div_add_mod n 10
        rw [pow_succ]
        nlinarith [Nat.div_add_mod n 10]

/-- The decimal rendering of `n`: a non-empty string of digits that `parseDigits` reads
back as `n`. -/
theorem toDigits_spec (n : Nat) :
    Nat.toDigits 10 n ≠ [] ∧
    (∀ c ∈ Nat.toDigits 10 n,
      c.isDigit = true ∧ c ≠ ':' ∧ c ≠ 'x' ∧ c ≠ 'p' ∧ c ≠ '-' ∧ c ≠ '+') ∧
    parseDigits (Nat.toDigits 10 n) 0 = some n := by
  obtain ⟨pre, hpre, hne, hall, k, hk⟩ := toDigitsCore_spec (n + 1) n [] (Nat.lt_succ_self n)
  have : Nat.toDigits 10 n = pre := by
    unfold Nat.toDigits
    rw [hpre, List.append_nil]
  rw [this]
  refine ⟨hne, hall, ?_⟩
  rw [hk 0]
  simp

theorem Atoi_toDigits (n : Nat) (h : n < 2 ^ 63) : Atoi (Nat.toDigits 10 n) = some (n : Int) := by
  obtain ⟨hne, hall, hp⟩ := toDigits_spec n
  unfold Atoi
  cases hd : Nat.toDigits 10 n with
  | nil => exact absurd hd hne
  | cons c cs =>
    have hc := hall c (by rw [hd]; exact List.mem_cons_self _ _)
    have hsign : ¬ (c = '-' ∨ c = '+') := fun hh => hh.elim hc.2.2.2.2.1 hc.2.2.2.2.2
    have hminus : ¬ (c = '-') := hc.2.2.2.2.1
    rw [hd] at hp
    have hbody : (if c = '-' ∨ c = '+' then cs else c :: cs) = c :: cs := if_neg hsign
    simp only [List.head?_cons, Option.some.injEq, List.tail_cons]
    rw [hbody, hp]
    have h' : n < 9223372036854775808 := by norm_num at h; exact h
    simp [hminus, h']

theorem split_append_sep {sep : Char} {s : List Char} (rest : List Char) (h : sep ∉ s) :
    split sep (s ++ sep :: rest) = s :: split sep rest := by
  induction s with
  | nil => simp [split]
  | cons c cs ih =>
    have hc : ¬ c = sep := fun e => h (e ▸ List.mem_cons_self _ _)
    have hcs : sep ∉ cs := fun m => h (List.mem_cons_of_mem _ m)
    show split sep (c :: (cs ++ sep :: rest)) = (c :: cs) :: split sep rest
    simp only [split, if_neg hc, ih hcs]

theorem split_size_fields {size : List Char} (h : ':' ∉ size) :
    split ':' (size ++ "::".toList) = [size, [], []] := by
  show split ':' (size ++ ':' :: [':']) = [size, [], []]
  rw [split_append_sep _ h]
  simp [split]

/-- C2: for all integers `w` and `h` with `0 ≤ w, h < 2^63` (and every behaviour of the
library's `ParseFloat`), `parseFormat` applied to the decimal rendering of `h` followed by
`p::` succeeds with `Height = h` and `Width`, `FrameRate` and `QualityFactor` unset (0),
and applied to decimal `w`, `x`, decimal `h`, `::` it succeeds with `Width = w`,
`Height = h` and `FrameRate` and `QualityFactor` unset (0). -/
theorem parseFormat_accepts_sizes (ParseFloat : List Char → Option F64) (w h : Nat)
    (hw : w < 2 ^ 63) (hh : h < 2 ^ 63) :
    parseFormat ParseFloat (Nat.toDigits 10 h ++ 'p' :: "::".toList)
      = ({ Width := 0, Height := h, FrameRate := F64.zero, QualityFactor := F64.zero }, none) ∧
    parseFormat ParseFloat (Nat.toDigits 10 w ++ 'x' :: Nat.toDigits 10 h ++ "::".toList)
      = ({ Width := w, Height := h, FrameRate := F64.zero, QualityFactor := F64.zero }, none) := by
  obtain ⟨hne, hall, _⟩ := toDigits_spec h
  obtain ⟨_, hallw, _⟩ := toDigits_spec w
  constructor
  · have hcolon : ':' ∉ Nat.toDigits 10 h ++ ['p'] := by
      intro hm
      rw [List.mem_append, List.mem_singleton] at hm
      rcases hm with hm | hm
      · exact (hall _ hm).2.1 rfl
      · exact absurd hm (by decide)
    have hs : split ':' (Nat.toDigits 10 h ++ 'p' :: "::".toList)
        = [Nat.toDigits 10 h ++ ['p'], [], []] := by
      rw [← split_size_fields hcolon]
      simp
    have hsize : parseSize (Nat.toDigits 10 h ++ ['p']) = some (0, (h : Int)) := by
      have hsuf : hasSuffix (Nat.toDigits 10 h ++ ['p']) 'p' = true := by
        simp [hasSuffix]
      unfold parseSize
      simp only [hsuf, if_true, trimSuffix, List.dropLast_concat, Atoi_toDigits h hh]
    unfold parseFormat
    rw [hs]
    simp only [hsize, parseField, if_true]
  · have hcolon : ':' ∉ Nat.toDigits 10 w ++ 'x' :: Nat.toDigits 10 h := by
      intro hm
      rw [List.mem_append, List.mem_cons] at hm
      rcases hm with hm | hm | hm
      · exact (hallw _ hm).2.1 rfl
      · exact absurd hm (by decide)
      · exact (hall _ hm).2.1 rfl
    have hs : split ':' (Nat.toDigits 10 w ++ 'x' :: Nat.toDigits 10 h ++ "::".toList)
        = [Nat.toDigits 10 w ++ 'x' :: Nat.toDigits 10 h, [], []] := by
      rw [← split_size_fields hcolon, List.append_assoc, List.cons_append]
    have hsize : parseSize (Nat.toDigits 10 w ++ 'x' :: Nat.toDigits 10 h)
        = some ((w : Int), (h : Int)) := by
      have hsuf : hasSuffix (Nat.toDigits 10 w ++ 'x' :: Nat.toDigits 10 h) 'p' = false := by
        have hl : (Nat.toDigits 10 w ++ 'x' :: Nat.toDigits 10 h).getLast?
            = some ((Nat.toDigits 10 h).getLast hne) := by
          rw [List.getLast?_append_of_ne_nil _ (List.cons_ne_nil _ _),
            List.getLast?_eq_getLast _ (List.cons_ne_nil _ _), List.getLast_cons hne]
        have hp : (Nat.toDigits 10 h).getLast hne ≠ 'p' :=
          (hall _ (List.getLast_mem hne)).2.2.2.1
        simp [hasSuffix, hl, hp]
      have hx : 'x' ∉ Nat.toDigits 10 w := fun hm => (hallw _ hm).2.2.1 rfl
      unfold parseSize
      simp only [hsuf, cut_append _ hx, Atoi_toDigits w hw, Atoi_toDigits h hh]
      simp
    unfold parseFormat
    rw [hs]
    simp only [hsize, parseField, if_true]

/-- Witness for C2: the strings `1080p::` and `1920x1080::`. -/
theorem parseFormat_accepts_sizes_witness :
    parseFormat (fun _ => none) "1080p::".toList
      = ({ Width := 0, Height := 1080, FrameRate := F64.zero, QualityFactor := F64.zero }, none) ∧
    parseFormat (fun _ => none) "1920x1080::".toList
      = ({ Width := 1920, Height := 1080, FrameRate := F64.zero, QualityFactor := F64.zero },
          none) :=
  parseFormat_accepts_sizes (fun _ => none) 1920 1080 (by decide) (by decide)

/-! ## Float64: lemmas -/

theorem bitLen_spec : ∀ (fuel n : Nat), n ≤ fuel →
    n < 2 ^ bitLen fuel n ∧ (n ≠ 0 → 2 ^ (bitLen fuel n - 1) ≤ n) := by
  intro fuel
  induction fuel with
  | zero =>
    intro n h
    have h0 : n = 0 := by omega
    subst h0
    simp [bitLen]
  | succ fuel ih =>
    intro n h
    unfold bitLen
    by_cases hn : n = 0
    · subst hn
      simp
    · rw [if_neg hn]
      obtain ⟨h1, h2⟩ := ih (n / 2) (by omega)
      constructor
      · rw [pow_succ]
        omega
      · intro _
        simp only [Nat.add_sub_cancel]
        by_cases h2' : n / 2 = 0
        · have hz : bitLen fuel (n / 2) = 0 := by
            rw [h2']
            cases fuel <;> simp [bitLen]
          rw [hz]
          simp
          omega
        · have h3 := h2 h2'
          have hpos : 1 ≤ bitLen fuel (n / 2) := by
            by_contra hc
            have hz : bitLen fuel (n / 2) = 0 := by omega
            rw [hz] at h1
            simp at h1
            exact h2' h1
          have hpow : 2 ^ bitLen fuel (n / 2) = 2 * 2 ^ (bitLen fuel (n / 2) - 1) := by
            rw [← pow_succ']
            congr 1
            omega
          omega

theorem scaleFrac_den_pos (a : Nat) {b : Nat} (s : Int) (hb : 0 < b) :
    0 < (scaleFrac a b s).2 := by
  unfold scaleFrac
  split_ifs
  · exact hb
  · simp only [Nat.shiftLeft_eq]
    positivity

theorem scaleFrac_val (a b : Nat) (s : Int) :
    ((scaleFrac a b s).1 : ℚ) / ((scaleFrac a b s).2 : ℚ) = (a : ℚ) / b * 2 ^ s := by
  unfold scaleFrac
  split_ifs with h
  · simp only [Nat.shiftLeft_eq]
    have hs : s = (s.toNat : ℤ) := (Int.toNat_of_nonneg h).symm
    conv_rhs => rw [hs]
    rw [zpow_natCast]
    push_cast
    ring
  · simp only [Nat.shiftLeft_eq]
    have hs : s = -((-s).toNat : ℤ) := by omega
    conv_rhs => rw [hs]
    rw [zpow_neg, zpow_natCast]
    push_cast
    ring

theorem roundHalfEven_le {n d N : Nat} (hd : 0 < d) (h : n ≤ N * d) :
    roundHalfEven n d ≤ N := by
  have hq : n / d ≤ N := Nat.div_le_of_le_mul (by rw [Nat.mul_comm]; exact h)
  have hdm := Nat.div_add_mod n d
  have hr := Nat.mod_lt n hd
  unfold roundHalfEven
  split_ifs with hc
  · by_contra hlt
    have hqN : n / d = N := by omega
    rw [hqN, Nat.mul_comm] at hdm
    have hr0 : n % d = 0 := by omega
    rw [hr0] at hc
    omega
  · exact hq

theorem roundHalfEven_eq_zero {n d : Nat} (hd : 0 < d) (h : 2 * n ≤ d) :
    roundHalfEven n d = 0 := by
  have hlt : n < d := by omega
  unfold roundHalfEven
  rw [Nat.div_eq_of_lt hlt, Nat.mod_eq_of_lt hlt]
  have hc : ¬ (d < 2 * n ∨ (2 * n = d ∧ 0 % 2 = 1)) := by omega
  rw [if_neg hc]

theorem bitLen_cast_bounds {a : Nat} (ha : 0 < a) :
    (a : ℚ) < 2 ^ (bitLen a a : ℤ) ∧ (2 : ℚ) ^ ((bitLen a a : ℤ) - 1) ≤ a ∧ 1 ≤ bitLen a a := by
  obtain ⟨h1, h2⟩ := bitLen_spec a a le_rfl
  have h3 := h2 (by omega)
  have hpos : 1 ≤ bitLen a a := by
    by_contra hc
    have hz : bitLen a a = 0 := by omega
    rw [hz] at h1
    simp at h1
    omega
  refine ⟨?_, ?_, hpos⟩
  · rw [zpow_natCast]
    exact_mod_cast h1
  · have hc : ((bitLen a a : ℤ) - 1) = ((bitLen a a - 1 : ℕ) : ℤ) := by omega
    rw [hc, zpow_natCast]
    exact_mod_cast h3

theorem floorLog2Frac_spec {a b : Nat} (ha : 0 < a) (hb : 0 < b) :
    (2 : ℚ) ^ floorLog2Frac a b ≤ (a : ℚ) / b ∧ (a : ℚ) / b < 2 ^ (floorLog2Frac a b + 1) := by
  obtain ⟨ha1, ha2, _⟩ := bitLen_cast_bounds ha
  obtain ⟨hb1, hb2, _⟩ := bitLen_cast_bounds hb
  have hbq : (0 : ℚ) < b := by exact_mod_cast hb
  have h2 : (0 : ℚ) < 2 := by norm_num
  have hval := scaleFrac_val a b (-((bitLen a a : Int) - (bitLen b b : Int)))
  have hden := scaleFrac_den_pos a (-((bitLen a a : Int) - (bitLen b b : Int))) hb
  have hdq : (0 : ℚ) < ((scaleFrac a b (-((bitLen a a : Int) - (bitLen b b : Int)))).2 : ℚ) := by
    exact_mod_cast hden
  -- the coarse bounds 2^(k-1) < a/b < 2^(k+1)
  have hlow : (2 : ℚ) ^ ((bitLen a a : ℤ) - (bitLen b b : ℤ) - 1) ≤ (a : ℚ) / b := by
    rw [le_div_iff₀ hbq]
    calc (2 : ℚ) ^ ((bitLen a a : ℤ) - (bitLen b b : ℤ) - 1) * b
        ≤ 2 ^ ((bitLen a a : ℤ) - (bitLen b b : ℤ) - 1) * 2 ^ (bitLen b b : ℤ) :=
          mul_le_mul_of_nonneg_left hb1.le (zpow_nonneg h2.le _)
      _ = 2 ^ ((bitLen a a : ℤ) - 1) := by
          rw [← zpow_add₀ h2.ne']
          congr 1
          ring
      _ ≤ a := ha2
  have hhigh : (a : ℚ) / b < 2 ^ ((bitLen a a : ℤ) - (bitLen b b : ℤ) + 1) := by
    rw [div_lt_iff₀ hbq]
    calc (a : ℚ) < 2 ^ (bitLen a a : ℤ) := ha1
      _ = 2 ^ ((bitLen a a : ℤ) - (bitLen b b : ℤ) + 1) * 2 ^ ((bitLen b b : ℤ) - 1) := by
          rw [← zpow_add₀ h2.ne']
          congr 1
          ring
      _ ≤ 2 ^ ((bitLen a a : ℤ) - (bitLen b b : ℤ) + 1) * b :=
          mul_le_mul_of_nonneg_left hb2 (zpow_nonneg h2.le _)
  unfold floorLog2Frac
  split_ifs with ht
  · refine ⟨?_, hhigh⟩
    have hge : (1 : ℚ) ≤ (a : ℚ) / b * 2 ^ (-((bitLen a a : Int) - (bitLen b b : Int))) := by
      rw [← hval, le_div_iff₀ hdq, one_mul]
      exact_mod_cast ht
    rw [zpow_neg, ← div_eq_mul_inv, le_div_iff₀ (zpow_pos h2 _), one_mul] at hge
    exact hge
  · refine ⟨hlow, ?_⟩
    have hlt : (a : ℚ) / b * 2 ^ (-((bitLen a a : Int) - (bitLen b b : Int))) < 1 := by
      rw [← hval, div_lt_iff₀ hdq, one_mul]
      exact_mod_cast not_le.mp ht
    rw [zpow_neg, ← div_eq_mul_inv, div_lt_iff₀ (zpow_pos h2 _), one_mul] at hlt
    simpa using hlt

theorem ulpExp_ge (a b : Nat) (e : Int) :
    floorLog2Frac a b + e - 52 ≤ ulpExp a b e ∧ -1074 ≤ ulpExp a b e :=
  ⟨le_max_left _ _, le_max_right _ _⟩

/-- The scaled quotient is below `2^53`, so the rounded significand is at most `2^53`. -/
theorem roundedMant_le {a b : Nat} (e : Int) (ha : 0 < a) (hb : 0 < b) :
    roundedMant a b e ≤ 2 ^ 53 := by
  have h2 : (0 : ℚ) < 2 := by norm_num
  have hden := scaleFrac_den_pos a (e - ulpExp a b e) hb
  have hdq : (0 : ℚ) < ((scaleFrac a b (e - ulpExp a b e)).2 : ℚ) := by exact_mod_cast hden
  have hval := scaleFrac_val a b (e - ulpExp a b e)
  have hlt : ((scaleFrac a b (e - ulpExp a b e)).1 : ℚ) / ((scaleFrac a b (e - ulpExp a b e)).2 : ℚ)
      < 2 ^ (53 : ℤ) := by
    rw [hval]
    calc (a : ℚ) / b * 2 ^ (e - ulpExp a b e)
        < 2 ^ (floorLog2Frac a b + 1) * 2 ^ (e - ulpExp a b e) :=
          mul_lt_mul_of_pos_right (floorLog2Frac_spec ha hb).2 (zpow_pos h2 _)
      _ = 2 ^ (floorLog2Frac a b + 1 + (e - ulpExp a b e)) := (zpow_add₀ h2.ne' _ _).symm
      _ ≤ 2 ^ (53 : ℤ) := zpow_le_zpow_right₀ (by norm_num) (by
          have := (ulpExp_ge a b e).1
          omega)
  rw [div_lt_iff₀ hdq] at hlt
  unfold roundedMant
  apply roundHalfEven_le hden
  have hcast : ((scaleFrac a b (e - ulpExp a b e)).1 : ℚ)
      < ((2 ^ 53 * (scaleFrac a b (e - ulpExp a b e)).2 : ℕ) : ℚ) := by
    norm_num at hlt ⊢
    exact hlt
  exact le_of_lt (Nat.cast_lt.mp hcast)

/-- The rounded significand times the unit in the last place stays under every power of
two that bounds the exact value. -/
theorem roundedMant_val_le {a b : Nat} {e k : Int} (hb : 0 < b)
    (h : (a : ℚ) / b * 2 ^ e ≤ 2 ^ k) :
    (roundedMant a b e : ℚ) * 2 ^ ulpExp a b e ≤ 2 ^ k := by
  have h2 : (0 : ℚ) < 2 := by norm_num
  have hden := scaleFrac_den_pos a (e - ulpExp a b e) hb
  have hdq : (0 : ℚ) < ((scaleFrac a b (e - ulpExp a b e)).2 : ℚ) := by exact_mod_cast hden
  have hval := scaleFrac_val a b (e - ulpExp a b e)
  have hle : ((scaleFrac a b (e - ulpExp a b e)).1 : ℚ) / ((scaleFrac a b (e - ulpExp a b e)).2 : ℚ)
      ≤ 2 ^ (k - ulpExp a b e) := by
    rw [hval]
    calc (a : ℚ) / b * 2 ^ (e - ulpExp a b e)
        = (a : ℚ) / b * 2 ^ e * 2 ^ (-ulpExp a b e) := by
          rw [mul_assoc, ← zpow_add₀ h2.ne']
          congr 2
      _ ≤ 2 ^ k * 2 ^ (-ulpExp a b e) := mul_le_mul_of_nonneg_right h (zpow_nonneg h2.le _)
      _ = 2 ^ (k - ulpExp a b e) := by
          rw [← zpow_add₀ h2.ne']
          congr 1
  rw [div_le_iff₀ hdq] at hle
  by_cases hk : ulpExp a b e ≤ k
  · have hN : ((2 ^ (k - ulpExp a b e).toNat : ℕ) : ℚ) = 2 ^ (k - ulpExp a b e) := by
      push_cast
      rw [← zpow_natCast, Int.toNat_of_nonneg (by omega)]
    have hm : roundedMant a b e ≤ 2 ^ (k - ulpExp a b e).toNat := by
      unfold roundedMant
      apply roundHalfEven_le hden
      have hcast : ((scaleFrac a b (e - ulpExp a b e)).1 : ℚ)
          ≤ ((2 ^ (k - ulpExp a b e).toNat * (scaleFrac a b (e - ulpExp a b e)).2 : ℕ) : ℚ) := by
        rw [Nat.cast_mul, hN]
        exact hle
      exact Nat.cast_le.mp hcast
    calc (roundedMant a b e : ℚ) * 2 ^ ulpExp a b e
        ≤ ((2 ^ (k - ulpExp a b e).toNat : ℕ) : ℚ) * 2 ^ ulpExp a b e :=
          mul_le_mul_of_nonneg_right (by exact_mod_cast hm) (zpow_nonneg h2.le _)
      _ = 2 ^ k := by
          rw [hN, ← zpow_add₀ h2.ne']
          congr 1
          ring
  · have hhalf : (2 : ℚ) ^ (k - ulpExp a b e) ≤ 2 ^ (-1 : ℤ) :=
      zpow_le_zpow_right₀ (by norm_num) (by omega)
    have hm : roundedMant a b e = 0 := by
      unfold roundedMant
      apply roundHalfEven_eq_zero hden
      have hcast : ((2 * (scaleFrac a b (e - ulpExp a b e)).1 : ℕ) : ℚ)
          ≤ (((scaleFrac a b (e - ulpExp a b e)).2 : ℕ) : ℚ) := by
        push_cast
        have h1 : (2 : ℚ) ^ (-1 : ℤ) = 1 / 2 := by norm_num
        rw [h1] at hhalf
        nlinarith
      exact Nat.cast_le.mp hcast
    rw [hm]
    simp only [Nat.cast_zero, zero_mul]
    exact zpow_nonneg h2.le _

/-- The shape of a rounded result: the sign is kept, and a finite result has a
significand below `2^53`. -/
theorem ofFrac_shape (neg : Bool) {a b : Nat} (e : Int) (hb : 0 < b) :
    F64.ofFrac neg a b e = .inf neg ∨
    ∃ m E, F64.ofFrac neg a b e = .fin neg m E ∧ m < 2 ^ 53 := by
  unfold F64.ofFrac
  by_cases ha : a = 0
  · rw [if_pos ha]
    exact Or.inr ⟨0, -1074, rfl, by norm_num⟩
  · rw [if_neg ha]
    have hle := roundedMant_le e (Nat.pos_of_ne_zero ha) hb
    split_ifs with h1 h2
    · exact Or.inl rfl
    · exact Or.inr ⟨2 ^ 52, _, rfl, by norm_num⟩
    · exact Or.inr ⟨_, _, rfl, lt_of_le_of_ne hle h2⟩

/-- Rounding does not cross a power of two: when the exact magnitude is at most `2^k`
with `k ≤ 1023`, the result is finite, of magnitude at most `2^k`. -/
theorem ofFrac_le_pow (neg : Bool) {a b : Nat} {e k : Int} (hb : 0 < b)
    (h : (a : ℚ) / b * 2 ^ e ≤ 2 ^ k) (hk : k ≤ 1023) :
    ∃ m E, F64.ofFrac neg a b e = .fin neg m E ∧ m < 2 ^ 53 ∧ (m : ℚ) * 2 ^ E ≤ 2 ^ k := by
  have h2 : (0 : ℚ) < 2 := by norm_num
  unfold F64.ofFrac
  by_cases ha : a = 0
  · rw [if_pos ha]
    refine ⟨0, -1074, rfl, by norm_num, ?_⟩
    simp only [Nat.cast_zero, zero_mul]
    exact zpow_nonneg h2.le _
  · rw [if_neg ha]
    have hapos := Nat.pos_of_ne_zero ha
    have hmle := roundedMant_le e hapos hb
    have hval := roundedMant_val_le hb h
    have hno : ¬ (1024 < (bitLen (roundedMant a b e) (roundedMant a b e) : Int) + ulpExp a b e) := by
      intro hov
      by_cases hm0 : roundedMant a b e = 0
      · -- the unit in the last place alone would exceed the bound
        rw [hm0] at hov
        have hb0 : bitLen 0 0 = 0 := rfl
        rw [hb0] at hov
        have hE : ulpExp a b e = floorLog2Frac a b + e - 52 := by
          unfold ulpExp at hov ⊢
          rw [max_eq_left]
          by_contra hc
          rw [max_eq_right (by omega)] at hov
          norm_num at hov
        have hlow : (2 : ℚ) ^ (floorLog2Frac a b + e) ≤ 2 ^ k := by
          calc (2 : ℚ) ^ (floorLog2Frac a b + e)
              = 2 ^ floorLog2Frac a b * 2 ^ e := zpow_add₀ h2.ne' _ _
            _ ≤ (a : ℚ) / b * 2 ^ e :=
              mul_le_mul_of_nonneg_right (floorLog2Frac_spec hapos hb).1 (zpow_nonneg h2.le _)
            _ ≤ 2 ^ k := h
        rw [zpow_le_zpow_iff_right₀ (by norm_num : (1 : ℚ) < 2)] at hlow
        simp only [Nat.cast_zero, zero_add] at hov
        omega
      · obtain ⟨_, hlow, hpos⟩ := bitLen_cast_bounds (Nat.pos_of_ne_zero hm0)
        have hchain : (2 : ℚ) ^ ((bitLen (roundedMant a b e) (roundedMant a b e) : ℤ) - 1
            + ulpExp a b e) ≤ 2 ^ k := by
          calc (2 : ℚ) ^ ((bitLen (roundedMant a b e) (roundedMant a b e) : ℤ) - 1 + ulpExp a b e)
              = 2 ^ ((bitLen (roundedMant a b e) (roundedMant a b e) : ℤ) - 1)
                  * 2 ^ ulpExp a b e := zpow_add₀ h2.ne' _ _
            _ ≤ (roundedMant a b e : ℚ) * 2 ^ ulpExp a b e :=
              mul_le_mul_of_nonneg_right hlow (zpow_nonneg h2.le _)
            _ ≤ 2 ^ k := hval
        rw [zpow_le_zpow_iff_right₀ (by norm_num : (1 : ℚ) < 2)] at hchain
        omega
    rw [if_neg hno]
    split_ifs with h53
    · refine ⟨2 ^ 52, _, rfl, by norm_num, ?_⟩
      rw [h53] at hval
      calc ((2 ^ 52 : ℕ) : ℚ) * 2 ^ (ulpExp a b e + 1)
          = ((2 ^ 53 : ℕ) : ℚ) * 2 ^ ulpExp a b e := by
            rw [zpow_add₀ h2.ne']
            push_cast
            ring
        _ ≤ 2 ^ k := hval
    · exact ⟨_, _, rfl, lt_of_le_of_ne hmle h53, hval⟩

theorem toInt_fin (s : Bool) (m : Nat) (e : Int) :
    F64.toInt (.fin s m e) =
      if -(2 : Int) ^ 63 ≤ (if s then -(F64.truncNat m e : Int) else (F64.truncNat m e : Int)) ∧
        (if s then -(F64.truncNat m e : Int) else (F64.truncNat m e : Int)) < 2 ^ 63
      then (if s then -(F64.truncNat m e : Int) else (F64.truncNat m e : Int))
      else -(2 : Int) ^ 63 := rfl

theorem round_fin (s : Bool) (m : Nat) (e : Int) :
    F64.round (.fin s m e) =
      if 0 ≤ e then .fin s m e
      else F64.ofFrac s (m >>> (-e).toNat + (m >>> ((-e).toNat - 1)) % 2) 1 0 := rfl

theorem mul_fin_fin (s : Bool) (m : Nat) (e : Int) (t : Bool) (n : Nat) (f : Int) :
    F64.mul (.fin s m e) (.fin t n f) = F64.ofFrac (xor s t) (m * n) 1 (e + f) := rfl

theorem mul_inf_fin (s t : Bool) (m : Nat) (e : Int) :
    F64.mul (.inf s) (.fin t m e) = if m = 0 then .nan else .inf (xor s t) := rfl

theorem mul_fin_inf (s t : Bool) (m : Nat) (e : Int) :
    F64.mul (.fin s m e) (.inf t) = if m = 0 then .nan else .inf (xor s t) := rfl

theorem ofFrac_canonical (neg : Bool) (a : Nat) {b : Nat} (e : Int) (hb : 0 < b) :
    (F64.ofFrac neg a b e).Canonical := by
  intro s m E h
  rcases ofFrac_shape neg (a := a) e hb with hinf | ⟨m', E', heq, hm⟩
  · rw [hinf] at h
    cases h
  · rw [heq] at h
    cases h
    exact hm

theorem ofInt_canonical (n : Int) : (F64.ofInt n).Canonical :=
  ofFrac_canonical _ _ _ Nat.one_pos

theorem mul_canonical (x y : F64) : (F64.mul x y).Canonical := by
  intro s m E h
  cases x with
  | nan => simp [F64.mul] at h
  | inf sx =>
    cases y with
    | nan => simp [F64.mul] at h
    | inf sy => simp [F64.mul] at h
    | fin sy my ey =>
      rw [mul_inf_fin] at h
      split_ifs at h
  | fin sx mx ex =>
    cases y with
    | nan => simp [F64.mul] at h
    | inf sy =>
      rw [mul_fin_inf] at h
      split_ifs at h
    | fin sy my ey => exact ofFrac_canonical _ _ _ Nat.one_pos s m E h

theorem round_canonical {x : F64} (hx : x.Canonical) : (F64.round x).Canonical := by
  intro s m E h
  cases x with
  | nan => simp [F64.round] at h
  | inf sx => simp [F64.round] at h
  | fin sx mx ex =>
    rw [round_fin] at h
    split_ifs at h
    · exact hx s m E h
    · exact ofFrac_canonical _ _ _ Nat.one_pos s m E h

theorem toInt_range (x : F64) : -(2 : Int) ^ 63 ≤ F64.toInt x ∧ F64.toInt x < 2 ^ 63 := by
  cases x with
  | nan => simp [F64.toInt]
  | inf s => simp [F64.toInt]
  | fin s m e =>
    rw [toInt_fin]
    cases s <;> simp only [Bool.false_eq_true, if_false, if_true] <;> split_ifs with h <;>
      first | exact h | norm_num

theorem truncNat_le (m : Nat) (e : Int) (he : e ≤ 0) : F64.truncNat m e ≤ m := by
  unfold F64.truncNat
  split_ifs with h
  · have h0 : e = 0 := le_antisymm he h
    subst h0
    simp
  · rw [Nat.shiftRight_eq_div_pow]
    exact Nat.div_le_self _ _

/-- The integer a canonical float64 converts to is either even or below `2^53` in
magnitude: from `2^53` on, every float64 is an even integer. -/
theorem toInt_odd_small {x : F64} (hx : x.Canonical) (hodd : F64.toInt x % 2 = 1) :
    -(2 : Int) ^ 53 < F64.toInt x ∧ F64.toInt x < 2 ^ 53 := by
  cases x with
  | nan => simp [F64.toInt] at hodd
  | inf s => simp [F64.toInt] at hodd
  | fin s m e =>
    have hm := hx s m e rfl
    have ht : F64.truncNat m e < 2 ^ 53 ∨ F64.truncNat m e % 2 = 0 := by
      by_cases he : e ≤ 0
      · exact Or.inl (lt_of_le_of_lt (truncNat_le m e he) hm)
      · right
        unfold F64.truncNat
        rw [if_pos (by omega), Nat.shiftLeft_eq]
        have hpos : e.toNat = (e.toNat - 1) + 1 := by omega
        rw [hpos, pow_succ, ← Nat.mul_assoc]
        exact Nat.mul_mod_left _ _
    rw [toInt_fin] at hodd ⊢
    split_ifs at hodd ⊢ with h1 h2 <;> norm_num at hodd ⊢ <;> omega

/-! ## Rendition planning: theorems -/

theorem derivedWidth_odd_small (probe : ProbeResult) (height : Int)
    (hodd : derivedWidth probe height % 2 = 1) :
    -(2 : Int) ^ 53 < derivedWidth probe height ∧ derivedWidth probe height < 2 ^ 53 :=
  toInt_odd_small (round_canonical (mul_canonical _ _)) hodd

theorem wrap64_of_mem {n : Int} (h1 : -(2 : Int) ^ 63 ≤ n) (h2 : n < 2 ^ 63) : wrap64 n = n := by
  unfold wrap64
  norm_num at h1 h2 ⊢
  omega

/-- The evenness correction of the planning loop: for a descriptor whose `Width` is 0 the
resolved width is `derivedWidth` when that is even and `derivedWidth + 1` when it is odd,
an even number either way. -/
theorem planOne_width_even (probe : ProbeResult) (f : ParsedFormat) (h0 : f.Width = 0) :
    (planOne probe f).1.Width =
      (if derivedWidth probe f.Height % 2 = 0 then derivedWidth probe f.Height
       else derivedWidth probe f.Height + 1) ∧
    (planOne probe f).1.Width % 2 = 0 := by
  have hW : (planOne probe f).1.Width =
      (if Int.tmod (derivedWidth probe f.Height) 2 ≠ 0
        then wrap64 (derivedWidth probe f.Height + 1)
        else derivedWidth probe f.Height) := by
    simp only [planOne, h0, if_true]
    split_ifs <;> rfl
  rw [hW]
  by_cases hr : derivedWidth probe f.Height % 2 = 0
  · have ht : Int.tmod (derivedWidth probe f.Height) 2 = 0 :=
      Int.tmod_eq_zero_of_dvd (Int.dvd_of_emod_eq_zero hr)
    simp only [ht, ne_eq, not_true_eq_false, if_false, hr, if_true, and_self]
  · have ht : Int.tmod (derivedWidth probe f.Height) 2 ≠ 0 := fun hc =>
      hr (Int.emod_eq_zero_of_dvd (Int.dvd_of_tmod_eq_zero hc))
    have hodd : derivedWidth probe f.Height % 2 = 1 := by omega
    obtain ⟨hlo, hhi⟩ := derivedWidth_odd_small probe f.Height hodd
    have hwrap : wrap64 (derivedWidth probe f.Height + 1) = derivedWidth probe f.Height + 1 := by
      apply wrap64_of_mem <;> norm_num at hlo hhi ⊢ <;> omega
    rw [if_pos ht, if_neg hr, hwrap]
    exact ⟨rfl, by omega⟩

/-- The planning loop copies the height. -/
theorem planOne_adjusted_height (probe : ProbeResult) (f : ParsedFormat) :
    (planOne probe f).1.Height = f.Height := by
  simp only [planOne]
  split_ifs <;> rfl

/-- The planning loop never writes the quality factor of the adjusted format. -/
theorem planOne_adjusted_quality (probe : ProbeResult) (f : ParsedFormat) :
    (planOne probe f).1.QualityFactor = F64.zero := by
  simp only [planOne]
  split_ifs <;> rfl

/-- The planning loop leaves the adjusted width 0 when the descriptor gives a width. -/
theorem planOne_adjusted_width_of_ne (probe : ProbeResult) (f : ParsedFormat)
    (h : f.Width ≠ 0) : (planOne probe f).1.Width = 0 := by
  simp only [planOne, h, if_false]
  split_ifs <;> rfl

/-- The adjusted frame rate is the probed one when the descriptor gives none, and 0 when
it gives one. -/
theorem planOne_adjusted_frameRate (probe : ProbeResult) (f : ParsedFormat) :
    (planOne probe f).1.FrameRate = if f.FrameRate.isZero then probe.FrameRate else F64.zero := by
  simp only [planOne]
  split_ifs <;> rfl

set_option maxRecDepth 100000 in
/-- C4 (defect): the descriptor `1920x1080::`, planned against a 3840x2160 source at
30 frames per second, gets the resolved width 0, not 1920: the loop assigns
`adjustedFormats[i].Width` only when the descriptor's width is 0. The height 1080 is
copied, and the `Stream` records the width 0. -/
theorem planOne_explicit_width_is_dropped :
    parseFormat (fun _ => none) "1920x1080::".toList
      = ({ Width := 1920, Height := 1080 }, none) ∧
    (planOne { Width := 3840, Height := 2160, FrameRate := F64.ofInt 30 }
      { Width := 1920, Height := 1080 }).1
      = { Width := 0, Height := 1080, FrameRate := F64.ofInt 30, QualityFactor := F64.zero } ∧
    (streamOf (planOne { Width := 3840, Height := 2160, FrameRate := F64.ofInt 30 }
      { Width := 1920, Height := 1080 }).1 "v0x1080.m3u8".toList).Width = 0 := by
  decide

set_option maxRecDepth 100000 in
/-- C5 (defect): the resolved rendition handed to `NewBitRates` always has quality
factor 0. For `1080p::` against a 1920x1080 source at 30 frames per second the default
0.11 is stored in `formats[i]`, not in `adjustedFormats[i]`, and the video bitrate comes
out as 0; a descriptor that gives the quality 0.07 is resolved with quality 0 as well. -/
theorem planOne_quality_is_dropped :
    (planOne { Width := 1920, Height := 1080, FrameRate := F64.ofInt 30 }
      { Height := 1080 }).1
      = { Width := 1920, Height := 1080, FrameRate := F64.ofInt 30, QualityFactor := F64.zero } ∧
    (planOne { Width := 1920, Height := 1080, FrameRate := F64.ofInt 30 }
      { Height := 1080 }).2.QualityFactor = QualityMed ∧
    (NewBitRates (planOne { Width := 1920, Height := 1080, FrameRate := F64.ofInt 30 }
      { Height := 1080 }).1).VideoBitRate = 0 ∧
    (planOne { Width := 1920, Height := 1080, FrameRate := F64.ofInt 30 }
      { Height := 1080, QualityFactor := F64.ofFrac false 7 100 0 }).1.QualityFactor
      = F64.zero := by
  decide

set_option maxRecDepth 100000 in
/-- C6 (defect): the descriptor `1080p:30:`, planned against a 1920x1080 source at 25
frames per second, gets the resolved frame rate 0, not 30: the loop assigns
`adjustedFormats[i].FrameRate` only when the descriptor's frame rate is 0. With the
frame rate absent the probed 25 is used. -/
theorem planOne_explicit_frame_rate_is_dropped :
    (planOne { Width := 1920, Height := 1080, FrameRate := F64.ofInt 25 }
      { Height := 1080, FrameRate := F64.ofInt 30 }).1.FrameRate = F64.zero ∧
    (planOne { Width := 1920, Height := 1080, FrameRate := F64.ofInt 25 }
      { Height := 1080 }).1.FrameRate = F64.ofInt 25 := by
  decide

/-! ## The bitrate ladder: theorems -/

theorem truncNat_eq_floor (m : Nat) (e : Int) :
    (F64.truncNat m e : ℤ) = ⌊(m : ℚ) * 2 ^ e⌋ := by
  unfold F64.truncNat
  split_ifs with h
  · rw [Nat.shiftLeft_eq]
    have hs : e = (e.toNat : ℤ) := (Int.toNat_of_nonneg h).symm
    have hq : (m : ℚ) * 2 ^ e = ((m * 2 ^ e.toNat : ℕ) : ℚ) := by
      conv_lhs => rw [hs]
      rw [zpow_natCast]
      push_cast
      ring
    rw [hq, Int.floor_natCast]
  · rw [Nat.shiftRight_eq_div_pow]
    have hs : e = -((-e).toNat : ℤ) := by omega
    have hq : (m : ℚ) * 2 ^ e = (m : ℚ) / ((2 ^ (-e).toNat : ℕ) : ℚ) := by
      conv_lhs => rw [hs]
      rw [zpow_neg, zpow_natCast]
      push_cast
      ring
    rw [hq, Rat.floor_natCast_div_natCast]
    norm_cast

theorem truncRat_neg_of_nonneg {q : ℚ} (hq : 0 ≤ q) : truncRat (-q) = -⌊q⌋ := by
  unfold truncRat
  by_cases h0 : q = 0
  · subst h0
    simp
  · have hneg : ¬ (0 ≤ -q) := by
      intro hc
      exact h0 (le_antisymm (by linarith) hq)
    rw [if_neg hneg, Int.ceil_neg]

/-- Go's `int(x)` discards the fraction: a finite float64 whose integer part is below
`2^63` in magnitude converts to its value truncated toward zero. -/
theorem toInt_eq_truncRat (s : Bool) (m : Nat) (e : Int) (h : F64.truncNat m e < 2 ^ 63) :
    F64.toInt (.fin s m e) = truncRat (F64.toRat (.fin s m e)) := by
  have h2 : (0 : ℚ) < 2 := by norm_num
  have hnn : (0 : ℚ) ≤ (m : ℚ) * 2 ^ e := mul_nonneg (Nat.cast_nonneg m) (zpow_nonneg h2.le _)
  have hfl := truncNat_eq_floor m e
  have hlt : (F64.truncNat m e : ℤ) < 2 ^ 63 := by exact_mod_cast h
  have hge : (0 : ℤ) ≤ (F64.truncNat m e : ℤ) := Int.natCast_nonneg _
  rw [toInt_fin]
  cases s with
  | false =>
    simp only [Bool.false_eq_true, if_false, F64.toRat, one_mul]
    rw [if_pos ⟨by norm_num at hlt ⊢; omega, hlt⟩]
    unfold truncRat
    rw [if_pos hnn, hfl]
  | true =>
    simp only [if_true, F64.toRat]
    rw [if_pos ⟨by norm_num at hlt ⊢; omega, by norm_num at hlt ⊢; omega⟩]
    have hq : (-1 : ℚ) * (m : ℚ) * 2 ^ e = -((m : ℚ) * 2 ^ e) := by ring
    rw [hq, truncRat_neg_of_nonneg hnn, hfl]

theorem truncNat_le_pow {m : Nat} {e : Int} {k : Nat} (h : (m : ℚ) * 2 ^ e ≤ 2 ^ (k : ℤ)) :
    F64.truncNat m e ≤ 2 ^ k := by
  have hfl := truncNat_eq_floor m e
  have hle : ⌊(m : ℚ) * 2 ^ e⌋ ≤ (2 ^ k : ℤ) := by
    have hc : ((2 ^ k : ℤ) : ℚ) = 2 ^ (k : ℤ) := by
      rw [zpow_natCast]
      push_cast
      rfl
    rw [← Int.floor_intCast (α := ℚ) (2 ^ k : ℤ)]
    exact Int.floor_mono (by rw [hc]; exact h)
  rw [← hfl] at hle
  exact_mod_cast hle

theorem ofInt_le (v : Int) (h1 : -(2 : Int) ^ 63 ≤ v) (h2 : v < 2 ^ 63) :
    ∃ m E, F64.ofInt v = .fin (decide (v < 0)) m E ∧ m < 2 ^ 53 ∧
      (m : ℚ) * 2 ^ E ≤ 2 ^ (63 : ℤ) := by
  unfold F64.ofInt
  apply ofFrac_le_pow _ Nat.one_pos _ (by norm_num)
  have hab : v.natAbs ≤ 2 ^ 63 := by
    norm_num at h1 h2 ⊢
    omega
  have hq : (v.natAbs : ℚ) ≤ ((2 ^ 63 : ℕ) : ℚ) := by exact_mod_cast hab
  norm_num at hq ⊢
  exact hq

set_option maxRecDepth 100000 in
theorem ofFrac_seven_hundredths :
    F64.ofFrac false 7 100 0 = .fin false 5044031582654956 (-56) := by decide

/-- The product `.07 * float64(v)` of an `int` is finite and at most `2^60` in magnitude. -/
theorem maxProduct_le (v : Int) (h1 : -(2 : Int) ^ 63 ≤ v) (h2 : v < 2 ^ 63) :
    ∃ s m E, maxProduct v = .fin s m E ∧ (m : ℚ) * 2 ^ E ≤ 2 ^ (60 : ℤ) := by
  obtain ⟨m, E, hv, _, hle⟩ := ofInt_le v h1 h2
  have h2pos : (0 : ℚ) < 2 := by norm_num
  unfold maxProduct
  rw [hv, ofFrac_seven_hundredths, mul_fin_fin]
  have hex : ((5044031582654956 * m : ℕ) : ℚ) / ((1 : ℕ) : ℚ) * 2 ^ (-56 + E) ≤ 2 ^ (60 : ℤ) := by
    have hc : (5044031582654956 : ℚ) * 2 ^ (-56 : ℤ) ≤ 2 ^ (-3 : ℤ) := by norm_num
    have hmE : (0 : ℚ) ≤ (m : ℚ) * 2 ^ E := mul_nonneg (Nat.cast_nonneg m) (zpow_nonneg h2pos.le _)
    calc ((5044031582654956 * m : ℕ) : ℚ) / ((1 : ℕ) : ℚ) * 2 ^ (-56 + E)
        = (5044031582654956 * 2 ^ (-56 : ℤ)) * ((m : ℚ) * 2 ^ E) := by
          rw [zpow_add₀ h2pos.ne']
          push_cast
          ring
      _ ≤ 2 ^ (-3 : ℤ) * 2 ^ (63 : ℤ) :=
          mul_le_mul hc hle hmE (zpow_nonneg h2pos.le _)
      _ = 2 ^ (60 : ℤ) := by norm_num
  obtain ⟨m', E', heq, _, hle'⟩ :=
    ofFrac_le_pow (xor false (decide (v < 0))) Nat.one_pos hex (by norm_num)
  exact ⟨_, m', E', heq, hle'⟩

theorem maxProduct_toInt (v : Int) (h1 : -(2 : Int) ^ 63 ≤ v) (h2 : v < 2 ^ 63) :
    F64.toInt (maxProduct v) = truncRat (F64.toRat (maxProduct v)) ∧
    -(2 : Int) ^ 60 ≤ F64.toInt (maxProduct v) ∧ F64.toInt (maxProduct v) ≤ 2 ^ 60 := by
  obtain ⟨s, m, E, heq, hle⟩ := maxProduct_le v h1 h2
  have hk : F64.truncNat m E ≤ 2 ^ 60 := truncNat_le_pow (k := 60) hle
  have hlt : F64.truncNat m E < 2 ^ 63 := lt_of_le_of_lt hk (by norm_num)
  rw [heq]
  refine ⟨toInt_eq_truncRat s m E hlt, ?_⟩
  have hc : (F64.truncNat m E : ℤ) ≤ 2 ^ 60 := by exact_mod_cast hk
  have hge : (0 : ℤ) ≤ (F64.truncNat m E : ℤ) := Int.natCast_nonneg _
  rw [toInt_fin]
  cases s <;> simp only [Bool.false_eq_true, if_false, if_true] <;>
    rw [if_pos (by norm_num at hc ⊢; omega)] <;> norm_num at hc ⊢ <;> omega

set_option maxRecDepth 100000 in
/-- C7, the claim as stated fails: for 640x360 at 29.97 frames per second and quality
0.11 the product is 759559.68; `NewBitRates` yields 759559, the nearest integer is
759560. -/
theorem NewBitRates_video_not_nearest :
    (NewBitRates
      { Width := 640, Height := 360, FrameRate := F64.ofFrac false 2997 100 0,
        QualityFactor := QualityMed }).VideoBitRate = 759559 ∧
    specVideoBitRate
      { Width := 640, Height := 360, FrameRate := F64.ofFrac false 2997 100 0,
        QualityFactor := QualityMed } = 759560 ∧
    (NewBitRates
      { Width := 640, Height := 360, FrameRate := F64.ofFrac false 2997 100 0,
        QualityFactor := QualityMed }).VideoBitRate
      ≠ specVideoBitRate
      { Width := 640, Height := 360, FrameRate := F64.ofFrac false 2997 100 0,
        QualityFactor := QualityMed } := by
  have hV : (NewBitRates
      { Width := 640, Height := 360, FrameRate := F64.ofFrac false 2997 100 0,
        QualityFactor := QualityMed }).VideoBitRate = 759559 := by decide
  have hfr : F64.ofFrac false 2997 100 0 = .fin false 8435805052018360 (-48) := by decide
  have hq : QualityMed = .fin false 7926335344172073 (-56) := by decide
  have hS : specVideoBitRate
      { Width := 640, Height := 360, FrameRate := F64.ofFrac false 2997 100 0,
        QualityFactor := QualityMed } = 759560 := by
    unfold specVideoBitRate
    simp only [hfr, hq, F64.toRat]
    rw [round_eq, Int.floor_eq_iff]
    norm_num
  refine ⟨hV, hS, ?_⟩
  rw [hV, hS]
  decide

/-- C7, amended: for every descriptor `f` whose float64 product
`float64(Width*Height) * FrameRate * QualityFactor` is finite with an integer part below
`2^63` in magnitude, `NewBitRates(f).VideoBitRate` is that product with its fraction
discarded (truncated toward zero), not rounded to the nearest integer. -/
theorem NewBitRates_video_truncates (f : ParsedFormat) (s : Bool) (m : Nat) (e : Int)
    (hp : videoProduct f = .fin s m e) (hr : F64.truncNat m e < 2 ^ 63) :
    (NewBitRates f).VideoBitRate = truncRat (F64.toRat (videoProduct f)) := by
  show F64.toInt (videoProduct f) = truncRat (F64.toRat (videoProduct f))
  rw [hp]
  exact toInt_eq_truncRat s m e hr

set_option maxRecDepth 100000 in
/-- Witness for the amended C7: 640x360 at 29.97 frames per second and quality 0.11. -/
theorem NewBitRates_video_truncates_witness :
    (NewBitRates
      { Width := 640, Height := 360, FrameRate := F64.ofFrac false 2997 100 0,
        QualityFactor := QualityMed }).VideoBitRate
      = truncRat (F64.toRat (videoProduct
          { Width := 640, Height := 360, FrameRate := F64.ofFrac false 2997 100 0,
            QualityFactor := QualityMed })) :=
  NewBitRates_video_truncates _ false 6524567969920451 (-33) (by decide) (by decide)

set_option maxRecDepth 100000 in
/-- C8, the claim as stated fails: for 1280x720 at 30 frames per second and quality 0.11
the video bitrate is 3041280 and 0.07 times it is 212889.6; `NewBitRates` yields the
maximum 212889, the nearest integer is 212890. -/
theorem NewBitRates_max_not_nearest :
    (NewBitRates
      { Width := 1280, Height := 720, FrameRate := F64.ofInt 30,
        QualityFactor := QualityMed }).VideoBitRate = 3041280 ∧
    (NewBitRates
      { Width := 1280, Height := 720, FrameRate := F64.ofInt 30,
        QualityFactor := QualityMed }).MaximumVideoBitRate = 212889 ∧
    specMaxVideoBitRate 3041280 = 212890 ∧
    (NewBitRates
      { Width := 1280, Height := 720, FrameRate := F64.ofInt 30,
        QualityFactor := QualityMed }).MaximumVideoBitRate
      ≠ specMaxVideoBitRate (NewBitRates
          { Width := 1280, Height := 720, FrameRate := F64.ofInt 30,
            QualityFactor := QualityMed }).VideoBitRate := by
  have hV : (NewBitRates
      { Width := 1280, Height := 720, FrameRate := F64.ofInt 30,
        QualityFactor := QualityMed }).VideoBitRate = 3041280 := by decide
  have hM : (NewBitRates
      { Width := 1280, Height := 720, FrameRate := F64.ofInt 30,
        QualityFactor := QualityMed }).MaximumVideoBitRate = 212889 := by decide
  have hS : specMaxVideoBitRate 3041280 = 212890 := by
    unfold specMaxVideoBitRate
    norm_num [round_eq]
  refine ⟨hV, hM, hS, ?_⟩
  rw [hV, hM, hS]
  decide

/-- C8, amended: for every descriptor `f`, `NewBitRates(f).MaximumVideoBitRate` is the
float64 product `.07 * float64(VideoBitRate)` with its fraction discarded (truncated
toward zero), not rounded to the nearest integer; that product is always finite and
within the range of `int`. -/
theorem NewBitRates_max_truncates (f : ParsedFormat) :
    (NewBitRates f).MaximumVideoBitRate
      = truncRat (F64.toRat (maxProduct (NewBitRates f).VideoBitRate)) :=
  (maxProduct_toInt _ (toInt_range _).1 (toInt_range _).2).1

/-- C9: for every descriptor `f`, `NewBitRates(f).BufferSize` equals exactly
`2 * NewBitRates(f).MaximumVideoBitRate`: the maximum is at most `2^60` in magnitude, so
the 64-bit doubling does not wrap. -/
theorem NewBitRates_bufferSize (f : ParsedFormat) :
    (NewBitRates f).BufferSize = 2 * (NewBitRates f).MaximumVideoBitRate := by
  obtain ⟨_, hlo, hhi⟩ := maxProduct_toInt (F64.toInt (videoProduct f))
    (toInt_range _).1 (toInt_range _).2
  show wrap64 (F64.toInt (maxProduct (F64.toInt (videoProduct f))) * 2)
    = 2 * F64.toInt (maxProduct (F64.toInt (videoProduct f)))
  rw [wrap64_of_mem (by norm_num at hlo hhi ⊢; omega) (by norm_num at hlo hhi ⊢; omega)]
  ring

/-- C10: for every descriptor `f`, `NewBitRates(f).AudioBitRate` is decided by the area
`Width * Height` (the program's 64-bit product, equal to the mathematical product when
that fits in an `int`) alone, with `≤` semantics: 96000 when the area is at most
640*360 = 230400, 128000 when it is above 230400 and at most 1280*720 = 921600, and
192000 otherwise; no other value is produced, and two descriptors of equal area get the
same audio bitrate whatever their dimensions, frame rate and quality. -/
theorem NewBitRates_audio_by_area (f g : ParsedFormat) :
    (area f ≤ 230400 → (NewBitRates f).AudioBitRate = 96000) ∧
    (230400 < area f → area f ≤ 921600 → (NewBitRates f).AudioBitRate = 128000) ∧
    (921600 < area f → (NewBitRates f).AudioBitRate = 192000) ∧
    ((NewBitRates f).AudioBitRate = 96000 ∨ (NewBitRates f).AudioBitRate = 128000 ∨
      (NewBitRates f).AudioBitRate = 192000) ∧
    (area f = area g → (NewBitRates f).AudioBitRate = (NewBitRates g).AudioBitRate) ∧
    (-(2 : Int) ^ 63 ≤ f.Width * f.Height → f.Width * f.Height < 2 ^ 63 →
      area f = f.Width * f.Height) := by
  have hA : ∀ h : ParsedFormat, (NewBitRates h).AudioBitRate =
      (if area h ≤ 640 * 360 then 96000 else if area h ≤ 1280 * 720 then 128000 else 192000) :=
    fun _ => rfl
  refine ⟨?_, ?_, ?_, ?_, ?_, ?_⟩
  · intro h
    rw [hA, if_pos (by omega)]
  · intro h1 h2
    rw [hA, if_neg (by omega), if_pos (by omega)]
  · intro h
    rw [hA, if_neg (by omega), if_neg (by omega)]
  · rw [hA]
    split_ifs <;> simp
  · intro h
    rw [hA, hA, h]
  · intro h1 h2
    exact wrap64_of_mem h1 h2

/-- Witness for C10: 640x360 gives 96000, 1280x720 gives 128000, 1920x1080 gives 192000;
1280x360 and 640x720 have the same area and both give 128000. -/
theorem NewBitRates_audio_by_area_witness :
    (NewBitRates { Width := 640, Height := 360 }).AudioBitRate = 96000 ∧
    (NewBitRates { Width := 1280, Height := 720 }).AudioBitRate = 128000 ∧
    (NewBitRates { Width := 1920, Height := 1080 }).AudioBitRate = 192000 ∧
    (NewBitRates { Width := 1280, Height := 360 }).AudioBitRate
      = (NewBitRates { Width := 640, Height := 720 }).AudioBitRate :=
  ⟨(NewBitRates_audio_by_area { Width := 640, Height := 360 } {}).1 (by decide),
   (NewBitRates_audio_by_area { Width := 1280, Height := 720 } {}).2.1 (by decide) (by decide),
   (NewBitRates_audio_by_area { Width := 1920, Height := 1080 } {}).2.2.1 (by decide),
   (NewBitRates_audio_by_area { Width := 1280, Height := 360 }
      { Width := 640, Height := 720 }).2.2.2.2.1 (by decide)⟩

/-! ## The master playlist: theorems -/

theorem foldl_writeStream (streams : List Stream) (b : List Char) :
    streams.foldl writeStream b = b ++ (streams.map (fun s => writeStream [] s)).flatten := by
  induction streams generalizing b with
  | nil => simp
  | cons s rest ih =>
    rw [List.foldl_cons, ih]
    simp only [List.map_cons, List.flatten_cons, writeStream, List.nil_append,
      List.append_assoc]

set_option maxRecDepth 100000 in
/-- C11: for every list of streams, the text `makeMasterTrack` writes is the line
`#EXTM3U` followed, for each stream in input order, by the line
`#EXT-X-STREAM-INF:BANDWIDTH=<Bandwidth>,RESOLUTION=<Width>x<Height>` and the line
`<FileName>`; for the empty list it is exactly `#EXTM3U` and a newline; and the streams
(640x360, 800000) then (1920x1080, 5000000) are rendered in that order. -/
theorem makeMasterTrack_text (streams : List Stream) :
    makeMasterTrack false false streams = (some (masterTrackText streams), none) ∧
    masterTrackText streams =
      "#EXTM3U\n".toList ++ (streams.map (fun s =>
        "#EXT-X-STREAM-INF:BANDWIDTH=".toList ++ fmtInt s.Bandwidth ++ ",RESOLUTION=".toList
          ++ fmtInt s.Width ++ "x".toList ++ fmtInt s.Height ++ "\n".toList
          ++ s.FileName ++ "\n".toList)).flatten ∧
    masterTrackText [] = "#EXTM3U\n".toList ∧
    masterTrackText
      [{ Width := 640, Height := 360, Bandwidth := 800000, FileName := "v640x360.m3u8".toList },
       { Width := 1920, Height := 1080, Bandwidth := 5000000,
         FileName := "v1920x1080.m3u8".toList }]
      = ("#EXTM3U\n" ++ "#EXT-X-STREAM-INF:BANDWIDTH=800000,RESOLUTION=640x360\n"
          ++ "v640x360.m3u8\n" ++ "#EXT-X-STREAM-INF:BANDWIDTH=5000000,RESOLUTION=1920x1080\n"
          ++ "v1920x1080.m3u8\n").toList := by
  refine ⟨rfl, ?_, rfl, by decide⟩
  unfold masterTrackText
  rw [foldl_writeStream]
  simp only [writeStream, List.nil_append, List.append_assoc]
/-! ## Command line arguments: theorems -/

theorem foldl_step_file (rest fs is : List (List Char)) :
    rest.foldl parseArgsStep { expects := Expects.file, rawFormats := fs, inputFiles := is }
      = { expects := Expects.file, rawFormats := fs, inputFiles := is ++ rest } := by
  induction rest generalizing is with
  | nil => simp
  | cons a rest ih =>
    rw [List.foldl_cons]
    show rest.foldl parseArgsStep
      { expects := Expects.file, rawFormats := fs, inputFiles := is ++ [a] } = _
    rw [ih]
    simp

theorem dash_f_eq_ne (x : List Char) : "-f=".toList ++ x ≠ "-f".toList := by
  intro h
  have hl := congrArg List.length h
  simp at hl

theorem hasPrefix_append (p x : List Char) : hasPrefix (p ++ x) p = true := by
  simp [hasPrefix]

theorem trimPrefix_append (p x : List Char) : trimPrefix (p ++ x) p = x := by
  simp [trimPrefix, hasPrefix_append]

theorem eq_append_of_hasPrefix {a p : List Char} (h : hasPrefix a p = true) :
    a = p ++ a.drop p.length := by
  unfold hasPrefix at h
  rw [List.isPrefixOf_iff_prefix] at h
  obtain ⟨t, rfl⟩ := h
  simp

theorem step_any_pair (fs is : List (List Char)) (x : List Char) :
    parseArgsStep (parseArgsStep
        { expects := Expects.any, rawFormats := fs, inputFiles := is } "-f".toList) x
      = { expects := Expects.any, rawFormats := fs ++ [x], inputFiles := is } := by
  simp [parseArgsStep]

theorem step_any_eq (fs is : List (List Char)) (x : List Char) :
    parseArgsStep { expects := Expects.any, rawFormats := fs, inputFiles := is }
        ("-f=".toList ++ x)
      = { expects := Expects.any, rawFormats := fs ++ [x], inputFiles := is } := by
  simp only [parseArgsStep, if_neg (dash_f_eq_ne x), hasPrefix_append, trimPrefix_append,
    if_true]

theorem step_any_file (fs is : List (List Char)) {a : List Char} (h : IsFileArg a) :
    parseArgsStep { expects := Expects.any, rawFormats := fs, inputFiles := is } a
      = { expects := Expects.file, rawFormats := fs, inputFiles := is ++ [a] } := by
  simp only [parseArgsStep, if_neg h.1, h.2, Bool.false_eq_true, if_false]

/-- The loop over a run of options collects their values in order and stays ready for
more options. -/
theorem foldl_step_run {pre vals : List (List Char)} (h : OptionRun pre vals) :
    ∀ fs is : List (List Char),
      pre.foldl parseArgsStep { expects := Expects.any, rawFormats := fs, inputFiles := is }
        = { expects := Expects.any, rawFormats := fs ++ vals, inputFiles := is } := by
  induction h with
  | nil => intro fs is; simp
  | pair x _ ih =>
    intro fs is
    rw [List.foldl_cons, List.foldl_cons, step_any_pair, ih]
    simp
  | eq x _ ih =>
    intro fs is
    rw [List.foldl_cons, step_any_eq, ih]
    simp

/-- Every argument list is a run of options followed by an input file and anything after
it, or a run of options alone, or a run of options and a final `-f` without value. -/
theorem args_shape : ∀ (n : Nat) (args : List (List Char)), args.length ≤ n →
    (∃ pre vals a rest, args = pre ++ a :: rest ∧ OptionRun pre vals ∧ IsFileArg a) ∨
    (∃ vals, OptionRun args vals) ∨
    (∃ pre vals, args = pre ++ ["-f".toList] ∧ OptionRun pre vals) := by
  intro n
  induction n with
  | zero =>
    intro args h
    have h0 : args = [] := List.length_eq_zero.mp (by omega)
    subst h0
    exact Or.inr (Or.inl ⟨[], OptionRun.nil⟩)
  | succ n ih =>
    intro args h
    cases args with
    | nil => exact Or.inr (Or.inl ⟨[], OptionRun.nil⟩)
    | cons a rest =>
      by_cases hf : a = "-f".toList
      · subst hf
        cases rest with
        | nil => exact Or.inr (Or.inr ⟨[], [], rfl, OptionRun.nil⟩)
        | cons x rest2 =>
          have hlen : rest2.length ≤ n := by
            simp only [List.length_cons] at h
            omega
          rcases ih rest2 hlen with ⟨pre, vals, b, r, he, hr, hb⟩ | ⟨vals, hr⟩ |
              ⟨pre, vals, he, hr⟩
          · exact Or.inl ⟨"-f".toList :: x :: pre, x :: vals, b, r, by rw [he]; rfl,
              OptionRun.pair x hr, hb⟩
          · exact Or.inr (Or.inl ⟨x :: vals, OptionRun.pair x hr⟩)
          · exact Or.inr (Or.inr ⟨"-f".toList :: x :: pre, x :: vals, by rw [he]; rfl,
              OptionRun.pair x hr⟩)
      · have hlen : rest.length ≤ n := by
          simp only [List.length_cons] at h
          omega
        by_cases hp : hasPrefix a "-f=".toList = true
        · have ha := eq_append_of_hasPrefix hp
          rcases ih rest hlen with ⟨pre, vals, b, r, he, hr, hb⟩ | ⟨vals, hr⟩ |
              ⟨pre, vals, he, hr⟩
          · refine Or.inl ⟨a :: pre, a.drop "-f=".toList.length :: vals, b, r,
              by rw [he]; rfl, ?_, hb⟩
            rw [ha]
            simpa using OptionRun.eq (a.drop "-f=".toList.length) hr
          · refine Or.inr (Or.inl ⟨a.drop "-f=".toList.length :: vals, ?_⟩)
            rw [ha]
            simpa using OptionRun.eq (a.drop "-f=".toList.length) hr
          · refine Or.inr (Or.inr ⟨a :: pre, a.drop "-f=".toList.length :: vals,
              by rw [he]; rfl, ?_⟩)
            rw [ha]
            simpa using OptionRun.eq (a.drop "-f=".toList.length) hr
        · exact Or.inl ⟨[], [], a, rest, rfl, OptionRun.nil,
            ⟨hf, by simpa using hp⟩⟩

theorem parseArgsLoop_files {pre vals : List (List Char)} (h : OptionRun pre vals)
    {a : List Char} (ha : IsFileArg a) (rest : List (List Char)) :
    parseArgsLoop (pre ++ a :: rest)
      = { expects := Expects.file, rawFormats := vals, inputFiles := a :: rest } := by
  unfold parseArgsLoop
  rw [List.foldl_append, foldl_step_run h, List.foldl_cons, step_any_file _ _ ha,
    foldl_step_file]
  simp

theorem parseArgsLoop_run {pre vals : List (List Char)} (h : OptionRun pre vals) :
    parseArgsLoop pre = { expects := Expects.any, rawFormats := vals, inputFiles := [] } := by
  unfold parseArgsLoop
  rw [foldl_step_run h]
  simp

theorem parseArgsLoop_dangling {pre vals : List (List Char)} (h : OptionRun pre vals) :
    parseArgsLoop (pre ++ ["-f".toList])
      = { expects := Expects.format, rawFormats := vals, inputFiles := [] } := by
  unfold parseArgsLoop
  rw [List.foldl_append, foldl_step_run h]
  simp [parseArgsStep]

/-- What a successful `parseArgs` has seen: a non-empty run of options, then an input
file and the rest of the arguments. -/
theorem parseArgs_success {args : List (List Char)}
    {fs is : Option (List (List Char))} (h : parseArgs args = (fs, is, none)) :
    ∃ pre vals a rest, args = pre ++ a :: rest ∧ OptionRun pre vals ∧ vals ≠ [] ∧
      IsFileArg a ∧ fs = some vals ∧ is = some (a :: rest) := by
  rcases args_shape args.length args le_rfl with ⟨pre, vals, a, rest, he, hr, ha⟩ | ⟨vals, hr⟩ |
      ⟨pre, vals, he, hr⟩
  · subst he
    unfold parseArgs at h
    rw [parseArgsLoop_files hr ha] at h
    by_cases hv : vals = []
    · subst hv
      simp at h
    · have hl : vals.length ≠ 0 := fun hc => hv (List.length_eq_zero.mp hc)
      simp only [hl, if_false, List.length_cons] at h
      simp only [Nat.add_one_ne_zero, if_false, Prod.mk.injEq, and_true] at h
      exact ⟨pre, vals, a, rest, rfl, hr, hv, ha, h.1.symm, h.2.symm⟩
  · unfold parseArgs at h
    rw [parseArgsLoop_run hr] at h
    split_ifs at h with h1 h2
    · simp at h
    · simp at h
    · exact absurd rfl h2
  · subst he
    unfold parseArgs at h
    rw [parseArgsLoop_dangling hr] at h
    split_ifs at h with h1 h2
    · simp at h
    · simp at h
    · exact absurd rfl h2

/-- C12: for every argument list, `parseArgs` succeeds only when it has collected at
least one format and at least one input file: when it returns no error both returned
lists are non-empty, and when no format or no input file was collected it returns an
error with both lists nil. In particular the empty list fails, a list that starts with
an input file (files but no `-f`) fails, and a list of options alone (formats but no
file) fails. -/
theorem parseArgs_requires_both (args : List (List Char)) :
    (∀ fs is, parseArgs args = (fs, is, none) →
      ∃ f i, fs = some f ∧ is = some i ∧ f ≠ [] ∧ i ≠ []) ∧
    ((parseArgsLoop args).rawFormats = [] ∨ (parseArgsLoop args).inputFiles = [] →
      ∃ msg, parseArgs args = (none, none, some msg)) ∧
    parseArgs [] = (none, none, some "no formats given") ∧
    (∀ a rest, IsFileArg a → parseArgs (a :: rest) = (none, none, some "no formats given")) ∧
    (∀ pre vals, OptionRun pre vals → ∃ msg, parseArgs pre = (none, none, some msg)) := by
  refine ⟨?_, ?_, rfl, ?_, ?_⟩
  · intro fs is h
    obtain ⟨pre, vals, a, rest, _, _, hv, _, hfs, his⟩ := parseArgs_success h
    exact ⟨vals, a :: rest, hfs, his, hv, List.cons_ne_nil _ _⟩
  · intro h
    unfold parseArgs
    rcases h with h | h
    · rw [h]
      exact ⟨_, rfl⟩
    · rw [h]
      split_ifs
      · exact ⟨_, rfl⟩
      · exact ⟨_, rfl⟩
      · rename_i h2
        exact absurd rfl h2
  · intro a rest ha
    unfold parseArgs
    rw [show a :: rest = [] ++ a :: rest from rfl, parseArgsLoop_files OptionRun.nil ha]
    rfl
  · intro pre vals hr
    unfold parseArgs
    rw [parseArgsLoop_run hr]
    split_ifs
    · exact ⟨_, rfl⟩
    · exact ⟨_, rfl⟩
    · rename_i h2
      exact absurd rfl h2

/-- Witness for C12: `-f 1080p:: a.mp4` succeeds with one format and one file. -/
theorem parseArgs_requires_both_witness :
    parseArgs ["-f".toList, "1080p::".toList, "a.mp4".toList]
      = (some ["1080p::".toList], some ["a.mp4".toList], none) ∧
    ∃ f i, some ["1080p::".toList] = some f ∧ some ["a.mp4".toList] = some i ∧
      f ≠ [] ∧ i ≠ [] :=
  ⟨by decide,
   (parseArgs_requires_both ["-f".toList, "1080p::".toList, "a.mp4".toList]).1 _ _ (by decide)⟩

/-- C19: for every argument list on which `parseArgs` succeeds, the returned input files
are exactly the suffix of the argument list that starts at the first argument taken as a
file: the arguments before it form a run of `-f X` pairs and `-f=X` arguments, the suffix
starts with an argument that is neither `-f` nor prefixed by `-f=`, and every later
argument, `-f` and `-f=...` included, is returned as an input file and never as a
format (appending arguments only appends them to the input files). -/
theorem parseArgs_files_suffix (args fs is : List (List Char))
    (h : parseArgs args = (some fs, some is, none)) :
    ∃ pre vals a rest, args = pre ++ is ∧ is = a :: rest ∧ OptionRun pre vals ∧
      IsFileArg a ∧
      ∀ more, parseArgs (args ++ more) = (some fs, some (is ++ more), none) := by
  obtain ⟨pre, vals, a, rest, he, hr, hv, ha, hfs, his⟩ := parseArgs_success h
  cases hfs
  cases his
  refine ⟨pre, fs, a, rest, he, rfl, hr, ha, ?_⟩
  intro more
  have hl : fs.length ≠ 0 := fun hc => hv (List.length_eq_zero.mp hc)
  subst he
  unfold parseArgs
  rw [List.append_assoc, List.cons_append, parseArgsLoop_files hr ha]
  simp [hl]

/-- Witness for C19: after the first file `a.mp4`, the arguments `-f` and `-f=720p::` are
input files. -/
theorem parseArgs_files_suffix_witness :
    ∃ pre vals a rest,
      ["-f".toList, "1080p::".toList, "a.mp4".toList, "-f".toList, "-f=720p::".toList]
        = pre ++ ["a.mp4".toList, "-f".toList, "-f=720p::".toList] ∧
      ["a.mp4".toList, "-f".toList, "-f=720p::".toList] = a :: rest ∧ OptionRun pre vals ∧
      IsFileArg a ∧
      ∀ more, parseArgs
          (["-f".toList, "1080p::".toList, "a.mp4".toList, "-f".toList, "-f=720p::".toList]
            ++ more)
        = (some ["1080p::".toList],
            some (["a.mp4".toList, "-f".toList, "-f=720p::".toList] ++ more), none) :=
  parseArgs_files_suffix _ _ _ (by decide)

/-- C20: for every argument list on which `parseArgs` succeeds, the returned formats are,
in their order of appearance, exactly the values `X` of the `-f X` pairs and `-f=X`
arguments that precede the first input file; and the two spellings are interchangeable:
`parseArgs` of `-f=X` followed by `rest` equals `parseArgs` of `-f`, `X` followed by
`rest`. -/
theorem parseArgs_formats_in_order (args fs is : List (List Char)) (x : List Char)
    (rest : List (List Char)) :
    (parseArgs args = (some fs, some is, none) →
      ∃ pre a r, args = pre ++ is ∧ is = a :: r ∧ IsFileArg a ∧ OptionRun pre fs) ∧
    parseArgs (("-f=".toList ++ x) :: rest) = parseArgs ("-f".toList :: x :: rest) := by
  constructor
  · intro h
    obtain ⟨pre, vals, a, r, he, hr, _, ha, hfs, his⟩ := parseArgs_success h
    cases hfs
    cases his
    exact ⟨pre, a, r, he, rfl, ha, hr⟩
  · have hloop : parseArgsLoop (("-f=".toList ++ x) :: rest)
        = parseArgsLoop ("-f".toList :: x :: rest) := by
      unfold parseArgsLoop
      rw [List.foldl_cons, List.foldl_cons, List.foldl_cons]
      have h1 := step_any_eq [] [] x
      have h2 := step_any_pair [] [] x
      rw [show ({} : ArgState)
        = { expects := Expects.any, rawFormats := [], inputFiles := [] } from rfl, h1, h2]
    unfold parseArgs
    rw [hloop]

/-- Witness for C20: `-f 1080p:: -f=720p:: a.mp4` gives the formats `1080p::`, `720p::`
in that order. -/
theorem parseArgs_formats_in_order_witness :
    ∃ pre a r,
      ["-f".toList, "1080p::".toList, "-f=720p::".toList, "a.mp4".toList]
        = pre ++ ["a.mp4".toList] ∧
      ["a.mp4".toList] = a :: r ∧ IsFileArg a ∧
      OptionRun pre ["1080p::".toList, "720p::".toList] :=
  (parseArgs_formats_in_order
    ["-f".toList, "1080p::".toList, "-f=720p::".toList, "a.mp4".toList]
    ["1080p::".toList, "720p::".toList] ["a.mp4".toList] [] []).1 (by decide)
/-! ## Probing: theorems -/

theorem isDigit_bounds {c : Char} (h : c.isDigit = true) : 48 ≤ c.toNat ∧ c.toNat ≤ 57 := by
  simp only [Char.isDigit, Bool.and_eq_true, decide_eq_true_eq] at h
  obtain ⟨h1, h2⟩ := h
  rw [ge_iff_le, UInt32.le_def] at h1
  rw [UInt32.le_def] at h2
  exact ⟨h1, h2⟩

theorem IntChar.props {c : Char} (h : IntChar c) :
    c ≠ ',' ∧ c ≠ '/' ∧ c ≠ ':' ∧ c ≠ 'x' ∧ c ≠ 'p' ∧ isSpace c = false := by
  rcases h with h | h
  · subst h
    decide
  · obtain ⟨h1, h2⟩ := isDigit_bounds h
    refine ⟨?_, ?_, ?_, ?_, ?_, ?_⟩
    · intro hc; subst hc; revert h1; decide
    · intro hc; subst hc; revert h1; decide
    · intro hc; subst hc; revert h2; decide
    · intro hc; subst hc; revert h2; decide
    · intro hc; subst hc; revert h2; decide
    · simp only [isSpace, decide_eq_false_iff_not]
      omega

theorem fmtInt_chars (n : Int) : fmtInt n ≠ [] ∧ ∀ c ∈ fmtInt n, IntChar c := by
  obtain ⟨hne, hall, _⟩ := toDigits_spec n.natAbs
  unfold fmtInt
  split_ifs
  · refine ⟨List.cons_ne_nil _ _, ?_⟩
    intro c hc
    rcases List.mem_cons.mp hc with hc | hc
    · exact Or.inl hc
    · exact Or.inr (hall c hc).1
  · exact ⟨hne, fun c hc => Or.inr (hall c hc).1⟩

theorem Atoi_fmtInt (n : Int) (h1 : -(2 : Int) ^ 63 ≤ n) (h2 : n < 2 ^ 63) :
    Atoi (fmtInt n) = some n := by
  unfold fmtInt
  split_ifs with hneg
  · obtain ⟨hne, _, hp⟩ := toDigits_spec n.natAbs
    have hle : n.natAbs ≤ 2 ^ 63 := by
      norm_num at h1 ⊢
      omega
    have hle' : n.natAbs ≤ 9223372036854775808 := by
      norm_num at hle
      exact hle
    have hval : -(n.natAbs : Int) = n := by omega
    unfold Atoi
    simp only [List.head?_cons, true_or, if_true, List.tail_cons, if_neg hne, hp]
    rw [if_pos hle, hval]
  · have hnat : (n.natAbs : Int) = n := by omega
    have hlt : n.natAbs < 2 ^ 63 := by
      norm_num at h2 ⊢
      omega
    rw [Atoi_toDigits n.natAbs hlt, hnat]

theorem dropWhile_append_of_all {p : Char → Bool} {pre : List Char} (t : List Char)
    (h : ∀ c ∈ pre, p c = true) : (pre ++ t).dropWhile p = t.dropWhile p := by
  induction pre with
  | nil => rfl
  | cons c cs ih =>
    have hc := h c (List.mem_cons_self _ _)
    rw [List.cons_append, List.dropWhile_cons, if_pos hc]
    exact ih (fun d hd => h d (List.mem_cons_of_mem _ hd))

theorem dropWhile_of_head {p : Char → Bool} {t : List Char} (ht : t ≠ [])
    (h : p (t.head ht) = false) : t.dropWhile p = t := by
  cases t with
  | nil => exact absurd rfl ht
  | cons c cs =>
    simp only [List.head_cons] at h
    simp [List.dropWhile_cons, h]

/-- Cutting the white space around a text that neither starts nor ends with white space
gives the text back. -/
theorem trimSpace_padded (pre : List Char) {body : List Char} (post : List Char) (hb : body ≠ [])
    (hhead : isSpace (body.head hb) = false) (hlast : isSpace (body.getLast hb) = false)
    (hpre : ∀ c ∈ pre, isSpace c = true) (hpost : ∀ c ∈ post, isSpace c = true) :
    trimSpace (pre ++ body ++ post) = body := by
  unfold trimSpace
  have hbp : body ++ post ≠ [] := by simp [hb]
  have h1 : (pre ++ body ++ post).dropWhile isSpace = body ++ post := by
    rw [List.append_assoc, dropWhile_append_of_all _ hpre]
    apply dropWhile_of_head hbp
    rw [List.head_append_of_ne_nil hb]
    exact hhead
  rw [h1]
  unfold List.rdropWhile
  have hr : body.reverse ≠ [] := by simp [hb]
  rw [List.reverse_append, dropWhile_append_of_all _ (fun c hc => hpost c (List.mem_reverse.mp hc)),
    dropWhile_of_head hr (by rw [List.head_reverse]; exact hlast), List.reverse_reverse]

theorem Probe_of_length_ne {pData : List Char}
    (h : (split ',' (trimSpace pData)).length ≠ 3) :
    (Probe pData).1 = {} ∧ (Probe pData).2 ≠ none := by
  unfold Probe
  split
  · next w hh ratio heq =>
      rw [heq] at h
      exact absurd rfl h
  · exact ⟨rfl, by simp⟩

theorem Probe_of_fields {pData w h ratio : List Char}
    (hs : split ',' (trimSpace pData) = [w, h, ratio]) :
    Probe pData =
      match cut '/' ratio with
      | none => ({}, some "unexpected program output: couldn\x27t find \x27/\x27")
      | some (dividend, divisor) =>
        match Atoi dividend, Atoi divisor, Atoi w, Atoi h with
        | some pDividend, some pDivisor, some width, some height =>
          if pDivisor = 0 then
            ({}, some "unable to calculate frame-rate, divisor causes division by zero error")
          else
            ({ Width := width, Height := height,
               FrameRate := F64.div (F64.ofInt pDividend) (F64.ofInt pDivisor) }, none)
        | _, _, _, _ => ({}, some "unable to parse probe result") := by
  unfold Probe
  rw [hs]

/-! ## Rendering and re-parsing a descriptor: theorems -/

theorem split_ne_nil (sep : Char) (s : List Char) : split sep s ≠ [] := by
  cases s with
  | nil => simp [split]
  | cons c cs =>
    unfold split
    split_ifs
    · simp
    · split <;> simp

/-- Splitting gives one more piece than there are separators. -/
theorem split_length (sep : Char) (s : List Char) :
    (split sep s).length = s.count sep + 1 := by
  induction s with
  | nil => simp [split]
  | cons c cs ih =>
    unfold split
    by_cases hc : c = sep
    · subst hc
      simp [ih]
    · rw [if_neg hc]
      have hcount : (c :: cs).count sep = cs.count sep := by
        rw [List.count_cons]
        simp [hc]
      rw [hcount, ← ih]
      cases hsp : split sep cs with
      | nil => exact absurd hsp (split_ne_nil sep cs)
      | cons p ps => simp

theorem parseFormat_of_length_ne (ParseFloat : List Char → Option F64) {v : List Char}
    (h : (split ':' v).length ≠ 3) :
    parseFormat ParseFloat v = ({}, some "malformed format") := by
  unfold parseFormat
  split
  · next size frameRate qualityFactor heq =>
      rw [heq] at h
      exact absurd rfl h
  · rfl

/-- The text `String` builds always holds at least three colons: one closes each of the
size, the frame rate and the quality. -/
theorem String_colons (formatFloat : F64 → List Char) (p : ParsedFormat) :
    3 ≤ (p.String formatFloat).count ':' := by
  unfold ParsedFormat.String
  rw [List.count_append, List.count_append]
  have h1 : 1 ≤ (if p.Width = 0 then fmtInt p.Height ++ "p:".toList
      else fmtInt p.Width ++ "x".toList ++ fmtInt p.Height ++ ":".toList).count ':' := by
    split_ifs
    · simp [List.count_append]
    · simp only [List.count_append]
      have : 1 ≤ ":".toList.count ':' := by decide
      omega
  have h2 : 1 ≤ (if p.FrameRate.isZero = false then formatFloat p.FrameRate ++ ":".toList
      else ":".toList).count ':' := by
    split_ifs <;> simp [List.count_append]
  have h3 : 1 ≤ (if p.QualityFactor.isZero = false
      then formatFloat p.QualityFactor ++ ":".toList else ":".toList).count ':' := by
    split_ifs <;> simp [List.count_append]
  omega

/-- C14 (defect): `String` closes the quality field with a colon as well, so its text
has four colon-separated fields and `parseFormat` rejects it, for every descriptor and
whatever `%f` and `ParseFloat` do. The string `1080p::` parses to height 1080, is
rendered as `1080p:::`, and that text is rejected. -/
theorem String_is_not_parsed_back (ParseFloat : List Char → Option F64)
    (formatFloat : F64 → List Char) (p : ParsedFormat) :
    parseFormat ParseFloat (p.String formatFloat) = ({}, some "malformed format") ∧
    parseFormat ParseFloat "1080p::".toList = ({ Height := 1080 }, none) ∧
    ({ Height := 1080 } : ParsedFormat).String formatFloat = "1080p:::".toList ∧
    parseFormat ParseFloat "1080p:::".toList = ({}, some "malformed format") := by
  refine ⟨?_, rfl, rfl, rfl⟩
  apply parseFormat_of_length_ne
  rw [split_length]
  have := String_colons formatFloat p
  omega

/-! ## What the parser lets through: theorems -/

theorem Atoi_range {s : List Char} {n : Int} (h : Atoi s = some n) :
    -(2 : Int) ^ 63 ≤ n ∧ n < 2 ^ 63 := by
  unfold Atoi at h
  generalize (if s.head? = some '-' ∨ s.head? = some '+' then s.tail else s) = body at h
  by_cases hb : body = []
  · rw [if_pos hb] at h
    cases h
  · rw [if_neg hb] at h
    cases hp : parseDigits body 0 with
    | none =>
      rw [hp] at h
      cases h
    | some k =>
      rw [hp] at h
      dsimp only at h
      by_cases hm : s.head? = some '-'
      · rw [if_pos hm] at h
        by_cases hk : k ≤ 2 ^ 63
        · rw [if_pos hk] at h
          cases h
          have hk2 : (k : Int) ≤ 2 ^ 63 := by exact_mod_cast hk
          norm_num at hk2 ⊢
          omega
        · rw [if_neg hk] at h
          cases h
      · rw [if_neg hm] at h
        by_cases hk : k < 2 ^ 63
        · rw [if_pos hk] at h
          cases h
          have hk2 : (k : Int) < 2 ^ 63 := by exact_mod_cast hk
          norm_num at hk2 ⊢
          omega
        · rw [if_neg hk] at h
          cases h

theorem parseSize_some {size : List Char} {w h : Int} (hs : parseSize size = some (w, h)) :
    (hasSuffix size 'p' = true ∧ w = 0 ∧ Atoi size.dropLast = some h) ∨
    (hasSuffix size 'p' = false ∧ ∃ tw th,
      cut 'x' size = some (tw, th) ∧ Atoi tw = some w ∧ Atoi th = some h) := by
  unfold parseSize at hs
  split_ifs at hs with hp
  · left
    simp only [trimSuffix, hp, if_true] at hs
    cases ha : Atoi size.dropLast with
    | none => rw [ha] at hs; cases hs
    | some k =>
      rw [ha] at hs
      simp only [Option.some.injEq, Prod.mk.injEq] at hs
      exact ⟨hp, hs.1.symm, by rw [hs.2]⟩
  · right
    refine ⟨by simpa using hp, ?_⟩
    cases hc : cut 'x' size with
    | none => rw [hc] at hs; cases hs
    | some p =>
      obtain ⟨tw, th⟩ := p
      rw [hc] at hs
      dsimp only at hs
      cases hw : Atoi tw with
      | none => rw [hw] at hs; cases hs
      | some pw =>
        rw [hw] at hs
        dsimp only at hs
        cases hh : Atoi th with
        | none => rw [hh] at hs; cases hs
        | some ph =>
          rw [hh] at hs
          simp only [Option.some.injEq, Prod.mk.injEq] at hs
          obtain ⟨h1, h2⟩ := hs
          subst h1
          subst h2
          exact ⟨tw, th, rfl, hw, hh⟩

theorem parseFormat_ok {ParseFloat : List Char → Option F64} {v : List Char}
    {p : ParsedFormat} (h : parseFormat ParseFloat v = (p, none)) :
    ∃ size frameRate quality, split ':' v = [size, frameRate, quality] ∧
      parseSize size = some (p.Width, p.Height) := by
  unfold parseFormat at h
  split at h
  · next size frameRate quality heq =>
    refine ⟨size, frameRate, quality, heq, ?_⟩
    cases hs : parseSize size with
    | none => rw [hs] at h; simp at h
    | some wh =>
      obtain ⟨w, hh⟩ := wh
      rw [hs] at h
      dsimp only at h
      cases hf : parseField ParseFloat frameRate with
      | none => rw [hf] at h; simp at h
      | some fr =>
        rw [hf] at h
        dsimp only at h
        cases hq : parseField ParseFloat quality with
        | none => rw [hq] at h; simp at h
        | some q =>
          rw [hq] at h
          simp only [Prod.mk.injEq, and_true] at h
          rw [← h]
  · simp at h

/-- C15, the claim as stated fails: `0p::` parses to height 0 and `-3x-5::` parses to
width -3 and height -5, both without error. -/
theorem parseFormat_accepts_zero_and_negative :
    parseFormat (fun _ => none) "0p::".toList = ({ Width := 0, Height := 0 }, none) ∧
    parseFormat (fun _ => none) "-3x-5::".toList = ({ Width := -3, Height := -5 }, none) ∧
    ¬ (∀ (v : List Char) (p : ParsedFormat),
        parseFormat (fun _ => none) v = (p, none) → 0 < p.Height ∧ 0 ≤ p.Width) := by
  refine ⟨by decide, by decide, ?_⟩
  intro hall
  have h := hall "0p::".toList { Width := 0, Height := 0 } (by decide)
  exact absurd h.1 (by decide)

/-- C15, amended: every descriptor that `parseFormat` returns without error has a height
and a width that are the values `Atoi` reads from optionally signed decimal integers in
the size field (the text before the final `p`, the width then being 0; otherwise the
texts before and after the first `x`), and both lie in the range of Go's `int`. Zero and
negative values are accepted. -/
theorem parseFormat_size_values (ParseFloat : List Char → Option F64) (v : List Char)
    (p : ParsedFormat) (h : parseFormat ParseFloat v = (p, none)) :
    (∃ size frameRate quality, split ':' v = [size, frameRate, quality] ∧
      ((hasSuffix size 'p' = true ∧ p.Width = 0 ∧ isDecimalInteger size.dropLast = true ∧
          Atoi size.dropLast = some p.Height) ∨
       (hasSuffix size 'p' = false ∧ ∃ tw th, cut 'x' size = some (tw, th) ∧
          isDecimalInteger tw = true ∧ isDecimalInteger th = true ∧
          Atoi tw = some p.Width ∧ Atoi th = some p.Height))) ∧
    -(2 : Int) ^ 63 ≤ p.Height ∧ p.Height < 2 ^ 63 ∧
    -(2 : Int) ^ 63 ≤ p.Width ∧ p.Width < 2 ^ 63 := by
  obtain ⟨size, frameRate, quality, hs, hsz⟩ := parseFormat_ok h
  rcases parseSize_some hsz with ⟨hp, hw, hh⟩ | ⟨hp, tw, th, hc, hw, hh⟩
  · refine ⟨⟨size, frameRate, quality, hs,
      Or.inl ⟨hp, hw, Atoi_isDecimalInteger hh, hh⟩⟩, (Atoi_range hh).1, (Atoi_range hh).2, ?_, ?_⟩
    · rw [hw]; norm_num
    · rw [hw]; norm_num
  · exact ⟨⟨size, frameRate, quality, hs, Or.inr ⟨hp, tw, th, hc, Atoi_isDecimalInteger hw,
      Atoi_isDecimalInteger hh, hw, hh⟩⟩, (Atoi_range hh).1, (Atoi_range hh).2,
      (Atoi_range hw).1, (Atoi_range hw).2⟩

/-- Witness for the amended C15: the string `-3x-5::`. -/
theorem parseFormat_size_values_witness :
    -(2 : Int) ^ 63 ≤ ({ Width := -3, Height := -5 } : ParsedFormat).Height ∧
    ({ Width := -3, Height := -5 } : ParsedFormat).Height < 2 ^ 63 ∧
    -(2 : Int) ^ 63 ≤ ({ Width := -3, Height := -5 } : ParsedFormat).Width ∧
    ({ Width := -3, Height := -5 } : ParsedFormat).Width < 2 ^ 63 :=
  (parseFormat_size_values (fun _ => none) "-3x-5::".toList { Width := -3, Height := -5 }
    (by decide)).2
/-! ## Signs of the bitrates: theorems -/

/-- A product is finite only when both factors are, and its sign is the exclusive or of
theirs. -/
theorem mul_eq_fin {x y : F64} {s : Bool} {m : Nat} {e : Int} (h : F64.mul x y = .fin s m e) :
    ∃ sx mx ex sy my ey, x = .fin sx mx ex ∧ y = .fin sy my ey ∧ s = xor sx sy := by
  cases x with
  | nan => simp [F64.mul] at h
  | inf sx =>
    cases y with
    | nan => simp [F64.mul] at h
    | inf sy => simp [F64.mul] at h
    | fin sy my ey =>
      rw [mul_inf_fin] at h
      split_ifs at h
  | fin sx mx ex =>
    cases y with
    | nan => simp [F64.mul] at h
    | inf sy =>
      rw [mul_fin_inf] at h
      split_ifs at h
    | fin sy my ey =>
      rw [mul_fin_fin] at h
      rcases ofFrac_shape (xor sx sy) (a := mx * my) (ex + ey) Nat.one_pos with hinf |
          ⟨m2, E2, heq, _⟩
      · rw [hinf] at h
        cases h
      · rw [heq] at h
        cases h
        exact ⟨sx, mx, ex, sy, my, ey, rfl, rfl, rfl⟩

theorem ofInt_eq_fin {n : Int} {s : Bool} {m : Nat} {e : Int} (h : F64.ofInt n = .fin s m e) :
    s = decide (n < 0) := by
  unfold F64.ofInt at h
  rcases ofFrac_shape (decide (n < 0)) (a := n.natAbs) 0 Nat.one_pos with hinf | ⟨m2, E2, heq, _⟩
  · rw [hinf] at h
    cases h
  · rw [heq] at h
    cases h
    rfl

theorem isPos_fin {s : Bool} {m : Nat} {e : Int} (h : (F64.fin s m e).isPos = true) :
    s = false := by
  cases s with
  | false => rfl
  | true => simp [F64.isPos] at h

theorem toInt_nonneg_of_pos_sign {m : Nat} {e : Int} (h : F64.truncNat m e < 2 ^ 63) :
    0 ≤ F64.toInt (.fin false m e) := by
  rw [toInt_eq_truncRat false m e h]
  unfold truncRat
  have hnn : (0 : ℚ) ≤ F64.toRat (.fin false m e) := by
    simp only [F64.toRat, Bool.false_eq_true, if_false, one_mul]
    exact mul_nonneg (Nat.cast_nonneg m) (zpow_nonneg (by norm_num) _)
  rw [if_pos hnn]
  exact Int.floor_nonneg.mpr hnn

/-- The maximum computed from a non-negative video bitrate is non-negative, and doubling
it does not wrap. -/
theorem maxProduct_nonneg {v : Int} (h0 : 0 ≤ v) (h2 : v < 2 ^ 63) :
    0 ≤ F64.toInt (maxProduct v) ∧
    wrap64 (F64.toInt (maxProduct v) * 2) = F64.toInt (maxProduct v) * 2 := by
  have h1 : -(2 : Int) ^ 63 ≤ v := by
    norm_num
    omega
  obtain ⟨_, hlo, hhi⟩ := maxProduct_toInt v h1 h2
  obtain ⟨s, m, E, heq, hle⟩ := maxProduct_le v h1 h2
  have hwrap : wrap64 (F64.toInt (maxProduct v) * 2) = F64.toInt (maxProduct v) * 2 :=
    wrap64_of_mem (by norm_num at hlo hhi ⊢; omega) (by norm_num at hlo hhi ⊢; omega)
  refine ⟨?_, hwrap⟩
  have hs : s = false := by
    have hm := heq
    unfold maxProduct at hm
    obtain ⟨sx, mx, ex, sy, my, ey, hx, hy, hsxy⟩ := mul_eq_fin hm
    rw [ofFrac_seven_hundredths] at hx
    cases hx
    have hsy := ofInt_eq_fin hy
    have hd : decide (v < 0) = false := by simp; omega
    rw [hd] at hsy
    rw [hsxy, hsy]
    rfl
  rw [heq, hs]
  have hk : F64.truncNat m E ≤ 2 ^ 60 := truncNat_le_pow (k := 60) hle
  exact toInt_nonneg_of_pos_sign (lt_of_le_of_lt hk (by norm_num))

set_option maxRecDepth 100000 in
/-- C16, the claim as stated fails: for 2x2 at 1 frame per second and quality 0.11 all
of width, height, frame rate and quality are positive, the product is 0.44, and the
video bitrate, the maximum and the buffer size are 0. -/
theorem NewBitRates_not_positive :
    (0 : Int) < 2 ∧ (F64.ofInt 1).isPos = true ∧ QualityMed.isPos = true ∧
    NewBitRates
      { Width := 2, Height := 2, FrameRate := F64.ofInt 1, QualityFactor := QualityMed }
      = { VideoBitRate := 0, MaximumVideoBitRate := 0, BufferSize := 0, AudioBitRate := 96000 } ∧
    ¬ (0 < (NewBitRates
      { Width := 2, Height := 2, FrameRate := F64.ofInt 1,
        QualityFactor := QualityMed }).VideoBitRate) := by
  decide

/-- With positive `Width`, `Height`, `FrameRate` and `QualityFactor` no field of
`NewBitRates(f)` is negative, and `AudioBitRate` is strictly positive. -/
theorem NewBitRates_nonneg (f : ParsedFormat) (s : Bool) (m : Nat) (e : Int)
    (hW : 0 < f.Width) (hH : 0 < f.Height) (hA : f.Width * f.Height < 2 ^ 63)
    (hF : f.FrameRate.isPos = true) (hQ : f.QualityFactor.isPos = true)
    (hp : videoProduct f = .fin s m e) (hr : F64.truncNat m e < 2 ^ 63) :
    0 ≤ (NewBitRates f).VideoBitRate ∧ 0 ≤ (NewBitRates f).MaximumVideoBitRate ∧
    0 ≤ (NewBitRates f).BufferSize ∧ 0 < (NewBitRates f).AudioBitRate := by
  have hpos : 0 < f.Width * f.Height := mul_pos hW hH
  have hwrap : wrap64 (f.Width * f.Height) = f.Width * f.Height :=
    wrap64_of_mem (by norm_num; omega) hA
  have hs : s = false := by
    have hm := hp
    unfold videoProduct at hm
    obtain ⟨s1, m1, e1, sq, mq, eq, h1, hq, hsq⟩ := mul_eq_fin hm
    obtain ⟨s0, m0, e0, sf, mf, ef, h0, hf, hsf⟩ := mul_eq_fin h1
    have hs0 := ofInt_eq_fin h0
    rw [hwrap] at hs0
    have hd : decide (f.Width * f.Height < 0) = false := by simp; omega
    rw [hd] at hs0
    rw [hf] at hF
    rw [hq] at hQ
    rw [hsq, hsf, hs0, isPos_fin hF, isPos_fin hQ]
    rfl
  have hV : 0 ≤ F64.toInt (videoProduct f) := by
    rw [hp, hs]
    exact toInt_nonneg_of_pos_sign hr
  obtain ⟨hM, hB⟩ := maxProduct_nonneg hV (toInt_range _).2
  refine ⟨hV, hM, ?_, ?_⟩
  · show 0 ≤ wrap64 (F64.toInt (maxProduct (F64.toInt (videoProduct f))) * 2)
    rw [hB]
    omega
  · show (0 : Int) < (if area f ≤ 640 * 360 then 96000
      else if area f ≤ 1280 * 720 then 128000 else 192000)
    split_ifs <;> norm_num

set_option maxRecDepth 100000 in
/-- C17 (defect): for 1280x720 at 30 frames per second and quality 0.11 the video bitrate
is 3041280; 1.07 times it, rounded, is 3254170, but `NewBitRates` multiplies by `.07` and
yields the maximum 212889, which is below the video bitrate. -/
theorem NewBitRates_max_below_video :
    (NewBitRates
      { Width := 1280, Height := 720, FrameRate := F64.ofInt 30,
        QualityFactor := QualityMed }).VideoBitRate = 3041280 ∧
    (NewBitRates
      { Width := 1280, Height := 720, FrameRate := F64.ofInt 30,
        QualityFactor := QualityMed }).MaximumVideoBitRate = 212889 ∧
    specHeadroomBitRate 3041280 = 3254170 ∧
    (NewBitRates
      { Width := 1280, Height := 720, FrameRate := F64.ofInt 30,
        QualityFactor := QualityMed }).MaximumVideoBitRate
      < (NewBitRates
      { Width := 1280, Height := 720, FrameRate := F64.ofInt 30,
        QualityFactor := QualityMed }).VideoBitRate := by
  have hV : (NewBitRates
      { Width := 1280, Height := 720, FrameRate := F64.ofInt 30,
        QualityFactor := QualityMed }).VideoBitRate = 3041280 := by decide
  have hM : (NewBitRates
      { Width := 1280, Height := 720, FrameRate := F64.ofInt 30,
        QualityFactor := QualityMed }).MaximumVideoBitRate = 212889 := by decide
  have hS : specHeadroomBitRate 3041280 = 3254170 := by
    unfold specHeadroomBitRate
    norm_num [round_eq]
  refine ⟨hV, hM, hS, ?_⟩
  rw [hV, hM]
  decide

/-! ## The formats slice across input files: theorems -/

/-- The formats slice after the planning loop: every descriptor without a quality factor
has been given 0.11 in place. -/
theorem planFormats_formats (probe : ProbeResult) (formats : List ParsedFormat) :
    (planFormats probe formats).2 = formats.map (fun f =>
      if f.QualityFactor.isZero then { f with QualityFactor := QualityMed } else f) := by
  induction formats with
  | nil => rfl
  | cons f fs ih =>
    show (planOne probe f).2 :: (planFormats probe fs).2 = _
    rw [ih]
    rfl

set_option maxRecDepth 100000 in
/-- C18 (defect): the planning step writes the default quality into the `formats` slice it
was given. For the descriptor `1080p::` and a 1920x1080 source the slice element changes
from quality 0 to 0.11, and a second input file is planned from the changed slice, not
from the descriptors as parsed. -/
theorem planFormats_changes_formats :
    (planFormats { Width := 1920, Height := 1080, FrameRate := F64.ofInt 30 }
      [{ Height := 1080 }]).2 = [{ Height := 1080, QualityFactor := QualityMed }] ∧
    (planFormats { Width := 1920, Height := 1080, FrameRate := F64.ofInt 30 }
      [{ Height := 1080 }]).2 ≠ [{ Height := 1080 }] ∧
    (planFiles [{ Height := 1080 }]
      [{ Width := 1920, Height := 1080, FrameRate := F64.ofInt 30 },
       { Width := 1280, Height := 720, FrameRate := F64.ofInt 25 }]).2
      = [{ Height := 1080, QualityFactor := QualityMed }] := by
  decide

/-! ## Float64: every operation returns a nearest float64 -/

/-- Rounding to nearest: no natural number is closer to `n / d` than `roundHalfEven n d`. -/
theorem roundHalfEven_nearest {n d : Nat} (hd : 0 < d) (j : Nat) :
    |(roundHalfEven n d : ℚ) - (n : ℚ) / d| ≤ |(j : ℚ) - (n : ℚ) / d| := by
  have hdq : (0 : ℚ) < d := by exact_mod_cast hd
  have hdm : (n : ℚ) = (d : ℚ) * ((n / d : ℕ) : ℚ) + ((n % d : ℕ) : ℚ) := by
    exact_mod_cast (Nat.div_add_mod n d).symm
  have hr : ((n % d : ℕ) : ℚ) < d := by exact_mod_cast Nat.mod_lt n hd
  have hr0 : (0 : ℚ) ≤ ((n % d : ℕ) : ℚ) := Nat.cast_nonneg _
  have hx : (n : ℚ) / d = ((n / d : ℕ) : ℚ) + ((n % d : ℕ) : ℚ) / d := by
    rw [hdm]
    field_simp
    ring
  have hρ0 : (0 : ℚ) ≤ ((n % d : ℕ) : ℚ) / d := div_nonneg hr0 hdq.le
  have hρ1 : ((n % d : ℕ) : ℚ) / d < 1 := by
    rw [div_lt_one hdq]
    exact hr
  have hj : (j : ℚ) ≤ ((n / d : ℕ) : ℚ) ∨ ((n / d : ℕ) : ℚ) + 1 ≤ (j : ℚ) := by
    rcases Nat.lt_or_ge (n / d) j with h | h
    · right
      exact_mod_cast h
    · left
      exact_mod_cast h
  have habs1 := le_abs_self ((j : ℚ) - (n : ℚ) / d)
  have habs2 := neg_abs_le ((j : ℚ) - (n : ℚ) / d)
  unfold roundHalfEven
  split_ifs with hc
  · have hhalf : (1 : ℚ) / 2 ≤ ((n % d : ℕ) : ℚ) / d := by
      rw [le_div_iff₀ hdq]
      have : (d : ℚ) ≤ 2 * ((n % d : ℕ) : ℚ) := by
        rcases hc with h | ⟨h, _⟩
        · exact_mod_cast h.le
        · exact_mod_cast h.ge
      linarith
    push_cast
    rw [abs_le]
    rcases hj with h | h <;> constructor <;> linarith
  · have hhalf : ((n % d : ℕ) : ℚ) / d ≤ 1 / 2 := by
      rw [div_le_iff₀ hdq]
      have : 2 * ((n % d : ℕ) : ℚ) ≤ (d : ℚ) := by
        have h' : 2 * (n % d) ≤ d := by
          by_contra hlt
          exact hc (Or.inl (by omega))
        exact_mod_cast h'
      linarith
    rw [abs_le]
    rcases hj with h | h <;> constructor <;> linarith

theorem toRat_fin (s : Bool) (m : Nat) (e : Int) :
    F64.toRat (.fin s m e) = (if s then -1 else 1) * ((m : ℚ) * 2 ^ e) := by
  simp only [F64.toRat, mul_assoc]

/-- The value of a finite rounded result: the rounded significand times the unit in the
last place. -/
theorem ofFrac_value (neg : Bool) {a b : Nat} {e k : Int} (ha : 0 < a) (hb : 0 < b)
    (h : (a : ℚ) / b * 2 ^ e ≤ 2 ^ k) (hk : k ≤ 1023) :
    ∃ m E, F64.ofFrac neg a b e = .fin neg m E ∧ m < 2 ^ 53 ∧ -1074 ≤ E ∧
      (m : ℚ) * 2 ^ E = (roundedMant a b e : ℚ) * 2 ^ ulpExp a b e := by
  have h2 : (0 : ℚ) < 2 := by norm_num
  obtain ⟨m, E, heq, _, _⟩ := ofFrac_le_pow neg hb h hk
  have hmle := roundedMant_le e ha hb
  have hE := (ulpExp_ge a b e).2
  unfold F64.ofFrac at heq ⊢
  rw [if_neg ha.ne'] at heq ⊢
  split_ifs at heq ⊢ with h1 h53
  · refine ⟨2 ^ 52, _, rfl, by norm_num, by omega, ?_⟩
    rw [h53, zpow_add₀ h2.ne']
    push_cast
    ring
  · exact ⟨_, _, rfl, lt_of_le_of_ne hmle h53, hE, rfl⟩

/-- No float64 magnitude is closer to `a / b * 2^e` than the rounded significand times
the unit in the last place. -/
theorem roundedMant_nearest {a b : Nat} (e : Int) (ha : 0 < a) (hb : 0 < b) (n : Nat) (f : Int)
    (hn : n < 2 ^ 53) (hf : -1074 ≤ f) :
    |(roundedMant a b e : ℚ) * 2 ^ ulpExp a b e - (a : ℚ) / b * 2 ^ e|
      ≤ |(n : ℚ) * 2 ^ f - (a : ℚ) / b * 2 ^ e| := by
  have h2 : (0 : ℚ) < 2 := by norm_num
  have hden := scaleFrac_den_pos a (e - ulpExp a b e) hb
  have hval := scaleFrac_val a b (e - ulpExp a b e)
  have hEpos : (0 : ℚ) < 2 ^ ulpExp a b e := zpow_pos h2 _
  -- both sides are the distances of the scaled values, times the unit in the last place
  have hQ : (a : ℚ) / b * 2 ^ e
      = ((scaleFrac a b (e - ulpExp a b e)).1 : ℚ) / ((scaleFrac a b (e - ulpExp a b e)).2 : ℚ)
        * 2 ^ ulpExp a b e := by
    rw [hval, mul_assoc, ← zpow_add₀ h2.ne']
    congr 2
    ring
  have hY : (n : ℚ) * 2 ^ f = (n : ℚ) * 2 ^ (f - ulpExp a b e) * 2 ^ ulpExp a b e := by
    rw [mul_assoc, ← zpow_add₀ h2.ne']
    congr 2
    ring
  rw [hQ, hY, ← sub_mul, ← sub_mul, abs_mul, abs_mul]
  apply mul_le_mul_of_nonneg_right _ (abs_nonneg _)
  unfold roundedMant
  by_cases hfE : ulpExp a b e ≤ f
  · -- the candidate is a whole number of units
    have hj : (n : ℚ) * 2 ^ (f - ulpExp a b e) = ((n * 2 ^ (f - ulpExp a b e).toNat : ℕ) : ℚ) := by
      push_cast
      rw [← zpow_natCast, Int.toNat_of_nonneg (by omega)]
    rw [hj]
    exact roundHalfEven_nearest hden _
  · -- the candidate is below 2^52 units, the exact value is not
    have hE : ulpExp a b e = floorLog2Frac a b + e - 52 := by
      unfold ulpExp at hfE ⊢
      rw [max_eq_left]
      by_contra hc
      rw [max_eq_right (by omega)] at hfE
      omega
    have hX : (2 : ℚ) ^ (52 : ℤ) ≤
        ((scaleFrac a b (e - ulpExp a b e)).1 : ℚ) / ((scaleFrac a b (e - ulpExp a b e)).2 : ℚ) := by
      rw [hval]
      calc (2 : ℚ) ^ (52 : ℤ) = 2 ^ floorLog2Frac a b * 2 ^ (e - ulpExp a b e) := by
            rw [← zpow_add₀ h2.ne']
            congr 1
            omega
        _ ≤ (a : ℚ) / b * 2 ^ (e - ulpExp a b e) :=
            mul_le_mul_of_nonneg_right (floorLog2Frac_spec ha hb).1 (zpow_nonneg h2.le _)
    have hy : (n : ℚ) * 2 ^ (f - ulpExp a b e) ≤ 2 ^ (52 : ℤ) := by
      have hn' : (n : ℚ) ≤ 2 ^ (53 : ℤ) := by
        have : (n : ℚ) ≤ ((2 ^ 53 : ℕ) : ℚ) := by exact_mod_cast hn.le
        norm_num at this ⊢
        exact this
      have hp : (2 : ℚ) ^ (f - ulpExp a b e) ≤ 2 ^ (-1 : ℤ) :=
        zpow_le_zpow_right₀ (by norm_num) (by omega)
      calc (n : ℚ) * 2 ^ (f - ulpExp a b e) ≤ 2 ^ (53 : ℤ) * 2 ^ (-1 : ℤ) :=
            mul_le_mul hn' hp (zpow_nonneg h2.le _) (zpow_nonneg h2.le _)
        _ = 2 ^ (52 : ℤ) := by norm_num
    have hnear := roundHalfEven_nearest (n := (scaleFrac a b (e - ulpExp a b e)).1) hden (2 ^ 52)
    have hc : (((2 ^ 52 : ℕ) : ℚ)) = 2 ^ (52 : ℤ) := by norm_num
    rw [hc] at hnear
    have h1 := abs_le.mp hnear
    have h3 := neg_abs_le ((2 : ℚ) ^ (52 : ℤ) -
      ((scaleFrac a b (e - ulpExp a b e)).1 : ℚ) / ((scaleFrac a b (e - ulpExp a b e)).2 : ℚ))
    have h4 : |(2 : ℚ) ^ (52 : ℤ) -
      ((scaleFrac a b (e - ulpExp a b e)).1 : ℚ) / ((scaleFrac a b (e - ulpExp a b e)).2 : ℚ)|
        = ((scaleFrac a b (e - ulpExp a b e)).1 : ℚ) / ((scaleFrac a b (e - ulpExp a b e)).2 : ℚ)
          - 2 ^ (52 : ℤ) := by
      rw [abs_of_nonpos (by linarith)]
      ring
    have h5 := neg_abs_le ((n : ℚ) * 2 ^ (f - ulpExp a b e) -
      ((scaleFrac a b (e - ulpExp a b e)).1 : ℚ) / ((scaleFrac a b (e - ulpExp a b e)).2 : ℚ))
    rw [abs_le]
    constructor <;> linarith

/-- Correct rounding: when the exact magnitude is at most `2^k` with `k ≤ 1023`, the
rounded result is a float64 nearest to the exact value. -/
theorem ofFrac_isNearest (neg : Bool) {a b : Nat} {e k : Int} (hb : 0 < b)
    (h : (a : ℚ) / b * 2 ^ e ≤ 2 ^ k) (hk : k ≤ 1023) :
    (F64.ofFrac neg a b e).IsNearest ((if neg then -1 else 1) * ((a : ℚ) / b * 2 ^ e)) := by
  have h2 : (0 : ℚ) < 2 := by norm_num
  by_cases ha : a = 0
  · subst ha
    refine ⟨neg, 0, -1074, by simp [F64.ofFrac], by norm_num, le_rfl, ?_⟩
    intro t n f _ _
    simp only [toRat_fin, Nat.cast_zero, zero_mul, zero_div, mul_zero, sub_zero, abs_zero]
    exact abs_nonneg _
  · have hapos := Nat.pos_of_ne_zero ha
    obtain ⟨m, E, heq, hm, hE, hv⟩ := ofFrac_value neg hapos hb h hk
    refine ⟨neg, m, E, heq, hm, hE, ?_⟩
    intro t n f hn hf
    have hnear := roundedMant_nearest e hapos hb n f hn hf
    have hzero := roundedMant_nearest e hapos hb 0 (-1074) (by norm_num) le_rfl
    rw [← hv] at hnear hzero
    simp only [Nat.cast_zero, zero_mul, zero_sub, abs_neg] at hzero
    have hQ : (0 : ℚ) ≤ (a : ℚ) / b * 2 ^ e :=
      mul_nonneg (div_nonneg (Nat.cast_nonneg _) (Nat.cast_nonneg _)) (zpow_nonneg h2.le _)
    have hY : (0 : ℚ) ≤ (n : ℚ) * 2 ^ f := mul_nonneg (Nat.cast_nonneg _) (zpow_nonneg h2.le _)
    rw [abs_of_nonneg hQ] at hzero
    rw [toRat_fin, toRat_fin]
    cases neg <;> cases t <;> simp only [Bool.false_eq_true, if_false, if_true, one_mul]
    · exact hnear
    · have e1 : -1 * ((n : ℚ) * 2 ^ f) - (a : ℚ) / b * 2 ^ e
          = -((n : ℚ) * 2 ^ f + (a : ℚ) / b * 2 ^ e) := by ring
      have e2 : |(n : ℚ) * 2 ^ f + (a : ℚ) / b * 2 ^ e| = (n : ℚ) * 2 ^ f + (a : ℚ) / b * 2 ^ e :=
        abs_of_nonneg (by linarith)
      rw [e1, abs_neg, e2]
      linarith
    · have e0 : -1 * ((m : ℚ) * 2 ^ E) - -1 * ((a : ℚ) / b * 2 ^ e)
          = -((m : ℚ) * 2 ^ E - (a : ℚ) / b * 2 ^ e) := by ring
      have e1 : (n : ℚ) * 2 ^ f - -1 * ((a : ℚ) / b * 2 ^ e)
          = (n : ℚ) * 2 ^ f + (a : ℚ) / b * 2 ^ e := by ring
      have e2 : |(n : ℚ) * 2 ^ f + (a : ℚ) / b * 2 ^ e| = (n : ℚ) * 2 ^ f + (a : ℚ) / b * 2 ^ e :=
        abs_of_nonneg (by linarith)
      rw [e0, abs_neg, e1, e2]
      linarith
    · have e0 : -1 * ((m : ℚ) * 2 ^ E) - -1 * ((a : ℚ) / b * 2 ^ e)
          = -((m : ℚ) * 2 ^ E - (a : ℚ) / b * 2 ^ e) := by ring
      have e1 : -1 * ((n : ℚ) * 2 ^ f) - -1 * ((a : ℚ) / b * 2 ^ e)
          = -((n : ℚ) * 2 ^ f - (a : ℚ) / b * 2 ^ e) := by ring
      rw [e0, abs_neg, e1, abs_neg]
      exact hnear

/-- A nearest float64 to a number that is itself a float64 is that number. -/
theorem F64.IsNearest.toRat_eq {x : F64} {q : ℚ} (h : x.IsNearest q) (t : Bool) (n : Nat) (f : Int)
    (hn : n < 2 ^ 53) (hf : -1074 ≤ f) (hq : F64.toRat (.fin t n f) = q) : F64.toRat x = q := by
  obtain ⟨s, m, e, hx, _, _, hall⟩ := h
  have h1 := hall t n f hn hf
  rw [hq, sub_self, abs_zero] at h1
  have h2 := abs_eq_zero.mp (le_antisymm h1 (abs_nonneg _))
  rw [hx]
  linarith

/-- Rounding to nearest is monotone about every float64: a float64 below the exact value
is not above the rounded one. -/
theorem F64.IsNearest.le_toRat {x : F64} {q : ℚ} (h : x.IsNearest q) (t : Bool) (n : Nat) (f : Int)
    (hn : n < 2 ^ 53) (hf : -1074 ≤ f) (hq : F64.toRat (.fin t n f) ≤ q) :
    F64.toRat (.fin t n f) ≤ F64.toRat x := by
  obtain ⟨s, m, e, hx, _, _, hall⟩ := h
  have h1 := hall t n f hn hf
  rw [hx]
  by_contra hc
  rw [abs_of_nonpos (by linarith), abs_of_nonpos (by linarith)] at h1
  linarith

theorem F64.IsNearest.toRat_le {x : F64} {q : ℚ} (h : x.IsNearest q) (t : Bool) (n : Nat) (f : Int)
    (hn : n < 2 ^ 53) (hf : -1074 ≤ f) (hq : q ≤ F64.toRat (.fin t n f)) :
    F64.toRat x ≤ F64.toRat (.fin t n f) := by
  obtain ⟨s, m, e, hx, _, _, hall⟩ := h
  have h1 := hall t n f hn hf
  rw [hx]
  by_contra hc
  rw [abs_of_nonneg (by linarith), abs_of_nonneg (by linarith)] at h1
  linarith

theorem signed_natAbs (v : Int) :
    (if decide (v < 0) = true then (-1 : ℚ) else 1) * (v.natAbs : ℚ) = (v : ℚ) := by
  by_cases hneg : v < 0
  · have h : ((v.natAbs : ℕ) : ℚ) = -(v : ℚ) := by
      rw [Nat.cast_natAbs, abs_of_neg hneg]
      push_cast
      rfl
    simp only [hneg, decide_True, if_true]
    rw [h]
    ring
  · have h : ((v.natAbs : ℕ) : ℚ) = (v : ℚ) := by
      rw [Nat.cast_natAbs, abs_of_nonneg (not_lt.mp hneg)]
    simp only [hneg, decide_False, Bool.false_eq_true, if_false]
    rw [h, one_mul]

/-- The conversion `float64(v)` of an `int`: a nearest float64 to `v`, with the sign of
`v` and a magnitude of at most `2^63`. -/
theorem ofInt_spec (v : Int) (h1 : -(2 : Int) ^ 63 ≤ v) (h2 : v ≤ 2 ^ 63) :
    ∃ m E, F64.ofInt v = .fin (decide (v < 0)) m E ∧ m < 2 ^ 53 ∧
      (m : ℚ) * 2 ^ E ≤ 2 ^ (63 : ℤ) ∧ (F64.ofInt v).IsNearest v := by
  have hab : v.natAbs ≤ 2 ^ 63 := by
    norm_num at h1 h2 ⊢
    omega
  have hq : ((v.natAbs : ℕ) : ℚ) / ((1 : ℕ) : ℚ) * 2 ^ (0 : ℤ) ≤ 2 ^ (63 : ℤ) := by
    have : (v.natAbs : ℚ) ≤ ((2 ^ 63 : ℕ) : ℚ) := by exact_mod_cast hab
    norm_num at this ⊢
    exact this
  obtain ⟨m, E, heq, hm, hle⟩ := ofFrac_le_pow (decide (v < 0)) Nat.one_pos hq (by norm_num)
  have hnear := ofFrac_isNearest (decide (v < 0)) Nat.one_pos hq (by norm_num)
  refine ⟨m, E, heq, hm, hle, ?_⟩
  have hv : (if decide (v < 0) = true then (-1 : ℚ) else 1)
      * (((v.natAbs : ℕ) : ℚ) / ((1 : ℕ) : ℚ) * 2 ^ (0 : ℤ)) = (v : ℚ) := by
    rw [← signed_natAbs v]
    simp
  rw [← hv]
  exact hnear

/-- An `int` of magnitude below `2^53` converts exactly. -/
theorem ofInt_exact (v : Int) (h : v.natAbs < 2 ^ 53) : F64.toRat (F64.ofInt v) = v := by
  obtain ⟨_, _, _, _, _, hnear⟩ := ofInt_spec v (by norm_num at h ⊢; omega) (by norm_num at h ⊢; omega)
  apply hnear.toRat_eq (decide (v < 0)) v.natAbs 0 h (by norm_num)
  rw [toRat_fin, ← signed_natAbs v]
  simp

/-- A positive `int` converts to a float64 of magnitude at least 1. -/
theorem ofInt_pos (v : Int) (h1 : 0 < v) (h2 : v ≤ 2 ^ 63) :
    ∃ m E, F64.ofInt v = .fin false m E ∧ m < 2 ^ 53 ∧ m ≠ 0 ∧
      (1 : ℚ) ≤ (m : ℚ) * 2 ^ E ∧ (m : ℚ) * 2 ^ E ≤ 2 ^ (63 : ℤ) := by
  obtain ⟨m, E, heq, hm, hle, hnear⟩ := ofInt_spec v (by norm_num; omega) h2
  have hd : decide (v < 0) = false := by simp; omega
  rw [hd] at heq
  have hone : F64.toRat (.fin false 1 0) ≤ (v : ℚ) := by
    rw [toRat_fin]
    have : ((1 : ℤ) : ℚ) ≤ (v : ℚ) := by exact_mod_cast h1
    simpa using this
  have hge := hnear.le_toRat false 1 0 (by norm_num) (by norm_num) hone
  rw [heq, toRat_fin, toRat_fin] at hge
  simp only [Bool.false_eq_true, if_false, one_mul, Nat.cast_one, zpow_zero] at hge
  refine ⟨m, E, heq, hm, ?_, hge, hle⟩
  intro h0
  rw [h0] at hge
  norm_num at hge

/-- Float64 multiplication of finite values returns a nearest float64 to the exact
product, as long as the product stays below `2^1024`. -/
theorem mul_isNearest (s : Bool) {m : Nat} {e : Int} (t : Bool) {n : Nat} {f : Int} {i j : Int}
    (hx : (m : ℚ) * 2 ^ e ≤ 2 ^ i) (hy : (n : ℚ) * 2 ^ f ≤ 2 ^ j) (hij : i + j ≤ 1023) :
    (F64.mul (.fin s m e) (.fin t n f)).IsNearest
      (F64.toRat (.fin s m e) * F64.toRat (.fin t n f)) ∧
    ∃ m' E', F64.mul (.fin s m e) (.fin t n f) = .fin (xor s t) m' E' ∧ m' < 2 ^ 53 ∧
      (m' : ℚ) * 2 ^ E' ≤ 2 ^ (i + j) := by
  have h2 : (0 : ℚ) < 2 := by norm_num
  have hex : ((m * n : ℕ) : ℚ) / ((1 : ℕ) : ℚ) * 2 ^ (e + f) ≤ 2 ^ (i + j) := by
    calc ((m * n : ℕ) : ℚ) / ((1 : ℕ) : ℚ) * 2 ^ (e + f)
        = ((m : ℚ) * 2 ^ e) * ((n : ℚ) * 2 ^ f) := by
          rw [zpow_add₀ h2.ne']
          push_cast
          ring
      _ ≤ 2 ^ i * 2 ^ j :=
          mul_le_mul hx hy (mul_nonneg (Nat.cast_nonneg _) (zpow_nonneg h2.le _))
            (zpow_nonneg h2.le _)
      _ = 2 ^ (i + j) := (zpow_add₀ h2.ne' _ _).symm
  rw [mul_fin_fin]
  refine ⟨?_, ofFrac_le_pow (xor s t) Nat.one_pos hex hij⟩
  have hnear := ofFrac_isNearest (xor s t) Nat.one_pos hex hij
  have hv : (if xor s t = true then (-1 : ℚ) else 1)
      * (((m * n : ℕ) : ℚ) / ((1 : ℕ) : ℚ) * 2 ^ (e + f))
      = F64.toRat (.fin s m e) * F64.toRat (.fin t n f) := by
    rw [toRat_fin, toRat_fin, zpow_add₀ h2.ne']
    cases s <;> cases t <;> simp <;> ring
  rw [← hv]
  exact hnear

theorem div_fin_fin (s : Bool) (m : Nat) (e : Int) (t : Bool) (n : Nat) (f : Int) :
    F64.div (.fin s m e) (.fin t n f) =
      if n = 0 then (if m = 0 then .nan else .inf (xor s t))
      else F64.ofFrac (xor s t) m n (e - f) := rfl

/-- Float64 division of finite values by a non-zero divisor returns a nearest float64 to
the exact quotient, as long as the quotient stays below `2^1024`. -/
theorem div_isNearest (s : Bool) {m : Nat} {e : Int} (t : Bool) {n : Nat} {f : Int} {i j : Int}
    (hx : (m : ℚ) * 2 ^ e ≤ 2 ^ i) (hy : (2 : ℚ) ^ j ≤ (n : ℚ) * 2 ^ f) (hij : i - j ≤ 1023) :
    (F64.div (.fin s m e) (.fin t n f)).IsNearest
      (F64.toRat (.fin s m e) / F64.toRat (.fin t n f)) ∧
    ∃ m' E', F64.div (.fin s m e) (.fin t n f) = .fin (xor s t) m' E' ∧ m' < 2 ^ 53 ∧
      (m' : ℚ) * 2 ^ E' ≤ 2 ^ (i - j) := by
  have h2 : (0 : ℚ) < 2 := by norm_num
  have hypos : (0 : ℚ) < (n : ℚ) * 2 ^ f := lt_of_lt_of_le (zpow_pos h2 _) hy
  have hn0 : n ≠ 0 := by
    intro h0
    rw [h0] at hypos
    simp at hypos
  have hnq : (0 : ℚ) < (n : ℚ) := by exact_mod_cast Nat.pos_of_ne_zero hn0
  have hquot : (m : ℚ) / (n : ℚ) * 2 ^ (e - f) = ((m : ℚ) * 2 ^ e) / ((n : ℚ) * 2 ^ f) := by
    rw [zpow_sub₀ h2.ne']
    field_simp
  have hex : (m : ℚ) / (n : ℚ) * 2 ^ (e - f) ≤ 2 ^ (i - j) := by
    rw [hquot, zpow_sub₀ h2.ne']
    exact div_le_div₀ (zpow_nonneg h2.le _) hx (zpow_pos h2 _) hy
  rw [div_fin_fin, if_neg hn0]
  refine ⟨?_, ofFrac_le_pow (xor s t) (Nat.pos_of_ne_zero hn0) hex hij⟩
  have hnear := ofFrac_isNearest (xor s t) (Nat.pos_of_ne_zero hn0) hex hij
  have hv : (if xor s t = true then (-1 : ℚ) else 1) * ((m : ℚ) / (n : ℚ) * 2 ^ (e - f))
      = F64.toRat (.fin s m e) / F64.toRat (.fin t n f) := by
    rw [toRat_fin, toRat_fin, hquot]
    cases s <;> cases t <;> simp <;> field_simp
  rw [← hv]
  exact hnear

/-! ## Float64: `math.Round` -/

/-- The integer part incremented by the first fraction bit is the quotient of the
significand plus half a unit. -/
theorem shift_round (m k : Nat) (hk : 1 ≤ k) :
    m >>> k + (m >>> (k - 1)) % 2 = (m + 2 ^ (k - 1)) / 2 ^ k := by
  rw [Nat.shiftRight_eq_div_pow, Nat.shiftRight_eq_div_pow]
  have hk' : k = (k - 1) + 1 := by omega
  have hp : 2 ^ k = 2 ^ (k - 1) * 2 := by
    conv_lhs => rw [hk', pow_succ]
  have hpos : 0 < 2 ^ (k - 1) := by positivity
  rw [hp, ← Nat.div_div_eq_div_mul, ← Nat.div_div_eq_div_mul, Nat.add_div_right m hpos]
  omega

/-- The value of `math.Round(x)` for a finite `x` of magnitude `y`: the same sign and
the magnitude `floor (y + 1/2)`. -/
theorem round_value (s : Bool) {m : Nat} (e : Int) (hm : m < 2 ^ 53) :
    ∃ m' e', F64.round (.fin s m e) = .fin s m' e' ∧ m' < 2 ^ 53 ∧
      (m' : ℚ) * 2 ^ e' = ((⌊(m : ℚ) * 2 ^ e + 1 / 2⌋ : ℤ) : ℚ) := by
  have h2 : (0 : ℚ) < 2 := by norm_num
  rw [round_fin]
  by_cases he : 0 ≤ e
  · rw [if_pos he]
    refine ⟨m, e, rfl, hm, ?_⟩
    have hq : (m : ℚ) * 2 ^ e = ((m * 2 ^ e.toNat : ℕ) : ℚ) := by
      conv_lhs => rw [(Int.toNat_of_nonneg he).symm]
      rw [zpow_natCast]
      push_cast
      ring
    have hfl : ⌊((m * 2 ^ e.toNat : ℕ) : ℚ) + 1 / 2⌋ = ((m * 2 ^ e.toNat : ℕ) : ℤ) := by
      rw [Int.floor_eq_iff]
      constructor
      · push_cast
        linarith
      · push_cast
        linarith
    rw [hq, hfl]
    push_cast
    ring
  · rw [if_neg he]
    have hk : 1 ≤ (-e).toNat := by omega
    have hsr := shift_round m (-e).toNat hk
    have hle : m >>> (-e).toNat + (m >>> ((-e).toNat - 1)) % 2 ≤ 2 ^ 52 := by
      have h1 : m >>> (-e).toNat ≤ m / 2 := by
        rw [Nat.shiftRight_eq_div_pow]
        apply Nat.div_le_div_left _ (by norm_num)
        calc 2 = 2 ^ 1 := rfl
          _ ≤ 2 ^ (-e).toNat := Nat.pow_le_pow_right (by norm_num) hk
      have h3 : (m >>> ((-e).toNat - 1)) % 2 ≤ 1 := by omega
      norm_num at hm ⊢
      omega
    have hex : ((m >>> (-e).toNat + (m >>> ((-e).toNat - 1)) % 2 : ℕ) : ℚ) / ((1 : ℕ) : ℚ)
        * 2 ^ (0 : ℤ) ≤ 2 ^ (53 : ℤ) := by
      have : ((m >>> (-e).toNat + (m >>> ((-e).toNat - 1)) % 2 : ℕ) : ℚ) ≤ ((2 ^ 52 : ℕ) : ℚ) := by
        exact_mod_cast hle
      norm_num at this ⊢
      linarith
    obtain ⟨m', e', heq, hm', _⟩ := ofFrac_le_pow s Nat.one_pos hex (by norm_num)
    have hnear := ofFrac_isNearest s Nat.one_pos hex (by norm_num)
    have hval := hnear.toRat_eq s (m >>> (-e).toNat + (m >>> ((-e).toNat - 1)) % 2) 0
      (lt_of_le_of_lt hle (by norm_num)) (by norm_num) (by
        rw [toRat_fin]
        simp)
    rw [heq, toRat_fin] at hval
    have hmag : (m' : ℚ) * 2 ^ e'
        = ((m >>> (-e).toNat + (m >>> ((-e).toNat - 1)) % 2 : ℕ) : ℚ) := by
      have hs : (if s = true then (-1 : ℚ) else 1) ≠ 0 := by
        cases s <;> simp
      have := mul_left_cancel₀ hs hval
      rw [this]
      simp
    refine ⟨m', e', heq, hm', ?_⟩
    rw [hmag, hsr]
    have hq : (m : ℚ) * 2 ^ e + 1 / 2
        = ((m + 2 ^ ((-e).toNat - 1) : ℕ) : ℚ) / ((2 ^ (-e).toNat : ℕ) : ℚ) := by
      have hs : e = -((-e).toNat : ℤ) := by omega
      have hp : ((2 : ℚ) ^ (-e).toNat) = 2 ^ ((-e).toNat - 1) * 2 := by
        conv_lhs => rw [(by omega : (-e).toNat = ((-e).toNat - 1) + 1), pow_succ]
      conv_lhs => rw [hs]
      rw [zpow_neg, zpow_natCast]
      push_cast
      rw [hp]
      field_simp
      ring
    rw [hq, Rat.floor_natCast_div_natCast]
    norm_cast

/-- Rounding on the rationals agrees on both signs: for `y ≥ 0`, `roundAway (-y)` is
`-floor (y + 1/2)`. -/
theorem roundAway_signed (s : Bool) {y : ℚ} (hy : 0 ≤ y) :
    roundAway ((if s then -1 else 1) * y) = (if s then -1 else 1) * ⌊y + 1 / 2⌋ := by
  unfold roundAway
  cases s with
  | false => simp [hy]
  | true =>
    simp only [if_true]
    by_cases h0 : y = 0
    · subst h0
      norm_num
    · have hneg : ¬ (0 ≤ -1 * y) := by
        intro hc
        exact h0 (le_antisymm (by linarith) hy)
      rw [if_neg hneg]
      have : -(-1 * y) = y := by ring
      rw [this]
      ring

/-- Go's `int(math.Round(x))` for a finite `x`: the integer nearest to the number `x`
stands for, halves away from zero, as long as it fits an `int`. -/
theorem toInt_round (s : Bool) {m : Nat} (e : Int) (hm : m < 2 ^ 53)
    (hfit : ⌊(m : ℚ) * 2 ^ e + 1 / 2⌋ < 2 ^ 63) :
    F64.toInt (F64.round (.fin s m e)) = roundAway (F64.toRat (.fin s m e)) := by
  have h2 : (0 : ℚ) < 2 := by norm_num
  have hy : (0 : ℚ) ≤ (m : ℚ) * 2 ^ e := mul_nonneg (Nat.cast_nonneg _) (zpow_nonneg h2.le _)
  obtain ⟨m', e', heq, _, hval⟩ := round_value s e hm
  have htr : (F64.truncNat m' e' : ℤ) = ⌊(m : ℚ) * 2 ^ e + 1 / 2⌋ := by
    rw [truncNat_eq_floor, hval, Int.floor_intCast]
  have hlt : F64.truncNat m' e' < 2 ^ 63 := by
    have : (F64.truncNat m' e' : ℤ) < 2 ^ 63 := by
      rw [htr]
      exact hfit
    exact_mod_cast this
  have hge : (0 : ℤ) ≤ (F64.truncNat m' e' : ℤ) := Int.natCast_nonneg _
  rw [heq, toRat_fin, roundAway_signed s hy, toInt_fin, ← htr]
  cases s with
  | false =>
    simp only [Bool.false_eq_true, if_false, one_mul]
    rw [if_pos ⟨by norm_num; omega, by exact_mod_cast hlt⟩]
  | true =>
    simp only [if_true]
    have hlt' : (F64.truncNat m' e' : ℤ) < 2 ^ 63 := by exact_mod_cast hlt
    rw [if_pos ⟨by norm_num at hlt' ⊢; omega, by norm_num at hlt' ⊢; omega⟩]
    ring

/-! ## The derived width: theorems -/

set_option maxRecDepth 100000 in
/-- C3, the claim as stated fails: for a 481x360 source and a descriptor of height 180
the exact value of `W / H * h` is 240.5, which rounds to 241, so the claim gives the
width 242; the float64 product is 240.49999999999997, and the planning loop resolves
the width 240. -/
theorem planOne_width_not_exact :
    (planOne { Width := 481, Height := 360 } { Height := 180 }).1.Width = 240 ∧
    specDerivedWidth { Width := 481, Height := 360 } 180 = 242 ∧
    (planOne { Width := 481, Height := 360 } { Height := 180 }).1.Width
      ≠ specDerivedWidth { Width := 481, Height := 360 } 180 := by
  have hW : (planOne { Width := 481, Height := 360 } { Height := 180 }).1.Width = 240 := by
    decide
  have hr : roundAway (((481 : ℤ) : ℚ) / ((360 : ℤ) : ℚ) * ((180 : ℤ) : ℚ)) = 241 := by
    unfold roundAway
    rw [if_pos (by norm_num), Int.floor_eq_iff]
    norm_num
  have hS : specDerivedWidth { Width := 481, Height := 360 } 180 = 242 := by
    unfold specDerivedWidth
    simp only [hr]
    decide
  refine ⟨hW, hS, ?_⟩
  rw [hW, hS]
  decide

/-- C3, amended: in the planning step of `processFile`, for every probe result with
positive width and height and every descriptor whose `Width` is 0 (all within the range
of `int`), the resolved width equals `r` when `r` is even and `r + 1` when `r` is odd,
hence is always even, where `r` is `math.Round` of the float64 product
`float64(W) / float64(H) * float64(h)`: when that product is below `2^63` in magnitude,
`r` is the integer nearest to it, halves away from zero. The product is a float64 nearest
to the quotient times `float64(h)`, the quotient is a float64 nearest to
`float64(W) / float64(H)`, and each conversion is a float64 nearest to the `int`, exact
below `2^53`: `r` is the rounding of a twice-rounded value, not of `W / H * h` itself. -/
theorem planOne_derived_width_float (probe : ProbeResult) (f : ParsedFormat)
    (hw : 0 < probe.Width) (hw' : probe.Width < 2 ^ 63)
    (hh : 0 < probe.Height) (hh' : probe.Height < 2 ^ 63)
    (hf : -(2 : Int) ^ 63 ≤ f.Height) (hf' : f.Height < 2 ^ 63) (h0 : f.Width = 0) :
    (planOne probe f).1.Width =
      (if derivedWidth probe f.Height % 2 = 0 then derivedWidth probe f.Height
       else derivedWidth probe f.Height + 1) ∧
    (planOne probe f).1.Width % 2 = 0 ∧
    (|F64.toRat (aspectProduct probe f.Height)| + 1 / 2 < 2 ^ 63 →
      derivedWidth probe f.Height = roundAway (F64.toRat (aspectProduct probe f.Height))) ∧
    (aspectProduct probe f.Height).IsNearest
      (F64.toRat (F64.div (F64.ofInt probe.Width) (F64.ofInt probe.Height))
        * F64.toRat (F64.ofInt f.Height)) ∧
    (F64.div (F64.ofInt probe.Width) (F64.ofInt probe.Height)).IsNearest
      (F64.toRat (F64.ofInt probe.Width) / F64.toRat (F64.ofInt probe.Height)) ∧
    (F64.ofInt probe.Width).IsNearest probe.Width ∧
    (F64.ofInt probe.Height).IsNearest probe.Height ∧
    (F64.ofInt f.Height).IsNearest f.Height ∧
    (probe.Width < 2 ^ 53 → F64.toRat (F64.ofInt probe.Width) = probe.Width) ∧
    (probe.Height < 2 ^ 53 → F64.toRat (F64.ofInt probe.Height) = probe.Height) ∧
    (f.Height.natAbs < 2 ^ 53 → F64.toRat (F64.ofInt f.Height) = f.Height) := by
  have h2 : (0 : ℚ) < 2 := by norm_num
  obtain ⟨hwidth, heven⟩ := planOne_width_even probe f h0
  obtain ⟨mW, eW, hW, _, _, _, hW63⟩ := ofInt_pos probe.Width hw hw'.le
  obtain ⟨mH, eH, hH, _, _, hH1, _⟩ := ofInt_pos probe.Height hh hh'.le
  obtain ⟨_, _, _, _, _, hnW⟩ := ofInt_spec probe.Width (by norm_num; omega) hw'.le
  obtain ⟨_, _, _, _, _, hnH⟩ := ofInt_spec probe.Height (by norm_num; omega) hh'.le
  obtain ⟨mh, eh, hh_eq, _, hh63, hnh⟩ := ofInt_spec f.Height hf hf'.le
  have hH1' : (2 : ℚ) ^ (0 : ℤ) ≤ (mH : ℚ) * 2 ^ eH := by simpa using hH1
  obtain ⟨hnq, mq, eq, hq, _, hq63⟩ :=
    div_isNearest false false (i := 63) (j := 0) hW63 hH1' (by norm_num)
  rw [← hW, ← hH] at hnq hq
  obtain ⟨hnx, mx, ex, hx, hmx, _⟩ :=
    mul_isNearest (xor false false) (decide (f.Height < 0)) (i := 63 - 0) (j := 63)
      hq63 hh63 (by norm_num)
  rw [← hq, ← hh_eq] at hnx hx
  refine ⟨hwidth, heven, ?_, hnx, hnq, hnW, hnH, hnh, ?_, ?_, ?_⟩
  · intro hfit
    show F64.toInt (F64.round (aspectProduct probe f.Height)) = _
    have hx' : aspectProduct probe f.Height
        = .fin (xor (xor false false) (decide (f.Height < 0))) mx ex := hx
    rw [hx'] at hfit ⊢
    apply toInt_round _ _ hmx
    rw [Int.floor_lt]
    have hy : (0 : ℚ) ≤ (mx : ℚ) * 2 ^ ex := mul_nonneg (Nat.cast_nonneg _) (zpow_nonneg h2.le _)
    have habs : |F64.toRat (.fin (xor (xor false false) (decide (f.Height < 0))) mx ex)|
        = (mx : ℚ) * 2 ^ ex := by
      rw [toRat_fin]
      cases (xor (xor false false) (decide (f.Height < 0)))
      · simp only [Bool.false_eq_true, if_false, one_mul]
        exact abs_of_nonneg hy
      · simp only [if_true]
        rw [neg_one_mul, abs_neg]
        exact abs_of_nonneg hy
    rw [habs] at hfit
    push_cast
    exact hfit
  · intro hlt
    exact ofInt_exact _ (by omega)
  · intro hlt
    exact ofInt_exact _ (by omega)
  · intro hlt
    exact ofInt_exact _ hlt

set_option maxRecDepth 100000 in
/-- Witness for the amended C3: a 3840x2160 source at height 720 resolves to width 1280,
and a 641x360 source at height 360, whose derivation lands on 641, resolves to 642; for a
1000x600 source at height 100 the float64 product is 166.66666666666669, `r` is 167 and
the width 168; for the 481x360 source at height 180 the product is 240.49999999999997,
`r` is 240 and the width 240. -/
theorem planOne_derived_width_float_witness :
    (planOne { Width := 3840, Height := 2160 } { Height := 720 }).1.Width = 1280 ∧
    derivedWidth { Width := 641, Height := 360 } 360 = 641 ∧
    (planOne { Width := 641, Height := 360 } { Height := 360 }).1.Width = 642 ∧
    aspectProduct { Width := 1000, Height := 600 } 100 = .fin false 5864062014805334 (-45) ∧
    roundAway (F64.toRat (aspectProduct { Width := 1000, Height := 600 } 100)) = 167 ∧
    (planOne { Width := 1000, Height := 600 } { Height := 100 }).1.Width = 168 ∧
    aspectProduct { Width := 481, Height := 360 } 180 = .fin false 8461841487364095 (-45) ∧
    roundAway (F64.toRat (aspectProduct { Width := 481, Height := 360 } 180)) = 240 ∧
    (planOne { Width := 481, Height := 360 } { Height := 180 }).1.Width = 240 := by
  have t0 := planOne_derived_width_float { Width := 3840, Height := 2160 } { Height := 720 }
    (by decide) (by decide) (by decide) (by decide) (by decide) (by decide) rfl
  have t3 := planOne_derived_width_float { Width := 641, Height := 360 } { Height := 360 }
    (by decide) (by decide) (by decide) (by decide) (by decide) (by decide) rfl
  have t1 := planOne_derived_width_float { Width := 1000, Height := 600 } { Height := 100 }
    (by decide) (by decide) (by decide) (by decide) (by decide) (by decide) rfl
  have t2 := planOne_derived_width_float { Width := 481, Height := 360 } { Height := 180 }
    (by decide) (by decide) (by decide) (by decide) (by decide) (by decide) rfl
  have p1 : aspectProduct { Width := 1000, Height := 600 } 100
      = .fin false 5864062014805334 (-45) := by decide
  have p2 : aspectProduct { Width := 481, Height := 360 } 180
      = .fin false 8461841487364095 (-45) := by decide
  have d1 : derivedWidth { Width := 1000, Height := 600 } 100 = 167 := by decide
  have d2 : derivedWidth { Width := 481, Height := 360 } 180 = 240 := by decide
  refine ⟨t0.1.trans (by decide), by decide, t3.1.trans (by decide),
    p1, ?_, t1.1.trans (by decide), p2, ?_, t2.1.trans (by decide)⟩
  · rw [← t1.2.2.1 (by rw [p1, toRat_fin]; norm_num [abs_of_nonneg])]
    exact d1
  · rw [← t2.2.2.1 (by rw [p2, toRat_fin]; norm_num [abs_of_nonneg])]
    exact d2

/-! ## Which bitrates are strictly positive: theorems -/

set_option maxRecDepth 100000 in
/-- Below 15 the product `.07 * float64(v)` is below 1 and converts to 0. -/
theorem maxProduct_toInt_small (v : Int) (h0 : 0 ≤ v) (h1 : v < 15) :
    F64.toInt (maxProduct v) = 0 := by
  interval_cases v <;> decide

/-- From 15 on the product `.07 * float64(v)` is at least 1 and converts to a strictly
positive `int`. -/
theorem maxProduct_toInt_pos (v : Int) (h0 : 15 ≤ v) (h1 : v < 2 ^ 63) :
    0 < F64.toInt (maxProduct v) := by
  have h2 : (0 : ℚ) < 2 := by norm_num
  obtain ⟨hti, _, _⟩ := maxProduct_toInt v (by norm_num; omega) h1
  obtain ⟨m, E, hv, _, _, _, hle⟩ := ofInt_pos v (by omega) h1.le
  obtain ⟨_, _, _, _, _, hnv⟩ := ofInt_spec v (by norm_num; omega) h1.le
  -- float64(v) is at least 15
  have h15 : F64.toRat (.fin false 15 0) ≤ (v : ℚ) := by
    rw [toRat_fin]
    have : ((15 : ℤ) : ℚ) ≤ (v : ℚ) := by exact_mod_cast h0
    simpa using this
  have hge := hnv.le_toRat false 15 0 (by norm_num) (by norm_num) h15
  rw [hv, toRat_fin, toRat_fin] at hge
  simp only [Bool.false_eq_true, if_false, one_mul, Nat.cast_ofNat, zpow_zero, mul_one] at hge
  -- the product is a float64 nearest to a number that is at least 1
  have hc : ((5044031582654956 : ℕ) : ℚ) * 2 ^ (-56 : ℤ) ≤ 2 ^ (-3 : ℤ) := by norm_num
  obtain ⟨hnear, _⟩ := mul_isNearest false false (i := -3) (j := 63) hc hle (by norm_num)
  rw [← ofFrac_seven_hundredths, ← hv] at hnear
  have hone : F64.toRat (.fin false 1 0) ≤
      F64.toRat (F64.ofFrac false 7 100 0) * F64.toRat (F64.ofInt v) := by
    rw [ofFrac_seven_hundredths, hv, toRat_fin, toRat_fin, toRat_fin]
    simp only [Bool.false_eq_true, if_false, one_mul, Nat.cast_one, zpow_zero, mul_one]
    have hc' : (7 : ℚ) / 100 ≤ ((5044031582654956 : ℕ) : ℚ) * 2 ^ (-56 : ℤ) := by norm_num
    calc (1 : ℚ) ≤ 7 / 100 * 15 := by norm_num
      _ ≤ ((5044031582654956 : ℕ) : ℚ) * 2 ^ (-56 : ℤ) * ((m : ℚ) * 2 ^ E) :=
          mul_le_mul hc' hge (by norm_num) (by norm_num)
  have hres := hnear.le_toRat false 1 0 (by norm_num) (by norm_num) hone
  rw [toRat_fin] at hres
  simp only [Bool.false_eq_true, if_false, one_mul, Nat.cast_one, zpow_zero, mul_one] at hres
  have hres' : (1 : ℚ) ≤ F64.toRat (maxProduct v) := hres
  rw [hti]
  unfold truncRat
  rw [if_pos (by linarith)]
  have : (1 : ℤ) ≤ ⌊F64.toRat (maxProduct v)⌋ := Int.le_floor.mpr (by exact_mod_cast hres')
  omega

/-- C16, amended: for every descriptor `f` with `Width > 0`, `Height > 0`,
`Width * Height` within the range of `int`, `FrameRate > 0` and `QualityFactor > 0` whose
float64 product `p = float64(Width*Height) * FrameRate * QualityFactor` is finite with an
integer part below `2^63`: `AudioBitRate` is strictly positive; `VideoBitRate` is
strictly positive exactly when `p ≥ 1`; `MaximumVideoBitRate` and `BufferSize` are
strictly positive exactly when `p ≥ 15`; so all four fields are strictly positive exactly
when `p ≥ 15`. Below those bounds the fields are 0: `VideoBitRate` when `p < 1`,
`MaximumVideoBitRate` and `BufferSize` when `p < 15`. -/
theorem NewBitRates_positive_iff (f : ParsedFormat) (s : Bool) (m : Nat) (e : Int)
    (hW : 0 < f.Width) (hH : 0 < f.Height) (hA : f.Width * f.Height < 2 ^ 63)
    (hF : f.FrameRate.isPos = true) (hQ : f.QualityFactor.isPos = true)
    (hp : videoProduct f = .fin s m e) (hr : F64.truncNat m e < 2 ^ 63) :
    0 < (NewBitRates f).AudioBitRate ∧
    (0 < (NewBitRates f).VideoBitRate ↔ 1 ≤ F64.toRat (videoProduct f)) ∧
    (0 < (NewBitRates f).MaximumVideoBitRate ↔ 15 ≤ F64.toRat (videoProduct f)) ∧
    (0 < (NewBitRates f).BufferSize ↔ 15 ≤ F64.toRat (videoProduct f)) ∧
    (F64.toRat (videoProduct f) < 1 → (NewBitRates f).VideoBitRate = 0) ∧
    (F64.toRat (videoProduct f) < 15 →
      (NewBitRates f).MaximumVideoBitRate = 0 ∧ (NewBitRates f).BufferSize = 0) := by
  have h2 : (0 : ℚ) < 2 := by norm_num
  obtain ⟨_, _, _, hAudio⟩ := NewBitRates_nonneg f s m e hW hH hA hF hQ hp hr
  have hpos : 0 < f.Width * f.Height := mul_pos hW hH
  have hwrap : wrap64 (f.Width * f.Height) = f.Width * f.Height :=
    wrap64_of_mem (by norm_num; omega) hA
  have hs : s = false := by
    have hm := hp
    unfold videoProduct at hm
    obtain ⟨s1, m1, e1, sq, mq, eq, h1, hq, hsq⟩ := mul_eq_fin hm
    obtain ⟨s0, m0, e0, sf, mf, ef, h0, hf, hsf⟩ := mul_eq_fin h1
    have hs0 := ofInt_eq_fin h0
    rw [hwrap] at hs0
    have hd : decide (f.Width * f.Height < 0) = false := by simp; omega
    rw [hd] at hs0
    rw [hf] at hF
    rw [hq] at hQ
    rw [hsq, hsf, hs0, isPos_fin hF, isPos_fin hQ]
    rfl
  subst hs
  have hy : (0 : ℚ) ≤ F64.toRat (videoProduct f) := by
    rw [hp, toRat_fin]
    simp only [Bool.false_eq_true, if_false, one_mul]
    exact mul_nonneg (Nat.cast_nonneg _) (zpow_nonneg h2.le _)
  -- the video bitrate is the integer part of the product
  have hV : (NewBitRates f).VideoBitRate = ⌊F64.toRat (videoProduct f)⌋ := by
    show F64.toInt (videoProduct f) = _
    rw [hp, toInt_eq_truncRat false m e hr]
    rw [hp] at hy
    unfold truncRat
    rw [if_pos hy]
  have hVlt : (NewBitRates f).VideoBitRate < 2 ^ 63 := (toInt_range _).2
  have hV0 : 0 ≤ (NewBitRates f).VideoBitRate := by
    rw [hV]
    exact Int.floor_nonneg.mpr hy
  have hM : (NewBitRates f).MaximumVideoBitRate
      = F64.toInt (maxProduct (NewBitRates f).VideoBitRate) := rfl
  have hB : (NewBitRates f).BufferSize = (NewBitRates f).MaximumVideoBitRate * 2 :=
    (maxProduct_nonneg hV0 hVlt).2
  have h1iff : 0 < (NewBitRates f).VideoBitRate ↔ 1 ≤ F64.toRat (videoProduct f) := by
    rw [hV]
    constructor
    · intro h
      have := Int.le_floor.mp (show (1 : ℤ) ≤ ⌊F64.toRat (videoProduct f)⌋ by omega)
      exact_mod_cast this
    · intro h
      have : (1 : ℤ) ≤ ⌊F64.toRat (videoProduct f)⌋ := Int.le_floor.mpr (by exact_mod_cast h)
      omega
  have h15iff : 15 ≤ (NewBitRates f).VideoBitRate ↔ 15 ≤ F64.toRat (videoProduct f) := by
    rw [hV]
    constructor
    · intro h
      have := Int.le_floor.mp h
      exact_mod_cast this
    · intro h
      exact Int.le_floor.mpr (by exact_mod_cast h)
  have hMiff : 0 < (NewBitRates f).MaximumVideoBitRate ↔ 15 ≤ (NewBitRates f).VideoBitRate := by
    rw [hM]
    constructor
    · intro h
      by_contra hc
      rw [maxProduct_toInt_small _ hV0 (by omega)] at h
      exact lt_irrefl _ h
    · intro h
      exact maxProduct_toInt_pos _ h hVlt
  refine ⟨hAudio, h1iff, hMiff.trans h15iff, ?_, ?_, ?_⟩
  · rw [hB, ← h15iff, ← hMiff]
    constructor <;> intro h <;> omega
  · intro hlt
    have hn : ¬ (0 < (NewBitRates f).VideoBitRate) := fun h => absurd (h1iff.mp h) (not_le.mpr hlt)
    omega
  · intro hlt
    have hn : ¬ (15 ≤ (NewBitRates f).VideoBitRate) :=
      fun h => absurd (h15iff.mp h) (not_le.mpr hlt)
    have hM0 : (NewBitRates f).MaximumVideoBitRate = 0 := by
      rw [hM]
      exact maxProduct_toInt_small _ hV0 (by omega)
    exact ⟨hM0, by rw [hB, hM0]; rfl⟩

set_option maxRecDepth 100000 in
/-- Witness for the amended C16: at 1280x720, 30 frames per second and quality 0.11 the
product is 3041280 and all four fields are strictly positive (3041280, 212889, 425778
and 128000); at 16x8 and 1 frame per second the product is 14.08, the video bitrate is
14 and the maximum and the buffer size are 0. -/
theorem NewBitRates_positive_iff_witness :
    (0 < (NewBitRates
      { Width := 1280, Height := 720, FrameRate := F64.ofInt 30,
        QualityFactor := QualityMed }).AudioBitRate ∧
     0 < (NewBitRates
      { Width := 1280, Height := 720, FrameRate := F64.ofInt 30,
        QualityFactor := QualityMed }).VideoBitRate ∧
     0 < (NewBitRates
      { Width := 1280, Height := 720, FrameRate := F64.ofInt 30,
        QualityFactor := QualityMed }).MaximumVideoBitRate ∧
     0 < (NewBitRates
      { Width := 1280, Height := 720, FrameRate := F64.ofInt 30,
        QualityFactor := QualityMed }).BufferSize) ∧
    (0 < (NewBitRates
      { Width := 16, Height := 8, FrameRate := F64.ofInt 1,
        QualityFactor := QualityMed }).VideoBitRate ∧
     (NewBitRates
      { Width := 16, Height := 8, FrameRate := F64.ofInt 1,
        QualityFactor := QualityMed }).MaximumVideoBitRate = 0 ∧
     (NewBitRates
      { Width := 16, Height := 8, FrameRate := F64.ofInt 1,
        QualityFactor := QualityMed }).BufferSize = 0) ∧
    NewBitRates
      { Width := 1280, Height := 720, FrameRate := F64.ofInt 30, QualityFactor := QualityMed }
      = { VideoBitRate := 3041280, MaximumVideoBitRate := 212889, BufferSize := 425778,
          AudioBitRate := 128000 } ∧
    NewBitRates
      { Width := 16, Height := 8, FrameRate := F64.ofInt 1, QualityFactor := QualityMed }
      = { VideoBitRate := 14, MaximumVideoBitRate := 0, BufferSize := 0,
          AudioBitRate := 96000 } ∧
    NewBitRates
      { Width := 16, Height := 9, FrameRate := F64.ofInt 1, QualityFactor := QualityMed }
      = { VideoBitRate := 15, MaximumVideoBitRate := 1, BufferSize := 2,
          AudioBitRate := 96000 } := by
  have p1 : videoProduct
      { Width := 1280, Height := 720, FrameRate := F64.ofInt 30, QualityFactor := QualityMed }
      = .fin false 6531099068989440 (-31) := by decide
  have p2 : videoProduct
      { Width := 16, Height := 8, FrameRate := F64.ofInt 1, QualityFactor := QualityMed }
      = .fin false 7926335344172073 (-49) := by decide
  have t1 := NewBitRates_positive_iff
    { Width := 1280, Height := 720, FrameRate := F64.ofInt 30, QualityFactor := QualityMed }
    false 6531099068989440 (-31) (by decide) (by decide) (by decide) (by decide) (by decide)
    p1 (by decide)
  have t2 := NewBitRates_positive_iff
    { Width := 16, Height := 8, FrameRate := F64.ofInt 1, QualityFactor := QualityMed }
    false 7926335344172073 (-49) (by decide) (by decide) (by decide) (by decide) (by decide)
    p2 (by decide)
  have q1 : (15 : ℚ) ≤ F64.toRat (videoProduct
      { Width := 1280, Height := 720, FrameRate := F64.ofInt 30,
        QualityFactor := QualityMed }) := by
    rw [p1, toRat_fin]
    norm_num
  have q2 : (1 : ℚ) ≤ F64.toRat (videoProduct
      { Width := 16, Height := 8, FrameRate := F64.ofInt 1, QualityFactor := QualityMed }) := by
    rw [p2, toRat_fin]
    norm_num
  have q3 : F64.toRat (videoProduct
      { Width := 16, Height := 8, FrameRate := F64.ofInt 1, QualityFactor := QualityMed })
      < 15 := by
    rw [p2, toRat_fin]
    norm_num
  exact ⟨⟨t1.1, t1.2.1.mpr (by linarith), t1.2.2.1.mpr q1, t1.2.2.2.1.mpr q1⟩,
    ⟨t2.2.1.mpr q2, t2.2.2.2.2.2 q3⟩, by decide, by decide, by decide⟩

/-! ## Probing: the values read -/

theorem parseDigits_foldl : ∀ (s : List Char) (acc : Nat), s.all Char.isDigit = true →
    parseDigits s acc = some (s.foldl (fun acc c => acc * 10 + (c.toNat - 48)) acc) := by
  intro s
  induction s with
  | nil => intro acc _; rfl
  | cons c cs ih =>
    intro acc h
    simp only [List.all_cons, Bool.and_eq_true] at h
    unfold parseDigits
    rw [if_pos h.1, List.foldl_cons]
    exact ih _ h.2

/-- On an in-range decimal integer text `strconv.Atoi` returns the integer the text
stands for. -/
theorem Atoi_decimalValue {s : List Char} (hs : isDecimalInteger s = true)
    (h1 : -(2 : Int) ^ 63 ≤ decimalValue s) (h2 : decimalValue s < 2 ^ 63) :
    Atoi s = some (decimalValue s) := by
  cases s with
  | nil => simp [isDecimalInteger] at hs
  | cons c cs =>
    unfold isDecimalInteger at hs
    dsimp only at hs
    unfold Atoi decimalValue at *
    simp only [List.head?_cons, Option.some.injEq, List.tail_cons] at *
    by_cases hm : c = '-'
    · subst hm
      simp only [true_or, if_true, Bool.and_eq_true, Bool.not_eq_true',
        List.isEmpty_eq_false] at hs h1 h2 ⊢
      have hne : cs ≠ [] := by
        intro h0
        rw [h0] at hs
        simp at hs
      rw [if_neg hne, parseDigits_foldl cs 0 hs.2]
      show (if digitsValue cs ≤ 2 ^ 63 then some (-(digitsValue cs : Int)) else none) = _
      rw [if_pos (by norm_num at h1 ⊢; omega)]
    · by_cases hp : c = '+'
      · subst hp
        have hpm : ¬ ('+' = '-') := by decide
        simp only [hpm, or_true, if_true, if_false, Bool.and_eq_true, Bool.not_eq_true',
          List.isEmpty_eq_false] at hs h1 h2 ⊢
        have hne : cs ≠ [] := by
          intro h0
          rw [h0] at hs
          simp at hs
        rw [if_neg hne, parseDigits_foldl cs 0 hs.2]
        show (if digitsValue cs < 2 ^ 63 then some (digitsValue cs : Int) else none) = _
        rw [if_pos (by norm_num at h2 ⊢; omega)]
      · simp only [hm, hp, or_self, if_false] at hs h1 h2 ⊢
        rw [if_neg (List.cons_ne_nil c cs), parseDigits_foldl (c :: cs) 0 hs]
        show (if digitsValue (c :: cs) < 2 ^ 63 then some (digitsValue (c :: cs) : Int)
          else none) = _
        rw [if_pos (by norm_num at h2 ⊢; omega)]

/-- The characters of a decimal integer text: a sign or a digit each, none of them a
separator or white space. -/
theorem isDecimalInteger_chars {s : List Char} (hs : isDecimalInteger s = true) :
    s ≠ [] ∧ ∀ c ∈ s, c ≠ ',' ∧ c ≠ '/' ∧ isSpace c = false := by
  cases s with
  | nil => simp [isDecimalInteger] at hs
  | cons c cs =>
    refine ⟨List.cons_ne_nil _ _, ?_⟩
    have hdig : ∀ d : Char, d.isDigit = true → d ≠ ',' ∧ d ≠ '/' ∧ isSpace d = false := by
      intro d hd
      have hp := IntChar.props (Or.inr hd : IntChar d)
      exact ⟨hp.1, hp.2.1, hp.2.2.2.2.2⟩
    unfold isDecimalInteger at hs
    dsimp only at hs
    by_cases hc : c = '-' ∨ c = '+'
    · rw [if_pos hc] at hs
      simp only [Bool.and_eq_true, List.all_eq_true] at hs
      intro d hd
      rcases List.mem_cons.mp hd with hd | hd
      · rcases hc with hc | hc <;> subst hd <;> subst hc <;> decide
      · exact hdig d (hs.2 d hd)
    · rw [if_neg hc] at hs
      simp only [List.all_eq_true] at hs
      intro d hd
      exact hdig d (hs d hd)

/-- Splitting `w,h,ratio` on commas when none of the three texts has a comma. -/
theorem split_three {w h ratio : List Char} (hw : ',' ∉ w) (hh : ',' ∉ h) (hr : ',' ∉ ratio) :
    split ',' (w ++ ',' :: (h ++ ',' :: ratio)) = [w, h, ratio] := by
  have hgen : ∀ s : List Char, ',' ∉ s → split ',' s = [s] := by
    intro s
    induction s with
    | nil => intro _; rfl
    | cons c cs ih =>
      intro hs
      have hc : ¬ c = ',' := fun e => hs (e ▸ List.mem_cons_self _ _)
      have hcs : ',' ∉ cs := fun m => hs (List.mem_cons_of_mem _ m)
      simp only [split, if_neg hc, ih hcs]
  rw [split_append_sep _ hw, split_append_sep _ hh, hgen _ hr]

/-- A non-zero `int` converts to a float64 of magnitude between 1 and `2^63`. -/
theorem ofInt_ne_zero (v : Int) (h0 : v ≠ 0) (h1 : -(2 : Int) ^ 63 ≤ v) (h2 : v ≤ 2 ^ 63) :
    ∃ m E, F64.ofInt v = .fin (decide (v < 0)) m E ∧ m < 2 ^ 53 ∧
      (2 : ℚ) ^ (0 : ℤ) ≤ (m : ℚ) * 2 ^ E ∧ (m : ℚ) * 2 ^ E ≤ 2 ^ (63 : ℤ) := by
  obtain ⟨m, E, heq, hm, hle, hnear⟩ := ofInt_spec v h1 h2
  refine ⟨m, E, heq, hm, ?_, hle⟩
  by_cases hneg : v < 0
  · have hone : (v : ℚ) ≤ F64.toRat (.fin true 1 0) := by
      rw [toRat_fin]
      have : (v : ℚ) ≤ ((-1 : ℤ) : ℚ) := by exact_mod_cast (show v ≤ -1 by omega)
      simpa using this
    have hge := hnear.toRat_le true 1 0 (by norm_num) (by norm_num) hone
    rw [heq, toRat_fin, toRat_fin] at hge
    simp only [hneg, decide_True, if_true, Nat.cast_one, zpow_zero, mul_one] at hge
    simp only [zpow_zero]
    linarith
  · have hone : F64.toRat (.fin false 1 0) ≤ (v : ℚ) := by
      rw [toRat_fin]
      have : ((1 : ℤ) : ℚ) ≤ (v : ℚ) := by exact_mod_cast (show 1 ≤ v by omega)
      simpa using this
    have hge := hnear.le_toRat false 1 0 (by norm_num) (by norm_num) hone
    rw [heq, toRat_fin, toRat_fin] at hge
    simp only [hneg, decide_False, Bool.false_eq_true, if_false, one_mul, Nat.cast_one,
      zpow_zero, mul_one] at hge
    simp only [zpow_zero]
    exact hge

/-- The quotient `float64(n) / float64(d)` of two `int`s, `d ≠ 0`: a float64 nearest to
the quotient of the two converted values, and so to `n / d` when both are below `2^53`
in magnitude. -/
theorem div_ofInt_isNearest (n d : Int) (hn1 : -(2 : Int) ^ 63 ≤ n) (hn2 : n < 2 ^ 63)
    (hd1 : -(2 : Int) ^ 63 ≤ d) (hd2 : d < 2 ^ 63) (hd0 : d ≠ 0) :
    (F64.div (F64.ofInt n) (F64.ofInt d)).IsNearest
      (F64.toRat (F64.ofInt n) / F64.toRat (F64.ofInt d)) ∧
    (F64.ofInt n).IsNearest n ∧ (F64.ofInt d).IsNearest d ∧
    (n.natAbs < 2 ^ 53 → d.natAbs < 2 ^ 53 →
      (F64.div (F64.ofInt n) (F64.ofInt d)).IsNearest ((n : ℚ) / (d : ℚ))) := by
  obtain ⟨mn, en, hn, _, hn63, hnn⟩ := ofInt_spec n hn1 hn2.le
  obtain ⟨md, ed, hd, _, hdl, _⟩ := ofInt_ne_zero d hd0 hd1 hd2.le
  obtain ⟨_, _, _, _, _, hnd⟩ := ofInt_spec d hd1 hd2.le
  obtain ⟨hnear, _⟩ := div_isNearest (decide (n < 0)) (decide (d < 0)) (i := 63) (j := 0)
    hn63 hdl (by norm_num)
  rw [← hn, ← hd] at hnear
  refine ⟨hnear, hnn, hnd, ?_⟩
  intro hns hds
  rw [← ofInt_exact n hns, ← ofInt_exact d hds]
  exact hnear

set_option maxRecDepth 100000 in
/-- C13, the claim as stated fails: in the text `9223372036854775808,1080,30/1` the width
is an integer, `2^63`, yet `Probe` returns an error, because the integer does not fit an
`int`; and the frame rate read from `1920,1080,30000/1001` is a float64, the one nearest
to the quotient, not the quotient `30000 / 1001` itself. -/
theorem Probe_rejects_wide_integer :
    isDecimalInteger "9223372036854775808".toList = true ∧
    decimalValue "9223372036854775808".toList = 2 ^ 63 ∧
    Probe "9223372036854775808,1080,30/1\n".toList
      = ({}, some "unable to parse probe result") ∧
    (Probe "1920,1080,30000/1001\n".toList).1.FrameRate
      = .fin false 8435813487831848 (-48) ∧
    F64.toRat (.fin false 8435813487831848 (-48)) ≠ (30000 : ℚ) / 1001 := by
  refine ⟨by decide, by decide, by decide, by decide, ?_⟩
  rw [toRat_fin]
  norm_num

/-- C13, amended: the parsing of the probe tool's output inside `Probe`. For every output
text, if the trimmed text does not split into exactly three comma-separated fields, or
the third field is not of the form `N/D` with integer `N` and `D`, or the width or the
height is not an integer, or `D` is 0, `Probe` returns the zero `ProbeResult` and an
error; and for all decimal integer texts `W`, `H`, `N` and `D` whose values fit Go's
`int`, with `D ≠ 0`, the text `W,H,N/D`, with any white space around it, gives width `W`,
height `H` and the frame rate `float64(N) / float64(D)` without error. That frame rate is
a float64 nearest to the quotient of the converted values, each conversion is a float64
nearest to the `int`, and when `N` and `D` are below `2^53` in magnitude the frame rate
is a float64 nearest to `N / D`. -/
theorem Probe_reads_output (pData pre post tw th tn td : List Char) :
    (MalformedProbeOutput pData → (Probe pData).1 = {} ∧ (Probe pData).2 ≠ none) ∧
    (isDecimalInteger tw = true → isDecimalInteger th = true →
      isDecimalInteger tn = true → isDecimalInteger td = true →
      -(2 : Int) ^ 63 ≤ decimalValue tw → decimalValue tw < 2 ^ 63 →
      -(2 : Int) ^ 63 ≤ decimalValue th → decimalValue th < 2 ^ 63 →
      -(2 : Int) ^ 63 ≤ decimalValue tn → decimalValue tn < 2 ^ 63 →
      -(2 : Int) ^ 63 ≤ decimalValue td → decimalValue td < 2 ^ 63 →
      decimalValue td ≠ 0 →
      (∀ c ∈ pre, isSpace c = true) → (∀ c ∈ post, isSpace c = true) →
      Probe (pre ++ (tw ++ ',' :: (th ++ ',' :: (tn ++ '/' :: td))) ++ post)
        = ({ Width := decimalValue tw, Height := decimalValue th,
             FrameRate := F64.div (F64.ofInt (decimalValue tn)) (F64.ofInt (decimalValue td)) },
            none) ∧
      (F64.div (F64.ofInt (decimalValue tn)) (F64.ofInt (decimalValue td))).IsNearest
        (F64.toRat (F64.ofInt (decimalValue tn)) / F64.toRat (F64.ofInt (decimalValue td))) ∧
      (F64.ofInt (decimalValue tn)).IsNearest (decimalValue tn) ∧
      (F64.ofInt (decimalValue td)).IsNearest (decimalValue td) ∧
      ((decimalValue tn).natAbs < 2 ^ 53 → (decimalValue td).natAbs < 2 ^ 53 →
        (F64.div (F64.ofInt (decimalValue tn)) (F64.ofInt (decimalValue td))).IsNearest
          ((decimalValue tn : ℚ) / (decimalValue td : ℚ)))) := by
  constructor
  · intro hm
    rcases hm with hlen | ⟨w, h, ratio, hs, hbad⟩
    · exact Probe_of_length_ne hlen
    · rw [Probe_of_fields hs]
      rcases hbad with hno | ⟨n, d, hr, hn, hnd⟩ | hw | hh
      · rw [cut_eq_none hno]
        exact ⟨rfl, by simp⟩
      · rw [hr, cut_append d hn]
        dsimp only
        have hzero : Atoi d = none ∨ Atoi d = some 0 →
            ((match Atoi n, Atoi d, Atoi w, Atoi h with
              | some pDividend, some pDivisor, some width, some height =>
                if pDivisor = 0 then
                  (({} : ProbeResult),
                    some "unable to calculate frame-rate, divisor causes division by zero error")
                else
                  ({ Width := width, Height := height,
                     FrameRate := F64.div (F64.ofInt pDividend) (F64.ofInt pDivisor) }, none)
              | _, _, _, _ => ({}, some "unable to parse probe result")).1 = {} ∧
             (match Atoi n, Atoi d, Atoi w, Atoi h with
              | some pDividend, some pDivisor, some width, some height =>
                if pDivisor = 0 then
                  (({} : ProbeResult),
                    some "unable to calculate frame-rate, divisor causes division by zero error")
                else
                  ({ Width := width, Height := height,
                     FrameRate := F64.div (F64.ofInt pDividend) (F64.ofInt pDivisor) }, none)
              | _, _, _, _ => ({}, some "unable to parse probe result")).2 ≠ none) := by
          intro hd
          rcases hd with hd | hd <;> rw [hd] <;>
            cases Atoi n <;> cases Atoi w <;> cases Atoi h <;> exact ⟨rfl, by simp⟩
        rcases hnd with h1 | h1 | h1
        · rw [Atoi_eq_none_of_not_decimal h1]
          exact ⟨rfl, by simp⟩
        · exact hzero (Or.inl (Atoi_eq_none_of_not_decimal h1))
        · by_cases hdd : isDecimalInteger d = true
          · have ha := Atoi_decimalValue hdd (by rw [h1]; norm_num) (by rw [h1]; norm_num)
            rw [h1] at ha
            exact hzero (Or.inr ha)
          · exact hzero (Or.inl (Atoi_eq_none_of_not_decimal (by simpa using hdd)))
      · rw [Atoi_eq_none_of_not_decimal hw]
        cases cut '/' ratio with
        | none => exact ⟨rfl, by simp⟩
        | some p =>
          obtain ⟨a, b⟩ := p
          dsimp only
          cases Atoi a <;> cases Atoi b <;> cases Atoi h <;> exact ⟨rfl, by simp⟩
      · rw [Atoi_eq_none_of_not_decimal hh]
        cases cut '/' ratio with
        | none => exact ⟨rfl, by simp⟩
        | some p =>
          obtain ⟨a, b⟩ := p
          dsimp only
          cases Atoi a <;> cases Atoi b <;> cases Atoi w <;> exact ⟨rfl, by simp⟩
  · intro hw hh hn hd hW1 hW2 hH1 hH2 hN1 hN2 hD1 hD2 hD0 hpre hpost
    obtain ⟨hWne, hWc⟩ := isDecimalInteger_chars hw
    obtain ⟨hHne, hHc⟩ := isDecimalInteger_chars hh
    obtain ⟨hNne, hNc⟩ := isDecimalInteger_chars hn
    obtain ⟨hDne, hDc⟩ := isDecimalInteger_chars hd
    refine ⟨?_, div_ofInt_isNearest _ _ hN1 hN2 hD1 hD2 hD0⟩
    have hbody : tw ++ ',' :: (th ++ ',' :: (tn ++ '/' :: td)) ≠ [] := by
      simp
    have htrim := trimSpace_padded pre post hbody
      (by
        rw [List.head_append_of_ne_nil hWne]
        exact (hWc _ (List.head_mem hWne)).2.2)
      (by
        have hl : (tw ++ ',' :: (th ++ ',' :: (tn ++ '/' :: td))).getLast hbody
            = td.getLast hDne := by
          simp [List.getLast_append, List.getLast_cons, hDne]
        rw [hl]
        exact (hDc _ (List.getLast_mem hDne)).2.2)
      hpre hpost
    have hratio : ',' ∉ tn ++ '/' :: td := by
      intro hm
      rcases List.mem_append.mp hm with hm | hm
      · exact (hNc _ hm).1 rfl
      · rcases List.mem_cons.mp hm with hm | hm
        · exact absurd hm (by decide)
        · exact (hDc _ hm).1 rfl
    have hs : split ',' (trimSpace (pre ++ (tw ++ ',' :: (th ++ ',' :: (tn ++ '/' :: td))) ++ post))
        = [tw, th, tn ++ '/' :: td] := by
      rw [htrim, split_three (fun hm => (hWc _ hm).1 rfl) (fun hm => (hHc _ hm).1 rfl) hratio]
    rw [Probe_of_fields hs, cut_append _ (fun hm => (hNc _ hm).2.1 rfl)]
    dsimp only
    rw [Atoi_decimalValue hn hN1 hN2, Atoi_decimalValue hd hD1 hD2, Atoi_decimalValue hw hW1 hW2,
      Atoi_decimalValue hh hH1 hH2]
    simp only [if_neg hD0]

set_option maxRecDepth 100000 in
/-- Witness for the amended C13: the output `1920,1080,30000/1001` followed by a newline
gives 1920x1080 at the float64 29.97002997002997 (significand 8435813487831848, exponent
-48); the output ` +1920,1080,030/1` with white space around it gives 1920x1080 at 30;
the numerator 9007199254740993, which is `2^53 + 1`, converts to the float64 `2^53`; and
`1920,1080,30000/0` is an error. -/
theorem Probe_reads_output_witness :
    Probe "1920,1080,30000/1001\n".toList
      = ({ Width := 1920, Height := 1080,
           FrameRate := .fin false 8435813487831848 (-48) }, none) ∧
    Probe " +1920,1080,030/1\r\n".toList
      = ({ Width := 1920, Height := 1080, FrameRate := .fin false 8444249301319680 (-48) },
          none) ∧
    Probe "1920,1080,9007199254740993/1".toList
      = ({ Width := 1920, Height := 1080, FrameRate := .fin false 4503599627370496 1 },
          none) ∧
    (Probe "1920,1080,30000/0\n".toList).1 = {} ∧
    (Probe "1920,1080,30000/0\n".toList).2 ≠ none :=
  ⟨((Probe_reads_output [] [] "\n".toList "1920".toList "1080".toList "30000".toList
        "1001".toList).2
      (by decide) (by decide) (by decide) (by decide) (by decide) (by decide) (by decide)
      (by decide) (by decide) (by decide) (by decide) (by decide) (by decide) (by decide)
      (by decide)).1.trans (by decide),
   ((Probe_reads_output [] " ".toList "\r\n".toList "+1920".toList "1080".toList "030".toList
        "1".toList).2
      (by decide) (by decide) (by decide) (by decide) (by decide) (by decide) (by decide)
      (by decide) (by decide) (by decide) (by decide) (by decide) (by decide) (by decide)
      (by decide)).1.trans (by decide),
   ((Probe_reads_output [] [] [] "1920".toList "1080".toList "9007199254740993".toList
        "1".toList).2
      (by decide) (by decide) (by decide) (by decide) (by decide) (by decide) (by decide)
      (by decide) (by decide) (by decide) (by decide) (by decide) (by decide) (by decide)
      (by decide)).1.trans (by decide),
   (Probe_reads_output "1920,1080,30000/0\n".toList [] [] [] [] [] []).1
      (Or.inr ⟨"1920".toList, "1080".toList, "30000/0".toList, by decide,
        Or.inr (Or.inl ⟨"30000".toList, "0".toList, by decide, by decide,
          Or.inr (Or.inr (by decide))⟩)⟩)⟩

/-! ## The number fields of a format descriptor: theorems -/

theorem commonPrefixLen_spec : ∀ (cs p : List Char),
    commonPrefixLenIgnoreCase cs p ≤ cs.length ∧
    (cs.take (commonPrefixLenIgnoreCase cs p)).map asciiLower
      = p.take (commonPrefixLenIgnoreCase cs p) := by
  intro cs
  induction cs with
  | nil => intro p; simp [commonPrefixLenIgnoreCase]
  | cons c cs ih =>
    intro p
    cases p with
    | nil => simp [commonPrefixLenIgnoreCase]
    | cons q qs =>
      unfold commonPrefixLenIgnoreCase
      split_ifs with h
      · obtain ⟨h1, h2⟩ := ih qs
        refine ⟨by simp only [List.length_cons]; omega, ?_⟩
        simp only [List.take_succ_cons, List.map_cons, h, h2]
      · simp

/-- A text that `special` consumes to its end, up to letter case. -/
theorem commonPrefixLen_all {cs p : List Char} {k : Nat}
    (hk : k ≤ commonPrefixLenIgnoreCase cs p) (hd : cs.drop k = []) :
    cs.map asciiLower = p.take (commonPrefixLenIgnoreCase cs p) := by
  obtain ⟨h1, h2⟩ := commonPrefixLen_spec cs p
  have hlen : cs.length ≤ k := List.drop_eq_nil_iff.mp hd
  have ht : cs.take (commonPrefixLenIgnoreCase cs p) = cs := List.take_of_length_le (by omega)
  rw [ht] at h2
  exact h2

theorem commonPrefixLen_le (cs p : List Char) : commonPrefixLenIgnoreCase cs p ≤ p.length := by
  induction cs generalizing p with
  | nil => simp [commonPrefixLenIgnoreCase]
  | cons c cs ih =>
    cases p with
    | nil => simp [commonPrefixLenIgnoreCase]
    | cons q qs =>
      unfold commonPrefixLenIgnoreCase
      split_ifs
      · have := ih qs
        simp only [List.length_cons]
        omega
      · simp

/-- The texts made of an `inf` or `infinity` that `special` reads to their end. -/
theorem infinity_spelling {cs : List Char}
    (h : infinityLen (commonPrefixLenIgnoreCase cs "infinity".toList) = 3 ∨
      infinityLen (commonPrefixLenIgnoreCase cs "infinity".toList) = 8)
    (hd : cs.drop (infinityLen (commonPrefixLenIgnoreCase cs "infinity".toList)) = []) :
    cs.map asciiLower = "inf".toList ∨ cs.map asciiLower = "infinity".toList := by
  have hle := commonPrefixLen_le cs "infinity".toList
  have hlen : "infinity".toList.length = 8 := by decide
  rw [hlen] at hle
  obtain ⟨h1, _⟩ := commonPrefixLen_spec cs "infinity".toList
  have hl : cs.length ≤ infinityLen (commonPrefixLenIgnoreCase cs "infinity".toList) :=
    List.drop_eq_nil_iff.mp hd
  have hk : infinityLen (commonPrefixLenIgnoreCase cs "infinity".toList)
      ≤ commonPrefixLenIgnoreCase cs "infinity".toList := by
    unfold infinityLen
    split_ifs <;> omega
  have hall := commonPrefixLen_all hk hd
  have hn : commonPrefixLenIgnoreCase cs "infinity".toList = 3 ∨
      commonPrefixLenIgnoreCase cs "infinity".toList = 8 := by
    unfold infinityLen at h hl
    split_ifs at h hl <;> omega
  rcases hn with hn | hn
  · left
    rw [hall, hn]
    decide
  · right
    rw [hall, hn]
    decide

/-- What `special` reads to its end is one of the special spellings, and its value is
not finite. -/
theorem special_spelling {s : List Char} {x : F64} (h : special s = some (x, [])) :
    isSpecialSpelling s = true ∧ ∀ t m e, x ≠ .fin t m e := by
  cases s with
  | nil => simp [special] at h
  | cons c cs =>
    unfold special at h
    dsimp only at h
    by_cases hsign : c = '+' ∨ c = '-'
    · rw [if_pos hsign] at h
      split_ifs at h with hn
      simp only [Option.some.injEq, Prod.mk.injEq] at h
      obtain ⟨hx, hd⟩ := h
      refine ⟨?_, fun t m e hc => by rw [← hx] at hc; cases hc⟩
      have hsp := infinity_spelling hn hd
      unfold isSpecialSpelling
      simp only [List.map_cons, decide_eq_true_eq]
      rcases hsign with hc | hc <;> subst hc <;> rcases hsp with hsp | hsp <;> rw [hsp] <;>
        decide
    · rw [if_neg hsign] at h
      by_cases hi : c = 'i' ∨ c = 'I'
      · rw [if_pos hi] at h
        split_ifs at h with hn
        simp only [Option.some.injEq, Prod.mk.injEq] at h
        obtain ⟨hx, hd⟩ := h
        refine ⟨?_, fun t m e hc => by rw [← hx] at hc; cases hc⟩
        have hsp := infinity_spelling hn hd
        unfold isSpecialSpelling
        simp only [decide_eq_true_eq]
        rcases hsp with hsp | hsp <;> rw [hsp] <;> decide
      · rw [if_neg hi] at h
        by_cases hnn : c = 'n' ∨ c = 'N'
        · rw [if_pos hnn] at h
          split_ifs at h with hn
          simp only [Option.some.injEq, Prod.mk.injEq] at h
          obtain ⟨hx, hd⟩ := h
          refine ⟨?_, fun t m e hc => by rw [← hx] at hc; cases hc⟩
          have hall := commonPrefixLen_all (p := "nan".toList) (k := 3) (le_of_eq hn.symm) hd
          unfold isSpecialSpelling
          simp only [decide_eq_true_eq]
          left
          rw [hall, hn]
          decide
        · rw [if_neg hnn] at h
          cases h

/-- The texts `strconv.ParseFloat` accepts are the real numbers and the special
spellings: a text that is neither is rejected. -/
theorem strconvParseFloat_eq_none {s : List Char} (h1 : ¬ IsRealNumber s)
    (h2 : isSpecialSpelling s = false) : strconvParseFloat s = none := by
  unfold IsRealNumber at h1
  unfold strconvParseFloat at h1 ⊢
  cases hsp : special s with
  | some p =>
    obtain ⟨x, rest⟩ := p
    dsimp only
    by_cases hr : rest = []
    · subst hr
      rw [(special_spelling hsp).1] at h2
      cases h2
    · rw [if_neg hr]
  | none =>
    rw [hsp] at h1
    dsimp only at h1 ⊢
    cases hrf : readFloat s with
    | none => rfl
    | some p =>
      obtain ⟨r, rest⟩ := p
      rw [hrf] at h1
      dsimp only at h1 ⊢
      by_cases hr : rest ≠ []
      · rw [if_pos hr]
      · rw [if_neg hr] at h1 ⊢
        cases hv : r.value with
        | fin t m e =>
          rw [hv] at h1
          exact absurd ⟨t, m, e, rfl⟩ h1
        | inf t => rfl
        | nan => rfl

/-- Without a digit in the text the digit loop of `readFloat` sees no digit. -/
theorem readMantissa_no_digit : ∀ (body : List Char) (st : MantState), st.sawdigits = false →
    (∀ c ∈ body, c.isDigit = false) → (readMantissa false st body).1.sawdigits = false := by
  intro body
  induction body with
  | nil => intro st h _; exact h
  | cons c cs ih =>
    intro st h hall
    have hc := hall c (List.mem_cons_self _ _)
    have hcs : ∀ d ∈ cs, d.isDigit = false := fun d hd => hall d (List.mem_cons_of_mem _ hd)
    unfold readMantissa
    split_ifs <;> first | exact ih _ h hcs | exact h | (exfalso; simp_all)

theorem readFloat_no_digit {s : List Char} (h : ∀ c ∈ s, c.isDigit = false) :
    readFloat s = none := by
  have htail : ∀ c ∈ (if s.head? = some '+' ∨ s.head? = some '-' then s.tail else s),
      c.isDigit = false := by
    intro c hc
    split_ifs at hc
    · exact h c (List.mem_of_mem_tail hc)
    · exact h c hc
  have hhex : hasHexPrefix (if s.head? = some '+' ∨ s.head? = some '-' then s.tail else s)
      = false := by
    generalize (if s.head? = some '+' ∨ s.head? = some '-' then s.tail else s) = t at htail
    unfold hasHexPrefix
    split
    · next c0 c1 c2 cs =>
        have h0 := htail c0 (List.mem_cons_self _ _)
        simp only [decide_eq_false_iff_not, not_and]
        intro hc0
        rw [hc0] at h0
        exact absurd h0 (by decide)
    · rfl
  unfold readFloat readFloatDigits
  rw [hhex]
  simp only [Bool.false_eq_true, if_false]
  rw [if_pos (readMantissa_no_digit _ _ rfl htail)]

/-- A character that cannot occur in a number text stops the digit loop of `readFloat`:
it is still in the text left over. -/
theorem readMantissa_keeps (hex : Bool) {c : Char} (hf : isFloatChar c = false) :
    ∀ (body : List Char) (st : MantState), c ∈ body → c ∈ (readMantissa hex st body).2 := by
  simp only [isFloatChar, Bool.or_eq_false_iff, decide_eq_false_iff_not, not_or] at hf
  obtain ⟨⟨hdig, hhexl⟩, _, _, hdot, hund, _⟩ := hf
  intro body
  induction body with
  | nil => intro st hc; cases hc
  | cons d ds ih =>
    intro st hc
    by_cases hcd : c = d
    · subst hcd
      unfold readMantissa
      simp [hund, hdot, hdig, hhexl]
    · have hds : c ∈ ds := by
        rcases List.mem_cons.mp hc with h | h
        · exact absurd h hcd
        · exact h
      unfold readMantissa
      split_ifs <;> first | exact ih _ hds | exact List.mem_cons_of_mem _ hds

theorem readExponent_keeps {c : Char} (hf : isFloatChar c = false) :
    ∀ (body : List Char) (e : Nat) (u : Bool), c ∈ body → c ∈ (readExponent e u body).2.2 := by
  simp only [isFloatChar, Bool.or_eq_false_iff, decide_eq_false_iff_not, not_or] at hf
  obtain ⟨⟨hdig, _⟩, _, _, _, hund, _⟩ := hf
  intro body
  induction body with
  | nil => intro e u hc; cases hc
  | cons d ds ih =>
    intro e u hc
    by_cases hcd : c = d
    · subst hcd
      unfold readExponent
      simp [hund, hdig]
    · have hds : c ∈ ds := by
        rcases List.mem_cons.mp hc with h | h
        · exact absurd h hcd
        · exact h
      unfold readExponent
      split_ifs <;> first | exact ih _ _ hds | exact List.mem_cons_of_mem _ hds

theorem readFloatEnd_rest {s : List Char} {neg hex : Bool} {st : MantState} {dp : Int}
    {u : Bool} {rest : List Char} {r : FloatText} {rest' : List Char}
    (h : readFloatEnd s neg hex st dp u rest = some (r, rest')) : rest' = rest := by
  unfold readFloatEnd at h
  by_cases hu : u = true ∧ underscoreOK (s.take (s.length - rest.length)) = false
  · rw [if_pos hu] at h
    cases h
  · rw [if_neg hu] at h
    simp only [Option.some.injEq, Prod.mk.injEq] at h
    exact h.2.symm

/-- A character that cannot occur in a number text is never consumed by `readFloat`. -/
theorem readFloat_keeps {s : List Char} {c : Char} (hc : c ∈ s) (hf : isFloatChar c = false)
    {r : FloatText} {rest : List Char} (h : readFloat s = some (r, rest)) : c ∈ rest := by
  have hf' := hf
  simp only [isFloatChar, Bool.or_eq_false_iff, decide_eq_false_iff_not, not_or] at hf'
  obtain ⟨⟨hdig, hhexl⟩, hplus, hminus, _, _, hx, hX, hp, hP⟩ := hf'
  have he : c ≠ 'e' ∧ c ≠ 'E' := by
    constructor <;> intro hce <;> rw [hce] at hhexl <;> exact absurd hhexl (by decide)
  -- stripping a sign keeps the character
  have hstrip : ∀ t : List Char, c ∈ t →
      c ∈ (if t.head? = some '+' ∨ t.head? = some '-' then t.tail else t) := by
    intro t ht
    cases t with
    | nil => cases ht
    | cons d ds =>
      simp only [List.head?_cons, Option.some.injEq, List.tail_cons]
      split_ifs with hd
      · rcases List.mem_cons.mp ht with hcd | hcd
        · rcases hd with hd | hd
          · exact absurd (hcd.trans hd) hplus
          · exact absurd (hcd.trans hd) hminus
        · exact hcd
      · exact ht
  have hbody : c ∈ (if hasHexPrefix
        (if s.head? = some '+' ∨ s.head? = some '-' then s.tail else s) = true
      then (if s.head? = some '+' ∨ s.head? = some '-' then s.tail else s).drop 2
      else (if s.head? = some '+' ∨ s.head? = some '-' then s.tail else s)) := by
    have h1 := hstrip s hc
    generalize (if s.head? = some '+' ∨ s.head? = some '-' then s.tail else s) = t at h1 ⊢
    split_ifs with hh
    · unfold hasHexPrefix at hh
      split at hh
      · next c0 c1 c2 cs =>
          simp only [decide_eq_true_eq] at hh
          simp only [List.drop_succ_cons, List.drop_zero]
          rcases List.mem_cons.mp h1 with hcd | hcd
          · rw [hcd, hh.1] at hdig
            exact absurd hdig (by decide)
          · rcases List.mem_cons.mp hcd with hcd | hcd
            · rcases hh.2 with h2 | h2
              · exact absurd (hcd.trans h2) hx
              · exact absurd (hcd.trans h2) hX
            · exact hcd
      · cases hh
    · exact h1
  unfold readFloat readFloatDigits at h
  generalize (if s.head? = some '+' ∨ s.head? = some '-' then s.tail else s) = s1 at h hbody
  generalize hasHexPrefix s1 = hex at h hbody
  generalize (if hex = true then s1.drop 2 else s1) = body at h hbody
  have hrest := readMantissa_keeps hex hf body {} hbody
  generalize readMantissa hex {} body = res at h hrest
  by_cases hsd : res.1.sawdigits = false
  · rw [if_pos hsd] at h
    cases h
  · rw [if_neg hsd] at h
    unfold readFloatExp at h
    split at h
    · next d ds hres =>
        rw [hres] at hrest
        by_cases h1 : (hex = false ∧ (d = 'e' ∨ d = 'E')) ∨ (hex = true ∧ (d = 'p' ∨ d = 'P'))
        · -- an exponent follows
          rw [if_pos h1] at h
          have hds : c ∈ ds := by
            rcases List.mem_cons.mp hrest with hcd | hcd
            · rcases h1 with ⟨_, h1 | h1⟩ | ⟨_, h1 | h1⟩
              · exact absurd (hcd.trans h1) he.1
              · exact absurd (hcd.trans h1) he.2
              · exact absurd (hcd.trans h1) hp
              · exact absurd (hcd.trans h1) hP
            · exact hcd
          have hds1 := hstrip ds hds
          generalize (if ds.head? = some '+' ∨ ds.head? = some '-' then ds.tail else ds)
            = ds1 at h hds1
          by_cases hg : ds1.head?.all Char.isDigit = false ∨ ds1 = []
          · rw [if_pos hg] at h
            cases h
          · rw [if_neg hg] at h
            rw [readFloatEnd_rest h]
            exact readExponent_keeps hf _ _ _ hds1
        · rw [if_neg h1] at h
          by_cases hh : hex = true
          · rw [if_pos hh] at h
            cases h
          · rw [if_neg hh] at h
            rw [readFloatEnd_rest h]
            exact hrest
    · next hres =>
        rw [hres] at hrest
        cases hrest

/-- A text that does not look like a number is not a real number. -/
theorem nonNumeric_not_real {field : List Char} (h : NonNumeric field) :
    ¬ IsRealNumber field := by
  rintro ⟨t, m, e, hp⟩
  unfold strconvParseFloat at hp
  cases hsp : special field with
  | some p =>
    obtain ⟨x, rest⟩ := p
    rw [hsp] at hp
    dsimp only at hp
    split_ifs at hp with hr
    subst hr
    simp only [Option.some.injEq] at hp
    exact (special_spelling hsp).2 t m e hp
  | none =>
    rw [hsp] at hp
    dsimp only at hp
    rcases h with h | ⟨c, hc, hf⟩
    · rw [readFloat_no_digit h] at hp
      cases hp
    · cases hrf : readFloat field with
      | none =>
        rw [hrf] at hp
        cases hp
      | some p =>
        obtain ⟨r, rest⟩ := p
        rw [hrf] at hp
        dsimp only at hp
        have hne : rest ≠ [] := List.ne_nil_of_mem (readFloat_keeps hc hf hrf)
        rw [if_pos hne] at hp
        cases hp

set_option maxRecDepth 100000 in
/-- C1, the claim as stated fails: the format string `1080p:NaN:` has three fields and a
well-formed size, and its non-empty frame-rate field `NaN` is not a real number, yet
`parseFormat` returns no error: `strconv.ParseFloat` accepts `NaN`, and the descriptor
has the frame rate NaN. In the same way `1080p:+Inf:` and `1280x720::-INFINITY` are
accepted, with an infinite frame rate and an infinite quality factor. -/
theorem parseFormat_accepts_NaN :
    split ':' "1080p:NaN:".toList = ["1080p".toList, "NaN".toList, []] ∧
    "NaN".toList ≠ [] ∧ ¬ IsRealNumber "NaN".toList ∧
    parseFormat strconvParseFloat "1080p:NaN:".toList
      = ({ Height := 1080, FrameRate := F64.nan }, none) ∧
    ¬ IsRealNumber "+Inf".toList ∧
    parseFormat strconvParseFloat "1080p:+Inf:".toList
      = ({ Height := 1080, FrameRate := F64.inf false }, none) ∧
    ¬ IsRealNumber "-INFINITY".toList ∧
    parseFormat strconvParseFloat "1280x720::-INFINITY".toList
      = ({ Width := 1280, Height := 720, QualityFactor := F64.inf true }, none) :=
  ⟨by decide, by decide, nonNumeric_not_real (Or.inl (by decide)), by decide,
   nonNumeric_not_real (Or.inl (by decide)), by decide,
   nonNumeric_not_real (Or.inl (by decide)), by decide⟩

/-- C1, amended: `parseFormat` rejects malformed format strings. For every string `v`,
if `v` does not split on `:` into exactly three fields, or the size field neither ends in
`p` nor contains an `x`, or an integer part of the size field is not a decimal integer, or
a non-empty frame-rate or quality field is not a real number and is not one of the
spellings `NaN`, `Inf`, `Infinity` (in any letter case, the last two with an optional
sign), then `parseFormat v` returns the zero `ParsedFormat` together with the error
"malformed format". A field is a real number when `strconv.ParseFloat` converts it to a
finite float64; no field without a decimal digit, and no field with a character that
cannot occur in a number text, is one. -/
theorem parseFormat_rejects_malformed_text (v : List Char) :
    (MalformedFormat v → parseFormat strconvParseFloat v = ({}, some "malformed format")) ∧
    (∀ field : List Char, NonNumeric field → ¬ IsRealNumber field) := by
  refine ⟨?_, fun field h => nonNumeric_not_real h⟩
  intro h
  apply parseFormat_rejects_malformed
  rcases h with hlen | ⟨size, frameRate, quality, hs, hbad⟩
  · exact Or.inl hlen
  · refine Or.inr ⟨size, frameRate, quality, hs, ?_⟩
    rcases hbad with h1 | h2 | h3 | ⟨hne, hr, hsp⟩ | ⟨hne, hr, hsp⟩
    · exact Or.inl h1
    · exact Or.inr (Or.inl h2)
    · exact Or.inr (Or.inr (Or.inl h3))
    · exact Or.inr (Or.inr (Or.inr (Or.inl ⟨hne, strconvParseFloat_eq_none hr hsp⟩)))
    · exact Or.inr (Or.inr (Or.inr (Or.inr ⟨hne, strconvParseFloat_eq_none hr hsp⟩)))

set_option maxRecDepth 100000 in
/-- Witness for the amended C1: `1080p:abc:`, whose frame-rate field has no digit, and
`640x360::12fps`, whose quality field has the letter `s`, are malformed and rejected; so
is `1080::`, whose size field neither ends in `p` nor contains an `x`. `strconv.ParseFloat`
rejects `abc` and `12fps` and converts `29.97` to a finite float64. -/
theorem parseFormat_rejects_malformed_text_witness :
    (MalformedFormat "1080p:abc:".toList ∧
      parseFormat strconvParseFloat "1080p:abc:".toList = ({}, some "malformed format")) ∧
    (MalformedFormat "640x360::12fps".toList ∧
      parseFormat strconvParseFloat "640x360::12fps".toList = ({}, some "malformed format")) ∧
    (MalformedFormat "1080::".toList ∧
      parseFormat strconvParseFloat "1080::".toList = ({}, some "malformed format")) ∧
    strconvParseFloat "abc".toList = none ∧ strconvParseFloat "12fps".toList = none ∧
    strconvParseFloat "29.97".toList = some (.fin false 8435805052018360 (-48)) := by
  have m1 : MalformedFormat "1080p:abc:".toList :=
    Or.inr ⟨"1080p".toList, "abc".toList, [], by decide,
      Or.inr (Or.inr (Or.inr (Or.inl ⟨by decide,
        (parseFormat_rejects_malformed_text []).2 "abc".toList (Or.inl (by decide)),
        by decide⟩)))⟩
  have m2 : MalformedFormat "640x360::12fps".toList :=
    Or.inr ⟨"640x360".toList, [], "12fps".toList, by decide,
      Or.inr (Or.inr (Or.inr (Or.inr ⟨by decide,
        (parseFormat_rejects_malformed_text []).2 "12fps".toList
          (Or.inr ⟨'s', by decide, by decide⟩),
        by decide⟩)))⟩
  have m3 : MalformedFormat "1080::".toList :=
    Or.inr ⟨"1080".toList, [], [], by decide, Or.inl (by decide)⟩
  exact ⟨⟨m1, (parseFormat_rejects_malformed_text _).1 m1⟩,
    ⟨m2, (parseFormat_rejects_malformed_text _).1 m2⟩,
    ⟨m3, (parseFormat_rejects_malformed_text _).1 m3⟩, by decide, by decide, by decide⟩

end Tohls
